import Mathlib

/-!
Verification of the Robin-Hood open-addressing hash map in `src/hash_map.h`.

The embedding models:
* `size_t` values as `Nat`; the two places where `size_t` wrap-around can
  actually occur (the subtraction in `get_distance`, the decrement
  `capacity_ - 1` in `rehash`/`next_bucket`, and the shift in
  `get_capacity`) are modelled with an explicit `% 2 ^ 64`;
* the possibly non-terminating probe loops (`find_bucket`'s scan, the
  placement loop of `insert`, the backward-shift loop of `erase`, and the
  doubling loop of `get_capacity`) with explicit fuel, returning `none`
  when the fuel is exhausted — which is proved unreachable from states
  satisfying the table invariant;
* the `float` load factors `0.8f` and `0.2f` by their exact values
  `13421773 / 2 ^ 24` and `13421773 / 2 ^ 26`; for the power-of-two
  capacities that actually occur the C++ computation
  `ceil(0.8f * capacity)` / `floor(0.2f * capacity)` is exact, so the
  integer formulas below agree with it;
* the raw-storage payload of a bucket as `Option (κ × ν)`; occupancy is
  decided, exactly as in the C++, by comparing the distance field with the
  sentinel `UNOCCUPIED`.
-/

set_option maxHeartbeats 1000000
set_option linter.unusedSectionVars false

namespace SuperHashMap

/-- `const size_t UNOCCUPIED = -1;` — the sentinel distance marking an
unoccupied bucket. -/
def UNOCCUPIED : Nat := 2 ^ 64 - 1

/-- `size_t` subtraction `a - b` (two's-complement wrap-around) for
`b < 2 ^ 64`. -/
def sub64 (a b : Nat) : Nat := (a + 2 ^ 64 - b) % 2 ^ 64

/-- One bucket (`HashBucket`): raw payload storage, the cached hash and the
probe distance.  The payload is present exactly when the bucket is occupied;
`hash_` of a never-occupied bucket is modelled as `0` (uninitialised in C++,
never read).  `clear` keeps the stale hash, as the C++ does. -/
structure HashBucket (κ ν : Type) where
  payload : Option (κ × ν)
  hash_ : Nat
  distance_ : Nat
deriving DecidableEq, Repr

namespace HashBucket

variable {κ ν : Type}

/-- A default-constructed bucket: `distance_ = UNOCCUPIED`. -/
def vacant : HashBucket κ ν := ⟨none, 0, UNOCCUPIED⟩

/-- `bool empty() const { return distance_ == UNOCCUPIED; }` -/
def empty (b : HashBucket κ ν) : Prop := b.distance_ = UNOCCUPIED

instance (b : HashBucket κ ν) : Decidable b.empty :=
  inferInstanceAs (Decidable (_ = _))

/-- The stored key, when the payload is present (`get().first`). -/
def keyOf (b : HashBucket κ ν) : Option κ := b.payload.map Prod.fst

/-- The stored value, when the payload is present (`get().second`). -/
def valOf (b : HashBucket κ ν) : Option ν := b.payload.map Prod.snd

/-- `void clear()` — destroy the payload, reset the distance to the
sentinel; the cached hash is left stale. -/
def clear (b : HashBucket κ ν) : HashBucket κ ν :=
  { b with payload := none, distance_ := UNOCCUPIED }

end HashBucket

/-- The hash map state: the injected hasher plus the data members of the C++
class `HashMap`. -/
structure HashMap (κ ν : Type) where
  hasher_ : κ → Nat
  size_ : Nat
  capacity_ : Nat
  mask_ : Nat
  buckets_ : List (HashBucket κ ν)
  max_size_ : Nat
  min_size_ : Nat

variable {κ ν : Type} [DecidableEq κ]

/-- Bucket at index `i` (`buckets_[i]`); out-of-range reads (which are
undefined behaviour in C++ and proved unreachable here) yield a vacant
bucket. -/
def bkt (B : List (HashBucket κ ν)) (i : Nat) : HashBucket κ ν :=
  B.getD i HashBucket.vacant

/-- `ceil(0.8f * c)` for the capacities that occur (0 or a power of two
`≤ 2 ^ 63`), computed exactly: `0.8f = 13421773 / 2 ^ 24`. -/
def ceilMaxLoad (c : Nat) : Nat := (13421773 * c + (2 ^ 24 - 1)) / 2 ^ 24

/-- `floor(0.2f * c)` for the capacities that occur, computed exactly:
`0.2f = 13421773 / 2 ^ 26`. -/
def floorMinLoad (c : Nat) : Nat := 13421773 * c / 2 ^ 26

/-- `void update_sizes()` — recompute the grow/shrink thresholds. -/
def update_sizes (m : HashMap κ ν) : HashMap κ ν :=
  { m with
    max_size_ := min m.mask_ (ceilMaxLoad m.capacity_),
    min_size_ := floorMinLoad m.capacity_ }

/-- The doubling loop of `get_capacity`: `while (size < count) size <<= 1;`
with the `size_t` wrap-around made explicit.  Once `size` wraps to `0` the
C++ loop can never exit, so exhausting the fuel with `size < count` still
true marks divergence. -/
def capLoop : Nat → Nat → Nat → Option Nat
  | 0, count, size => if size < count then none else some size
  | fuel + 1, count, size =>
    if size < count then capLoop fuel count (size <<< 1 % 2 ^ 64) else some size

/-- `static size_t get_capacity(size_t count)`: 0 for `count = 0`, otherwise
the smallest power of two `≥ count`, doubled (in `size_t` arithmetic).
64 fuel steps are enough to either exit the loop or reach the absorbing
state `size = 0`. -/
def get_capacity (count : Nat) : Option Nat :=
  if count = 0 then some 0
  else (capLoop 64 count 1).map fun size => size <<< 1 % 2 ^ 64

/-- The constructor `HashMap(Hash hasher, size_t count)`. -/
def mkHashMap (hasher : κ → Nat) (count : Nat) : Option (HashMap κ ν) :=
  (get_capacity count).map fun capacity =>
    update_sizes
      { hasher_ := hasher
        size_ := 0
        capacity_ := capacity
        mask_ := if capacity = 0 then 0 else capacity - 1
        buckets_ := List.replicate capacity HashBucket.vacant
        max_size_ := 0
        min_size_ := 0 }

namespace HashMap

/-- `bool empty() const { return size_ == 0; }` -/
def empty (m : HashMap κ ν) : Prop := m.size_ = 0

instance (m : HashMap κ ν) : Decidable m.empty :=
  inferInstanceAs (Decidable (_ = _))

/-- `size_t get_ideal(size_t hash) const { return hash & mask_; }` -/
def get_ideal (m : HashMap κ ν) (hash : Nat) : Nat := hash &&& m.mask_

/-- `size_t next_bucket(size_t bucket) const { return (bucket + 1) & (capacity_ - 1); }` -/
def next_bucket (m : HashMap κ ν) (bucket : Nat) : Nat :=
  (bucket + 1) &&& sub64 m.capacity_ 1

/-- `size_t get_distance(size_t p1, size_t p2) { return (p2 - p1) & mask_; }`
(`size_t` subtraction wraps modulo `2 ^ 64`). -/
def get_distance (m : HashMap κ ν) (p1 p2 : Nat) : Nat :=
  sub64 p2 p1 &&& m.mask_

/-- `bool check(size_t position, const Key& key, size_t hash) const`. -/
def check (m : HashMap κ ν) (position : Nat) (key : κ) (hash : Nat) : Prop :=
  ¬m.empty ∧ ¬(bkt m.buckets_ position).empty ∧
    (bkt m.buckets_ position).hash_ = hash ∧
    (bkt m.buckets_ position).keyOf = some key

instance (m : HashMap κ ν) (position : Nat) (key : κ) (hash : Nat) :
    Decidable (m.check position key hash) := by
  unfold check; infer_instance

end HashMap

/-- The scan loop of `find_bucket`; fuel-exhaustion (`none`) marks a probe
that would cycle forever, which is proved unreachable under the invariant. -/
def findLoop (m : HashMap κ ν) (key : κ) (hash : Nat) :
    Nat → Nat → Nat → Option Nat
  | 0, _, _ => none
  | fuel + 1, bucket, distance =>
    if ¬(bkt m.buckets_ bucket).empty ∧
        distance ≤ (bkt m.buckets_ bucket).distance_ then
      if (bkt m.buckets_ bucket).hash_ = hash ∧
          (bkt m.buckets_ bucket).keyOf = some key then
        some bucket
      else findLoop m key hash fuel (m.next_bucket bucket) (distance + 1)
    else some bucket

/-- `size_t find_bucket(const Key& key, size_t hash) const`. -/
def find_bucket (m : HashMap κ ν) (key : κ) (hash : Nat) : Option Nat :=
  let bucket := m.get_ideal hash
  if m.empty then some bucket
  else findLoop m key hash (m.capacity_ + 1) bucket 0

/-- The Robin-Hood placement loop of `insert` (from `position = get_ideal(hash)`
onwards), acting on the bucket array directly.  Returns the updated buckets,
the final placement position, and the recorded `answer` (the first swap
position, `none` while no swap has occurred). -/
def placeLoop (cap : Nat) :
    Nat → List (HashBucket κ ν) → Option (κ × ν) → Nat → Nat → Nat →
    Option Nat → Option (List (HashBucket κ ν) × Nat × Option Nat)
  | 0, _, _, _, _, _, _ => none
  | fuel + 1, B, value, hash, position, distance, answer =>
    let b := bkt B position
    if b.empty then
      some (B.set position ⟨value, hash, distance⟩, position, answer)
    else if b.distance_ < distance then
      placeLoop cap fuel (B.set position ⟨value, hash, distance⟩)
        b.payload b.hash_ ((position + 1) &&& sub64 cap 1) (b.distance_ + 1)
        (match answer with | none => some position | some a => some a)
    else
      placeLoop cap fuel B value hash ((position + 1) &&& sub64 cap 1)
        (distance + 1) answer

/-- The re-insertion loop of `rehash`, parametrised by the insertion
function (`insert` at the remaining rehash fuel):
`for (auto&& cur : old_buckets) if (!cur.empty()) insert(std::move(cur.value()));`
A non-empty bucket without payload is undefined behaviour in C++ (reading
destroyed storage) and is marked `none`. -/
def reinsertWith
    (ins : HashMap κ ν → (κ × ν) → Nat → Option (HashMap κ ν × Nat)) :
    HashMap κ ν → List (HashBucket κ ν) → Option (HashMap κ ν)
  | m, [] => some m
  | m, cur :: rest =>
    if cur.empty then reinsertWith ins m rest
    else
      match cur.payload with
      | none => none
      | some v =>
        match ins m v (m.hasher_ v.1) with
        | none => none
        | some (m', _) => reinsertWith ins m' rest

/-- The state of the map right after `rehash(size)` has installed the fresh
bucket array and reset the counters and thresholds (`size_t` wrap-around of
`capacity_ - 1` made explicit), before re-insertion. -/
def freshTable (m : HashMap κ ν) (size : Nat) : HashMap κ ν :=
  update_sizes
    { m with
      buckets_ := List.replicate size HashBucket.vacant
      capacity_ := size
      mask_ := sub64 size 1
      size_ := 0 }

/-- `void rehash(size_t size)`, parametrised by the insertion function used
for re-insertion: fresh table of `size` vacant buckets, reset counters and
thresholds, then re-insert every occupied old bucket in slot order. -/
def rehashWith
    (ins : HashMap κ ν → (κ × ν) → Nat → Option (HashMap κ ν × Nat))
    (m : HashMap κ ν) (size : Nat) : Option (HashMap κ ν) :=
  reinsertWith ins (freshTable m size) m.buckets_

/-- `size_t insert(hash_value_type&& value, size_t hash)`.  `rfuel` bounds the
depth of `rehash` recursion (a rehash whose re-insertions themselves rehash);
depth 1 suffices in every state satisfying the invariant, and exhausting it
marks the pathological cascade as divergence. -/
def insertCore : Nat → HashMap κ ν → (κ × ν) → Nat → Option (HashMap κ ν × Nat)
  | rfuel, m, value, hash =>
    match find_bucket m value.1 hash with
    | none => none
    | some position₀ =>
      if m.check position₀ value.1 hash then some (m, position₀)
      else
        if m.size_ = m.max_size_ then
          match rfuel with
          | 0 => none
          | r + 1 =>
            match get_capacity (m.size_ + 1) with
            | none => none
            | some newCap =>
              match rehashWith (fun m' v h => insertCore r m' v h) m newCap with
              | none => none
              | some m' =>
                match placeLoop m'.capacity_ (m'.capacity_ + 1) m'.buckets_
                    (some value) hash (m'.get_ideal hash) 0 none with
                | none => none
                | some (B, position, answer) =>
                  some ({ m' with buckets_ := B, size_ := m'.size_ + 1 },
                    match answer with | none => position | some a => a)
        else
          match placeLoop m.capacity_ (m.capacity_ + 1) m.buckets_
              (some value) hash (m.get_ideal hash) 0 none with
          | none => none
          | some (B, position, answer) =>
            some ({ m with buckets_ := B, size_ := m.size_ + 1 },
              match answer with | none => position | some a => a)

/-- The backward-shift loop of `erase`.  The loop condition is
`buckets_[to_swap].distance() != 0`; an empty slot (distance `UNOCCUPIED`)
is skipped with `continue`. -/
def shiftLoop (cap mask : Nat) :
    Nat → List (HashBucket κ ν) → Nat → Nat →
    Option (List (HashBucket κ ν))
  | 0, _, _, _ => none
  | fuel + 1, B, position, to_swap =>
    let b := bkt B to_swap
    if b.distance_ = 0 then some B
    else if b.empty then
      shiftLoop cap mask fuel B position ((to_swap + 1) &&& sub64 cap 1)
    else
      shiftLoop cap mask fuel
        ((B.set position
            ⟨b.payload, b.hash_, sub64 position (b.hash_ &&& mask) &&& mask⟩).set
          to_swap b.clear)
        ((position + 1) &&& sub64 cap 1) ((to_swap + 1) &&& sub64 cap 1)

/-- `void erase(const Key& key, size_t hash)`. -/
def eraseCore (rfuel : Nat) (m : HashMap κ ν) (key : κ) (hash : Nat) :
    Option (HashMap κ ν) :=
  match find_bucket m key hash with
  | none => none
  | some position =>
    if m.check position key hash then
      let m₁ : HashMap κ ν :=
        { m with
          buckets_ := m.buckets_.set position (bkt m.buckets_ position).clear
          size_ := m.size_ - 1 }
      if m₁.empty then some m₁
      else if m₁.size_ < m₁.min_size_ then
        match get_capacity m₁.size_ with
        | none => none
        | some newCap => rehashWith (fun m' v h => insertCore rfuel m' v h) m₁ newCap
      else
        match shiftLoop m₁.capacity_ m₁.mask_ (m₁.capacity_ + 1) m₁.buckets_
            position (m₁.next_bucket position) with
        | none => none
        | some B => some { m₁ with buckets_ := B }
    else some m

namespace HashMap

/-- `void insert(const pair_type& value)`. -/
def insert (m : HashMap κ ν) (value : κ × ν) : Option (HashMap κ ν) :=
  (insertCore 1 m value (m.hasher_ value.1)).map Prod.fst

/-- `void erase(const Key& key)`. -/
def erase (m : HashMap κ ν) (key : κ) : Option (HashMap κ ν) :=
  eraseCore 1 m key (m.hasher_ key)

/-- `iterator find(const Key& key)`: `some none` is the end iterator (miss),
`some (some p)` an iterator to slot `p`; `none` marks a diverging probe. -/
def find (m : HashMap κ ν) (key : κ) : Option (Option Nat) :=
  if m.empty then some none
  else
    let hash := m.hasher_ key
    match find_bucket m key hash with
    | none => none
    | some position =>
      if m.check position key hash then some (some position) else some none

/-- `Value& at(const Key& key)`: `some none` models the thrown
`std::out_of_range` (NotFound), `some (some v)` a successful access
returning `v`. -/
def atVal (m : HashMap κ ν) (key : κ) : Option (Option ν) :=
  if m.empty then some none
  else
    let hash := m.hasher_ key
    match find_bucket m key hash with
    | none => none
    | some position =>
      if m.check position key hash then some ((bkt m.buckets_ position).valOf)
      else some none

/-- `Value& operator[](const Key& key)`: returns the updated map and the slot
whose value the returned reference designates. -/
def index [Inhabited ν] (m : HashMap κ ν) (key : κ) :
    Option (HashMap κ ν × Nat) :=
  let hash := m.hasher_ key
  match find_bucket m key hash with
  | none => none
  | some position =>
    if m.check position key hash then some (m, position)
    else insertCore 1 m (key, default) hash

/-- `void clear()`. -/
def clear (m : HashMap κ ν) : HashMap κ ν :=
  { m with size_ := 0, capacity_ := 0, mask_ := 0, max_size_ := 0,
           min_size_ := 0, buckets_ := [] }

end HashMap

/-! ### The table invariant -/

/-- Slot `i` holds a payload. -/
def occAt (B : List (HashBucket κ ν)) (i : Nat) : Prop :=
  (bkt B i).payload.isSome = true

instance (B : List (HashBucket κ ν)) (i : Nat) : Decidable (occAt B i) :=
  inferInstanceAs (Decidable (_ = _))

/-- Displacement of slot `i` from the ideal slot of hash `h` in a table of
capacity `c`. -/
def dispOf (c h i : Nat) : Nat := (i + c - h % c) % c

/-- A slot is coherent: an occupied slot caches the hash of its key and
stores its true displacement; an unoccupied slot stores the sentinel. -/
def slotOK (H : κ → Nat) (c : Nat) (B : List (HashBucket κ ν)) (i : Nat) :
    Prop :=
  (∀ kv : κ × ν, (bkt B i).payload = some kv →
      (bkt B i).hash_ = H kv.1 ∧ (bkt B i).distance_ = dispOf c (H kv.1) i) ∧
  ((bkt B i).payload = none → (bkt B i).distance_ = UNOCCUPIED)

/-- The Robin-Hood adjacency invariant: a displaced resident's predecessor
slot is occupied and at most one step less displaced. -/
def adjOK (c : Nat) (B : List (HashBucket κ ν)) (i : Nat) : Prop :=
  occAt B i → (bkt B i).distance_ ≠ 0 →
    occAt B ((i + c - 1) % c) ∧
      (bkt B i).distance_ ≤ (bkt B ((i + c - 1) % c)).distance_ + 1

/-- No key is stored in two distinct slots. -/
def uniqOK (c : Nat) (B : List (HashBucket κ ν)) : Prop :=
  ∀ i < c, ∀ j < c, ∀ key : κ,
    (bkt B i).keyOf = some key → (bkt B j).keyOf = some key → i = j

/-- Number of occupied slots among the first `c`. -/
def occCount (c : Nat) (B : List (HashBucket κ ν)) : Nat :=
  ((Finset.range c).filter fun i => occAt B i).card

/-- The data-structure invariant of `HashMap`, satisfied by every reachable
state. -/
structure Inv (m : HashMap κ ν) : Prop where
  buckets_len : m.buckets_.length = m.capacity_
  cap_pow : m.capacity_ = 0 ∨ ∃ k, 1 ≤ k ∧ k ≤ 63 ∧ m.capacity_ = 2 ^ k
  mask_eq : m.mask_ = m.capacity_ - 1
  max_eq : m.max_size_ = min m.mask_ (ceilMaxLoad m.capacity_)
  min_eq : m.min_size_ = floorMinLoad m.capacity_
  size_eq : m.size_ = occCount m.capacity_ m.buckets_
  size_le : m.size_ ≤ m.max_size_
  slots : ∀ i < m.capacity_, slotOK m.hasher_ m.capacity_ m.buckets_ i
  adj : ∀ i < m.capacity_, adjOK m.capacity_ m.buckets_ i
  uniq : uniqOK m.capacity_ m.buckets_

/-- Key `key` is stored with value `v` in some slot. -/
def MapsTo (m : HashMap κ ν) (key : κ) (v : ν) : Prop :=
  ∃ i < m.capacity_, (bkt m.buckets_ i).payload = some (key, v)

/-- Key `key` is stored in some slot. -/
def HasKey (m : HashMap κ ν) (key : κ) : Prop :=
  ∃ i < m.capacity_, (bkt m.buckets_ i).keyOf = some key

/-- The map states reachable through the public interface. -/
inductive Reachable : HashMap κ ν → Prop where
  | ctor (hasher : κ → Nat) (count : Nat) {m : HashMap κ ν} :
      mkHashMap hasher count = some m → Reachable m
  | insert {m m' : HashMap κ ν} {value : κ × ν} :
      Reachable m → m.insert value = some m' → Reachable m'
  | erase {m m' : HashMap κ ν} {key : κ} :
      Reachable m → m.erase key = some m' → Reachable m'
  | index [Inhabited ν] {m m' : HashMap κ ν} {key : κ} {position : Nat} :
      Reachable m → m.index key = some (m', position) → Reachable m'
  | clear {m : HashMap κ ν} : Reachable m → Reachable m.clear

/-! ### Arithmetic lemmas -/

theorem land_mask (x k : Nat) : x &&& (2 ^ k - 1) = x % 2 ^ k :=
  Nat.and_pow_two_sub_one_eq_mod x k

theorem sub64_one {c : Nat} (h1 : 1 ≤ c) (h2 : c ≤ 2 ^ 64) : sub64 c 1 = c - 1 := by
  unfold sub64
  have : c + 2 ^ 64 - 1 = (c - 1) + 2 ^ 64 := by omega
  rw [this, Nat.add_mod_right, Nat.mod_eq_of_lt (by omega)]

/-- The masked `size_t` subtraction of `get_distance` computes the
difference modulo the (power-of-two) capacity. -/
theorem get_distance_bridge {k : Nat} (hk : k ≤ 64) (p1 p2 : Nat)
    (hp1 : p1 ≤ 2 ^ k) :
    sub64 p2 p1 &&& (2 ^ k - 1) = (p2 + 2 ^ k - p1) % 2 ^ k := by
  have hdvd : 2 ^ k ∣ 2 ^ 64 := pow_dvd_pow 2 hk
  have hle : 2 ^ k ≤ 2 ^ 64 := Nat.pow_le_pow_right (by norm_num) hk
  rw [land_mask, sub64, Nat.mod_mod_of_dvd _ hdvd]
  have h1 : p2 + 2 ^ 64 - p1 = (p2 + 2 ^ k - p1) + (2 ^ 64 - 2 ^ k) := by omega
  obtain ⟨t, ht⟩ : 2 ^ k ∣ (2 ^ 64 - 2 ^ k) := Nat.dvd_sub' hdvd dvd_rfl
  rw [h1, ht, Nat.add_mul_mod_self_left]

theorem dispOf_lt {c : Nat} (hc : 0 < c) (h i : Nat) : dispOf c h i < c :=
  Nat.mod_lt _ hc

theorem dispOf_spec {c : Nat} (hc : 0 < c) (h d : Nat) (hd : d < c) :
    dispOf c h ((h % c + d) % c) = d := by
  unfold dispOf
  have hhc : h % c < c := Nat.mod_lt _ hc
  have h1 : (h % c + d) % c + c - h % c = (h % c + d) % c + (c - h % c) := by
    omega
  rw [h1, Nat.mod_add_mod]
  have h2 : h % c + d + (c - h % c) = d + c := by omega
  rw [h2, Nat.add_mod_right, Nat.mod_eq_of_lt hd]

theorem idx_of_dispOf {c : Nat} (hc : 0 < c) (h i : Nat) (hi : i < c) :
    (h % c + dispOf c h i) % c = i := by
  unfold dispOf
  have hhc : h % c < c := Nat.mod_lt _ hc
  rw [Nat.add_mod_mod]
  have : h % c + (i + c - h % c) = i + c := by omega
  rw [this, Nat.add_mod_right, Nat.mod_eq_of_lt hi]

/-- Stepping back one slot from `(a + d) % c` with `1 ≤ d` lands on
`(a + (d - 1)) % c`. -/
theorem stepBack_mod {c : Nat} (hc : 0 < c) (a d : Nat) (hd : 1 ≤ d) :
    ((a + d) % c + c - 1) % c = (a + (d - 1)) % c := by
  have h1 : (a + d) % c + c - 1 = (a + d) % c + (c - 1) := by omega
  rw [h1, Nat.mod_add_mod]
  have h2 : a + d + (c - 1) = (a + (d - 1)) + c := by omega
  rw [h2, Nat.add_mod_right]

/-! ### `get_capacity` lemmas -/

theorem capLoop_sound (fuel : Nat) :
    ∀ count j, 1 ≤ count → count ≤ 2 ^ 62 → 2 ^ j < 2 * count →
      count ≤ 2 ^ j * 2 ^ fuel →
      ∃ i, capLoop fuel count (2 ^ j) = some (2 ^ i) ∧ count ≤ 2 ^ i ∧
        2 ^ i < 2 * count ∧ i ≤ 62 := by
  induction fuel with
  | zero =>
    intro count j h1 h2 h3 h4
    rw [pow_zero, mul_one] at h4
    refine ⟨j, ?_, h4, h3, ?_⟩
    · simp only [capLoop, if_neg (Nat.not_lt.mpr h4)]
    · by_contra hj
      push_neg at hj
      have h63 : (2 : Nat) ^ 63 ≤ 2 ^ j :=
        Nat.pow_le_pow_right (by norm_num) (by omega)
      have : (2 : Nat) ^ 63 = 2 * 2 ^ 62 := by norm_num
      omega
  | succ fuel ih =>
    intro count j h1 h2 h3 h4
    by_cases hlt : 2 ^ j < count
    · have hj61 : j ≤ 61 := by
        by_contra hj
        push_neg at hj
        have h62 : (2 : Nat) ^ 62 ≤ 2 ^ j :=
          Nat.pow_le_pow_right (by norm_num) (by omega)
        omega
      have hlt64 : (2 : Nat) ^ (j + 1) < 2 ^ 64 :=
        Nat.pow_lt_pow_right (by norm_num) (by omega)
      have hshift : 2 ^ j <<< 1 % 2 ^ 64 = 2 ^ (j + 1) := by
        rw [Nat.shiftLeft_eq, pow_one, ← pow_succ]
        exact Nat.mod_eq_of_lt hlt64
      simp only [capLoop, if_pos hlt, hshift]
      refine ih count (j + 1) h1 h2 (by rw [pow_succ]; omega) ?_
      calc count ≤ 2 ^ j * 2 ^ (fuel + 1) := h4
        _ = 2 ^ (j + 1) * 2 ^ fuel := by ring
    · push_neg at hlt
      refine ⟨j, ?_, hlt, h3, ?_⟩
      · simp only [capLoop, if_neg (Nat.not_lt.mpr hlt)]
      · by_contra hj
        push_neg at hj
        have h63 : (2 : Nat) ^ 63 ≤ 2 ^ j :=
          Nat.pow_le_pow_right (by norm_num) (by omega)
        have : (2 : Nat) ^ 63 = 2 * 2 ^ 62 := by norm_num
        omega

theorem get_capacity_sound {n : Nat} (h1 : 1 ≤ n) (h2 : n ≤ 2 ^ 62) :
    ∃ k, get_capacity n = some (2 ^ k) ∧ 1 ≤ k ∧ k ≤ 63 ∧ 2 * n ≤ 2 ^ k ∧
      2 ^ k < 4 * n := by
  obtain ⟨i, hcl, hni, hi2, hi62⟩ :=
    capLoop_sound 64 n 0 h1 h2 (by omega)
      (by
        rw [pow_zero, one_mul]
        calc n ≤ 2 ^ 62 := h2
          _ ≤ 2 ^ 64 := Nat.pow_le_pow_right (by norm_num) (by omega))
  have hlt64 : (2 : Nat) ^ (i + 1) < 2 ^ 64 :=
    Nat.pow_lt_pow_right (by norm_num) (by omega)
  refine ⟨i + 1, ?_, by omega, by omega, by rw [pow_succ]; omega,
    by rw [pow_succ]; omega⟩
  unfold get_capacity
  rw [if_neg (by omega), show (1 : Nat) = 2 ^ 0 by norm_num, hcl]
  show some (2 ^ i <<< 1 % 2 ^ 64) = some (2 ^ (i + 1))
  congr 1
  rw [Nat.shiftLeft_eq, pow_one, ← pow_succ]
  exact Nat.mod_eq_of_lt hlt64

theorem capLoop_stuck_zero {n : Nat} (hn : 0 < n) :
    ∀ fuel, capLoop fuel n 0 = none := by
  intro fuel
  induction fuel with
  | zero => simp only [capLoop, if_pos hn]
  | succ fuel ih =>
    simp only [capLoop, if_pos hn]
    have : 0 <<< 1 % 2 ^ 64 = 0 := by norm_num
    rw [this]
    exact ih

theorem capLoop_boundary {n : Nat} (h1 : 2 ^ 62 < n) (h2 : n ≤ 2 ^ 63) :
    ∀ fuel j, j ≤ 63 → 63 ≤ j + fuel →
      capLoop fuel n (2 ^ j) = some (2 ^ 63) := by
  intro fuel
  induction fuel with
  | zero =>
    intro j hj1 hj2
    have hj : j = 63 := by omega
    subst hj
    simp only [capLoop, if_neg (Nat.not_lt.mpr h2)]
  | succ fuel ih =>
    intro j hj1 hj2
    by_cases hj : j = 63
    · subst hj
      simp only [capLoop, if_neg (Nat.not_lt.mpr h2)]
    · have hlt : 2 ^ j < n := by
        have : (2 : Nat) ^ j ≤ 2 ^ 62 :=
          Nat.pow_le_pow_right (by norm_num) (by omega)
        omega
      have hlt64 : (2 : Nat) ^ (j + 1) < 2 ^ 64 :=
        Nat.pow_lt_pow_right (by norm_num) (by omega)
      have hshift : 2 ^ j <<< 1 % 2 ^ 64 = 2 ^ (j + 1) := by
        rw [Nat.shiftLeft_eq, pow_one, ← pow_succ]
        exact Nat.mod_eq_of_lt hlt64
      simp only [capLoop, if_pos hlt, hshift]
      exact ih (j + 1) (by omega) (by omega)

theorem capLoop_overflow {n : Nat} (h1 : 2 ^ 63 < n) :
    ∀ fuel j, j ≤ 63 → capLoop fuel n (2 ^ j) = none := by
  intro fuel
  induction fuel with
  | zero =>
    intro j hj
    have hle : (2 : Nat) ^ j ≤ 2 ^ 63 := Nat.pow_le_pow_right (by norm_num) hj
    have hlt : 2 ^ j < n := by omega
    simp only [capLoop, if_pos hlt]
  | succ fuel ih =>
    intro j hj
    have hle : (2 : Nat) ^ j ≤ 2 ^ 63 := Nat.pow_le_pow_right (by norm_num) hj
    have hlt : 2 ^ j < n := by omega
    by_cases hj63 : j = 63
    · subst hj63
      have hshift : 2 ^ 63 <<< 1 % 2 ^ 64 = 0 := by
        rw [Nat.shiftLeft_eq, pow_one, ← pow_succ]
        simp
      simp only [capLoop, if_pos hlt, hshift]
      exact capLoop_stuck_zero (by omega) fuel
    · have hlt64 : (2 : Nat) ^ (j + 1) < 2 ^ 64 :=
        Nat.pow_lt_pow_right (by norm_num) (by omega)
      have hshift : 2 ^ j <<< 1 % 2 ^ 64 = 2 ^ (j + 1) := by
        rw [Nat.shiftLeft_eq, pow_one, ← pow_succ]
        exact Nat.mod_eq_of_lt hlt64
      simp only [capLoop, if_pos hlt, hshift]
      exact ih (j + 1) (by omega)

/-- Above `2 ^ 62`, `get_capacity` either diverges or wraps to capacity 0. -/
theorem get_capacity_boundary {n : Nat} (h1 : 2 ^ 62 < n) :
    get_capacity n = some 0 ∨ get_capacity n = none := by
  by_cases h2 : n ≤ 2 ^ 63
  · left
    unfold get_capacity
    rw [if_neg (by omega), show (1 : Nat) = 2 ^ 0 by norm_num,
      capLoop_boundary h1 h2 64 0 (by omega) (by omega)]
    rfl
  · right
    unfold get_capacity
    rw [if_neg (by omega), show (1 : Nat) = 2 ^ 0 by norm_num,
      capLoop_overflow (by omega) 64 0 (by omega)]
    rfl

/-! ### Load-factor threshold lemmas -/

theorem le_min_mask_ceil {n c : Nat} (hn : 1 ≤ n) (hc : 2 * n ≤ c) :
    n ≤ min (c - 1) (ceilMaxLoad c) := by
  refine le_min (by omega) ?_
  unfold ceilMaxLoad
  rw [Nat.le_div_iff_mul_le (by norm_num)]
  have h1 : n * 2 ^ 24 ≤ 13421773 * (2 * n) := by
    have : n * 2 ^ 24 = 16777216 * n := by ring
    omega
  have h2 : 13421773 * (2 * n) ≤ 13421773 * c := Nat.mul_le_mul_left _ hc
  omega

theorem floorMinLoad_le {c : Nat} (hc : c ≤ 2 ^ 63) :
    floorMinLoad c ≤ 2 ^ 61 := by
  unfold floorMinLoad
  have h1 : 13421773 * c ≤ 13421773 * 2 ^ 63 := Nat.mul_le_mul_left _ hc
  have h2 : 13421773 * c / 2 ^ 26 ≤ 13421773 * 2 ^ 63 / 2 ^ 26 :=
    Nat.div_le_div_right h1
  calc 13421773 * c / 2 ^ 26 ≤ 13421773 * 2 ^ 63 / 2 ^ 26 := h2
    _ ≤ 2 ^ 61 := by norm_num

/-! ### Bucket-array index lemmas -/

theorem bkt_set_self {B : List (HashBucket κ ν)} {i : Nat}
    (h : i < B.length) (b : HashBucket κ ν) : bkt (B.set i b) i = b := by
  unfold bkt
  rw [List.getD_eq_getElem?_getD, List.getElem?_set_self (by simpa using h)]
  rfl

theorem bkt_set_ne {B : List (HashBucket κ ν)} {i j : Nat} (h : i ≠ j)
    (b : HashBucket κ ν) : bkt (B.set i b) j = bkt B j := by
  unfold bkt
  rw [List.getD_eq_getElem?_getD, List.getElem?_set_ne h,
    ← List.getD_eq_getElem?_getD]

theorem bkt_replicate (c i : Nat) :
    bkt (List.replicate c (HashBucket.vacant : HashBucket κ ν)) i =
      HashBucket.vacant := by
  unfold bkt
  rw [List.getD_eq_getElem?_getD, List.getElem?_replicate]
  by_cases h : i < c <;> simp [h]

theorem bkt_nil (i : Nat) :
    bkt ([] : List (HashBucket κ ν)) i = HashBucket.vacant := rfl

/-! ### Occupied-count lemmas -/

theorem occCount_congr {c : Nat} {B B' : List (HashBucket κ ν)}
    (h : ∀ i < c, bkt B i = bkt B' i) : occCount c B = occCount c B' := by
  unfold occCount
  congr 1
  refine Finset.filter_congr ?_
  intro i hi
  rw [Finset.mem_range] at hi
  unfold occAt
  rw [h i hi]

theorem occCount_split {c p : Nat} (hp : p < c)
    (B : List (HashBucket κ ν)) :
    occCount c B =
      (((Finset.range c).erase p).filter fun i => occAt B i).card +
        (if occAt B p then 1 else 0) := by
  unfold occCount
  have hmem : p ∈ Finset.range c := Finset.mem_range.mpr hp
  conv_lhs => rw [← Finset.insert_erase hmem]
  rw [Finset.filter_insert]
  by_cases h : occAt B p
  · rw [if_pos h, if_pos h,
      Finset.card_insert_of_not_mem (fun hm => (Finset.mem_erase.mp (Finset.mem_of_mem_filter p hm)).1 rfl)]
  · rw [if_neg h, if_neg h, Nat.add_zero]

theorem filter_erase_set {c p : Nat} {B : List (HashBucket κ ν)}
    (hp : p < B.length) (b : HashBucket κ ν) :
    (((Finset.range c).erase p).filter fun i => occAt (B.set p b) i) =
      ((Finset.range c).erase p).filter fun i => occAt B i := by
  refine Finset.filter_congr ?_
  intro i hi
  have hne : p ≠ i := fun h => (Finset.mem_erase.mp hi).1 h.symm
  unfold occAt
  rw [bkt_set_ne hne]

theorem occCount_lt_exists_empty {c : Nat} {B : List (HashBucket κ ν)}
    (h : occCount c B < c) : ∃ e < c, ¬occAt B e := by
  by_contra hall
  push_neg at hall
  have : (Finset.range c).filter (fun i => occAt B i) = Finset.range c :=
    Finset.filter_eq_self.mpr fun i hi => hall i (Finset.mem_range.mp hi)
  unfold occCount at h
  rw [this, Finset.card_range] at h
  omega

/-! ### Bridges between the bit-level code and modular arithmetic -/

section Bridges

variable {k : Nat} {m : HashMap κ ν}

theorem get_ideal_eq (hc : m.capacity_ = 2 ^ k)
    (hm : m.mask_ = m.capacity_ - 1) (h : Nat) :
    m.get_ideal h = h % m.capacity_ := by
  rw [HashMap.get_ideal, hm, hc, land_mask]

theorem next_bucket_eq (hc : m.capacity_ = 2 ^ k) (hk : k ≤ 63) (b : Nat) :
    m.next_bucket b = (b + 1) % m.capacity_ := by
  have h1 : 1 ≤ m.capacity_ := by rw [hc]; exact Nat.one_le_two_pow
  have h2 : m.capacity_ ≤ 2 ^ 64 := by
    rw [hc]; exact Nat.pow_le_pow_right (by norm_num) (by omega)
  rw [HashMap.next_bucket, sub64_one h1 h2, hc, land_mask]

theorem get_distance_eq (hc : m.capacity_ = 2 ^ k) (hk : k ≤ 63)
    (hm : m.mask_ = m.capacity_ - 1) (p1 p2 : Nat) (hp1 : p1 ≤ m.capacity_) :
    m.get_distance p1 p2 = (p2 + m.capacity_ - p1) % m.capacity_ := by
  rw [HashMap.get_distance, hm, hc]
  exact get_distance_bridge (by omega) p1 p2 (hc ▸ hp1)

end Bridges

/-! ### Consequences of the slot coherence invariant -/

section SlotFacts

variable {H : κ → Nat} {c : Nat} {B : List (HashBucket κ ν)}

/-- Under slot coherence, occupancy (payload presence) coincides with the
distance field differing from the sentinel, because a legitimate distance is
below the capacity which is below the sentinel. -/
theorem not_empty_iff_occ (hc0 : 0 < c) (hc63 : c ≤ 2 ^ 63) {i : Nat}
    (hsl : slotOK H c B i) : ¬(bkt B i).empty ↔ occAt B i := by
  have hs : 2 ^ 63 < UNOCCUPIED := by norm_num [UNOCCUPIED]
  constructor
  · intro hne
    by_contra hocc
    have hnone : (bkt B i).payload = none := by
      cases h : (bkt B i).payload with
      | none => rfl
      | some kv =>
        exact absurd (show occAt B i by unfold occAt; rw [h]; rfl) hocc
    exact hne (hsl.2 hnone)
  · intro hocc hemp
    unfold occAt at hocc
    rw [Option.isSome_iff_exists] at hocc
    obtain ⟨kv, hkv⟩ := hocc
    obtain ⟨-, hdist⟩ := hsl.1 kv hkv
    have := dispOf_lt hc0 (H kv.1) i
    rw [HashBucket.empty] at hemp
    omega

theorem occ_dist_lt (hc0 : 0 < c) {i : Nat} (hsl : slotOK H c B i)
    (hocc : occAt B i) : (bkt B i).distance_ < c := by
  unfold occAt at hocc
  rw [Option.isSome_iff_exists] at hocc
  obtain ⟨kv, hkv⟩ := hocc
  obtain ⟨-, hdist⟩ := hsl.1 kv hkv
  rw [hdist]
  exact dispOf_lt hc0 _ _

/-- The adjacency chain: walking back `t ≤ distance` slots from an occupied
slot stays within occupied slots whose distances decrease by at most one per
step. -/
theorem chain_back (hc0 : 0 < c)
    (hslots : ∀ i < c, slotOK H c B i) (hadj : ∀ i < c, adjOK c B i)
    {i : Nat} (hi : i < c) (hocc : occAt B i) :
    ∀ t, t ≤ (bkt B i).distance_ → t ≤ c →
      occAt B ((i + c - t) % c) ∧
        (bkt B i).distance_ ≤ (bkt B ((i + c - t) % c)).distance_ + t := by
  intro t
  induction t with
  | zero =>
    intro _ _
    have : (i + c - 0) % c = i := by
      rw [Nat.sub_zero, Nat.add_mod_right, Nat.mod_eq_of_lt hi]
    rw [this]
    exact ⟨hocc, by omega⟩
  | succ t ih =>
    intro hles hlec
    obtain ⟨hocct, hdt⟩ := ih (by omega) (by omega)
    set j := (i + c - t) % c with hj
    have hjc : j < c := Nat.mod_lt _ hc0
    have hdj0 : (bkt B j).distance_ ≠ 0 := by omega
    obtain ⟨hoccp, hdp⟩ := hadj j hjc hocct hdj0
    have hstep : (j + c - 1) % c = (i + c - (t + 1)) % c := by
      have h1 : j + c - 1 = j + (c - 1) := by omega
      rw [h1, hj, Nat.mod_add_mod]
      have h2 : i + c - t + (c - 1) = (i + c - (t + 1)) + c := by omega
      rw [h2, Nat.add_mod_right]
    rw [hstep] at hoccp hdp
    exact ⟨hoccp, by omega⟩

/-- If the `d + 1` slots walking back from `p` are all occupied while some
slot is empty, then `d ≤ c - 2`. -/
theorem run_bound (hc0 : 0 < c) {p d e : Nat} (he : e < c)
    (hne : ¬occAt B e)
    (hrun : ∀ t, t ≤ d → t < c → occAt B ((p + c - t) % c)) :
    d ≤ c - 2 := by
  by_contra hd
  push_neg at hd
  set x := p + c - e with hxdef
  set t := x % c with ht
  have htc : t < c := Nat.mod_lt _ hc0
  have htx : t ≤ x := Nat.mod_le _ _
  have hdm := Nat.div_add_mod x c
  have hte : (p + c - t) % c = e := by
    have h1 : p + c - t = e + c * (x / c) := by omega
    rw [h1, Nat.add_mul_mod_self_left, Nat.mod_eq_of_lt he]
  exact hne (hte ▸ hrun t (by omega) htc)

/-- An occupied slot's distance, in a table that has an empty slot, is at
most `c - 2`. -/
theorem occ_dist_le_sub_two (hc0 : 0 < c)
    (hslots : ∀ i < c, slotOK H c B i) (hadj : ∀ i < c, adjOK c B i)
    {i e : Nat} (hi : i < c) (hocc : occAt B i) (he : e < c)
    (hne : ¬occAt B e) : (bkt B i).distance_ ≤ c - 2 :=
  run_bound hc0 he hne fun t hts htc =>
    (chain_back hc0 hslots hadj hi hocc t hts (Nat.le_of_lt htc)).1

end SlotFacts

theorem add_mod_inj {c a t d : Nat} (ht : t < c) (hd : d < c)
    (h : (a + t) % c = (a + d) % c) : t = d := by
  have h1 : a + t ≡ a + d [MOD c] := h
  have h2 : t ≡ d [MOD c] := Nat.ModEq.add_left_cancel' a h1
  have h3 : t % c = d % c := h2
  rwa [Nat.mod_eq_of_lt ht, Nat.mod_eq_of_lt hd] at h3

theorem bkt_of_le_length {B : List (HashBucket κ ν)} {i : Nat}
    (h : B.length ≤ i) : bkt B i = HashBucket.vacant := by
  unfold bkt
  rw [List.getD_eq_getElem?_getD, List.getElem?_eq_none h]
  rfl

/-- The bucket-level part of the invariant, shared by the loop lemmas. -/
structure TblOK (H : κ → Nat) (c : Nat) (B : List (HashBucket κ ν)) : Prop where
  len : B.length = c
  slots : ∀ i < c, slotOK H c B i
  adj : ∀ i < c, adjOK c B i
  uniq : uniqOK c B

/-! ### `find_bucket` lemmas -/

section FindLemmas

variable {m : HashMap κ ν} {k : Nat}
  (hc : m.capacity_ = 2 ^ k) (hk1 : 1 ≤ k) (hk63 : k ≤ 63)
  (hmask : m.mask_ = m.capacity_ - 1)
  (htb : TblOK m.hasher_ m.capacity_ m.buckets_)

include hc hk1 hk63

theorem cap_pos : 0 < m.capacity_ := by
  rw [hc]; exact Nat.pos_pow_of_pos k (by norm_num)

theorem cap_le63 : m.capacity_ ≤ 2 ^ 63 := by
  rw [hc]; exact Nat.pow_le_pow_right (by norm_num) hk63

include htb

theorem findLoop_isSome (key : κ) (hash : Nat) :
    ∀ fuel bucket distance, bucket < m.capacity_ →
      distance ≤ m.capacity_ → m.capacity_ < fuel + distance →
      (findLoop m key hash fuel bucket distance).isSome := by
  have hc0 := cap_pos (m := m) hc hk1 hk63
  have hc63 := cap_le63 (m := m) hc hk1 hk63
  intro fuel
  induction fuel with
  | zero => intro bucket distance _ hd hfd; omega
  | succ fuel ih =>
    intro bucket distance hb hd hfd
    simp only [findLoop]
    by_cases hg : ¬(bkt m.buckets_ bucket).empty ∧
        distance ≤ (bkt m.buckets_ bucket).distance_
    · rw [if_pos hg]
      by_cases hmt : (bkt m.buckets_ bucket).hash_ = hash ∧
          (bkt m.buckets_ bucket).keyOf = some key
      · rw [if_pos hmt]; rfl
      · rw [if_neg hmt]
        have hocc : occAt m.buckets_ bucket :=
          (not_empty_iff_occ hc0 hc63 (htb.slots bucket hb)).mp hg.1
        have hlt : (bkt m.buckets_ bucket).distance_ < m.capacity_ :=
          occ_dist_lt hc0 (htb.slots bucket hb) hocc
        refine ih _ _ ?_ (by omega) (by omega)
        rw [next_bucket_eq hc hk63]
        exact Nat.mod_lt _ hc0
    · rw [if_neg hg]; rfl

theorem findLoop_hit {key : κ} {j : Nat} (hj : j < m.capacity_)
    (hkey : (bkt m.buckets_ j).keyOf = some key) :
    ∀ fuel t, t ≤ (bkt m.buckets_ j).distance_ →
      (bkt m.buckets_ j).distance_ + 1 ≤ fuel + t →
      findLoop m key (m.hasher_ key) fuel
        ((m.hasher_ key % m.capacity_ + t) % m.capacity_) t = some j := by
  have hc0 := cap_pos (m := m) hc hk1 hk63
  have hc63 := cap_le63 (m := m) hc hk1 hk63
  obtain ⟨kv, hkv⟩ : ∃ kv, (bkt m.buckets_ j).payload = some kv := by
    unfold HashBucket.keyOf at hkey
    cases h : (bkt m.buckets_ j).payload with
    | none => rw [h] at hkey; exact absurd hkey (by simp)
    | some kv => exact ⟨kv, rfl⟩
  have hkeq : kv.1 = key := by
    unfold HashBucket.keyOf at hkey
    rw [hkv] at hkey
    simpa using hkey
  have hocc : occAt m.buckets_ j := by unfold occAt; rw [hkv]; rfl
  obtain ⟨hhash, hdisp⟩ := (htb.slots j hj).1 kv hkv
  rw [hkeq] at hhash hdisp
  have hdlt : (bkt m.buckets_ j).distance_ < m.capacity_ :=
    occ_dist_lt hc0 (htb.slots j hj) hocc
  have hidx : (m.hasher_ key % m.capacity_ + (bkt m.buckets_ j).distance_) %
      m.capacity_ = j := by
    rw [hdisp]
    exact idx_of_dispOf hc0 _ _ hj
  set dj := (bkt m.buckets_ j).distance_ with hdj
  set a := m.hasher_ key % m.capacity_ with ha
  intro fuel
  induction fuel with
  | zero => intro t ht hft; omega
  | succ fuel ih =>
    intro t ht hft
    by_cases htd : t = dj
    · rw [htd, hidx]
      simp only [findLoop]
      have hg : ¬(bkt m.buckets_ j).empty ∧
          dj ≤ (bkt m.buckets_ j).distance_ :=
        ⟨(not_empty_iff_occ hc0 hc63 (htb.slots j hj)).mpr hocc, le_refl _⟩
      rw [if_pos hg, if_pos ⟨hhash, hkey⟩]
    · have htlt : t < dj := lt_of_le_of_ne ht htd
      set pos := (a + t) % m.capacity_ with hpos
      have hposc : pos < m.capacity_ := Nat.mod_lt _ hc0
      have hchain := chain_back hc0 htb.slots htb.adj hj hocc (dj - t)
        (by omega) (by omega)
      have hposeq : (j + m.capacity_ - (dj - t)) % m.capacity_ = pos := by
        conv_lhs => rw [← hidx]
        have h1 : (a + dj) % m.capacity_ + m.capacity_ - (dj - t) =
            (a + dj) % m.capacity_ + (m.capacity_ - (dj - t)) := by omega
        rw [h1, Nat.mod_add_mod]
        have h2 : a + dj + (m.capacity_ - (dj - t)) = a + t + m.capacity_ := by
          omega
        rw [h2, Nat.add_mod_right]
      rw [hposeq] at hchain
      obtain ⟨hocct, hdt⟩ := hchain
      have hposne : pos ≠ j := by
        intro h
        rw [hpos] at h
        conv_rhs at h => rw [← hidx]
        exact htd (add_mod_inj (by omega) hdlt h)
      simp only [findLoop]
      have hg : ¬(bkt m.buckets_ pos).empty ∧
          t ≤ (bkt m.buckets_ pos).distance_ :=
        ⟨(not_empty_iff_occ hc0 hc63 (htb.slots pos hposc)).mpr hocct,
          by omega⟩
      rw [if_pos hg]
      have hnm : ¬((bkt m.buckets_ pos).hash_ = m.hasher_ key ∧
          (bkt m.buckets_ pos).keyOf = some key) := by
        rintro ⟨-, hkm⟩
        exact hposne (htb.uniq pos hposc j hj key hkm hkey)
      rw [if_neg hnm]
      have hnext : m.next_bucket pos = (a + (t + 1)) % m.capacity_ := by
        rw [next_bucket_eq hc hk63, hpos, Nat.mod_add_mod, Nat.add_assoc]
      rw [hnext]
      exact ih (t + 1) (by omega) (by omega)

theorem occ_not_map_empty {j : Nat} (hj : j < m.capacity_)
    (hsize : m.size_ = occCount m.capacity_ m.buckets_)
    (hocc : occAt m.buckets_ j) : ¬m.empty := by
  intro h
  rw [HashMap.empty] at h
  rw [h] at hsize
  have : 0 < occCount m.capacity_ m.buckets_ := by
    unfold occCount
    refine Finset.card_pos.mpr ⟨j, ?_⟩
    rw [Finset.mem_filter, Finset.mem_range]
    exact ⟨hj, hocc⟩
  omega

include hmask in
theorem find_bucket_hit {key : κ} {j : Nat} (hj : j < m.capacity_)
    (hsize : m.size_ = occCount m.capacity_ m.buckets_)
    (hkey : (bkt m.buckets_ j).keyOf = some key) :
    find_bucket m key (m.hasher_ key) = some j := by
  have hc0 := cap_pos (m := m) hc hk1 hk63
  have hocc : occAt m.buckets_ j := by
    unfold occAt
    unfold HashBucket.keyOf at hkey
    cases h : (bkt m.buckets_ j).payload with
    | none => rw [h] at hkey; exact absurd hkey (by simp)
    | some kv => rfl
  have hne : ¬m.empty := occ_not_map_empty hc hk1 hk63 htb hj hsize hocc
  have hdlt : (bkt m.buckets_ j).distance_ < m.capacity_ :=
    occ_dist_lt hc0 (htb.slots j hj) hocc
  unfold find_bucket
  rw [if_neg hne, get_ideal_eq hc hmask]
  have h0 : m.hasher_ key % m.capacity_ =
      (m.hasher_ key % m.capacity_ + 0) % m.capacity_ := by
    rw [Nat.add_zero, Nat.mod_mod_of_dvd _ (dvd_refl _)]
  rw [h0]
  exact findLoop_hit hc hk1 hk63 htb hj hkey (m.capacity_ + 1) 0 (by omega)
    (by omega)

include hmask in
theorem find_bucket_isSome (key : κ) (hash : Nat) :
    (find_bucket m key hash).isSome := by
  have hc0 := cap_pos (m := m) hc hk1 hk63
  unfold find_bucket
  by_cases hne : m.empty
  · rw [if_pos hne]; rfl
  · rw [if_neg hne, get_ideal_eq hc hmask]
    exact findLoop_isSome hc hk1 hk63 htb key hash _ _ _ (Nat.mod_lt _ hc0)
      (by omega) (by omega)

theorem check_absent (hnk : ¬HasKey m key) (pos hash : Nat) :
    ¬m.check pos key hash := by
  rintro ⟨-, -, -, hkey⟩
  by_cases hp : pos < m.capacity_
  · exact hnk ⟨pos, hp, hkey⟩
  · rw [bkt_of_le_length (htb.len ▸ by omega)] at hkey
    simp [HashBucket.keyOf, HashBucket.vacant] at hkey

theorem check_of_stored {key : κ} {j : Nat} (hj : j < m.capacity_)
    (hsize : m.size_ = occCount m.capacity_ m.buckets_)
    (hkey : (bkt m.buckets_ j).keyOf = some key) :
    m.check j key (m.hasher_ key) := by
  have hc0 := cap_pos (m := m) hc hk1 hk63
  have hc63 := cap_le63 (m := m) hc hk1 hk63
  obtain ⟨kv, hkv⟩ : ∃ kv, (bkt m.buckets_ j).payload = some kv := by
    unfold HashBucket.keyOf at hkey
    cases h : (bkt m.buckets_ j).payload with
    | none => rw [h] at hkey; exact absurd hkey (by simp)
    | some kv => exact ⟨kv, rfl⟩
  have hkeq : kv.1 = key := by
    unfold HashBucket.keyOf at hkey
    rw [hkv] at hkey
    simpa using hkey
  have hocc : occAt m.buckets_ j := by unfold occAt; rw [hkv]; rfl
  obtain ⟨hhash, -⟩ := (htb.slots j hj).1 kv hkv
  exact ⟨occ_not_map_empty hc hk1 hk63 htb hj hsize hocc,
    (not_empty_iff_occ hc0 hc63 (htb.slots j hj)).mpr hocc,
    by rw [hhash, hkeq], hkey⟩

end FindLemmas

/-! ### The placement loop of `insert` -/

theorem exists_shift {c : Nat} (hc0 : 0 < c) {p e : Nat} (hp : p < c)
    (he : e < c) : ∃ j < c, (p + j) % c = e := by
  refine ⟨(e + c - p) % c, Nat.mod_lt _ hc0, ?_⟩
  rw [Nat.add_mod_mod]
  have h1 : p + (e + c - p) = e + c := by omega
  rw [h1, Nat.add_mod_right, Nat.mod_eq_of_lt he]

theorem occCount_iff_congr {c : Nat} {B B' : List (HashBucket κ ν)}
    (h : ∀ i < c, occAt B i ↔ occAt B' i) : occCount c B = occCount c B' := by
  unfold occCount
  congr 1
  refine Finset.filter_congr ?_
  intro i hi
  rw [Finset.mem_range] at hi
  simpa using h i hi

/-- Some key-value pair is stored in one of the first `c` slots. -/
def storedP (c : Nat) (B : List (HashBucket κ ν)) (q : κ) (w : ν) : Prop :=
  ∃ i < c, (bkt B i).payload = some (q, w)

/-- The loop invariant of the Robin-Hood placement loop: the table is
coherent except that the traveling entry `value` is currently outside of
it, the running position/distance pair tracks the traveler's ideal slot,
and the traveler's displacement is justified by its predecessor slot. -/
structure PLI (H : κ → Nat) (c : Nat) (B₀ : List (HashBucket κ ν))
    (kv₀ : κ × ν) (B : List (HashBucket κ ν)) (value : Option (κ × ν))
    (hash : Nat) (p d : Nat) : Prop where
  len : B.length = c
  trav : ∃ kv, value = some kv ∧ hash = H kv.1
  pos : p = (hash % c + d) % c
  slots : ∀ i < c, slotOK H c B i
  adj : ∀ i < c, adjOK c B i
  pred : d ≠ 0 → occAt B ((p + c - 1) % c) ∧
      d ≤ (bkt B ((p + c - 1) % c)).distance_ + 1
  occ_same : ∀ i < c, (occAt B i ↔ occAt B₀ i)
  uniq : uniqOK c B
  travNotIn : ∀ i < c, ∀ kv, value = some kv →
      (bkt B i).keyOf ≠ some kv.1
  content : ∀ q w, (storedP c B q w ∨ value = some (q, w)) ↔
      (storedP c B₀ q w ∨ (q, w) = kv₀)

/-- Postcondition of the placement loop: the table is coherent again, holds
one more entry, and its content is the old content plus the inserted pair. -/
structure PlacePost (H : κ → Nat) (c : Nat)
    (B₀ B' : List (HashBucket κ ν)) (kv₀ : κ × ν) : Prop where
  len : B'.length = c
  slots : ∀ i < c, slotOK H c B' i
  adj : ∀ i < c, adjOK c B' i
  uniq : uniqOK c B'
  count : occCount c B' = occCount c B₀ + 1
  content : ∀ q w, storedP c B' q w ↔ (storedP c B₀ q w ∨ (q, w) = kv₀)

section PlaceLemmas

variable {H : κ → Nat} {c : Nat} {B₀ B : List (HashBucket κ ν)}
  {kv₀ : κ × ν} {value : Option (κ × ν)} {hash p d : Nat}

theorem PLI_p_lt (hc0 : 0 < c)
    (hp : PLI H c B₀ kv₀ B value hash p d) : p < c := by
  rw [hp.pos]; exact Nat.mod_lt _ hc0

theorem PLI_d_lt (hc2 : 2 ≤ c)
    (hp : PLI H c B₀ kv₀ B value hash p d)
    (he : ∃ e < c, ¬occAt B e) : d < c := by
  have hc0 : 0 < c := by omega
  rcases Nat.eq_zero_or_pos d with hd0 | hd1
  · omega
  · obtain ⟨hoccq, hdq⟩ := hp.pred (by omega)
    obtain ⟨e, hec, hne⟩ := he
    have hqc : (p + c - 1) % c < c := Nat.mod_lt _ hc0
    have := occ_dist_le_sub_two hc0 hp.slots hp.adj hqc hoccq hec hne
    omega

theorem occAt_of_payload {i : Nat} {kv : κ × ν}
    (h : (bkt B i).payload = some kv) : occAt B i := by
  unfold occAt; rw [h]; rfl

theorem payload_of_occ {i : Nat} (h : occAt B i) :
    ∃ kv, (bkt B i).payload = some kv := by
  unfold occAt at h
  exact Option.isSome_iff_exists.mp h

theorem payload_of_not_occ {i : Nat} (h : ¬occAt B i) :
    (bkt B i).payload = none := by
  cases hp : (bkt B i).payload with
  | none => rfl
  | some kv => exact absurd (occAt_of_payload hp) h

theorem keyOf_of_payload {b : HashBucket κ ν} {kv : κ × ν}
    (h : b.payload = some kv) : b.keyOf = some kv.1 := by
  unfold HashBucket.keyOf; rw [h]; rfl

theorem payload_of_keyOf {b : HashBucket κ ν} {q : κ}
    (h : b.keyOf = some q) : ∃ w, b.payload = some (q, w) := by
  unfold HashBucket.keyOf at h
  cases hp : b.payload with
  | none => rw [hp] at h; exact absurd h (by simp)
  | some kv =>
    rw [hp] at h
    have h1 : kv.1 = q := by simpa using h
    have h2 : kv = (q, kv.2) := by rw [← h1]
    exact ⟨kv.2, congrArg some h2⟩

theorem occAt_congr {B B' : List (HashBucket κ ν)} {i : Nat}
    (h : bkt B' i = bkt B i) : occAt B' i ↔ occAt B i := by
  unfold occAt; rw [h]

theorem slotOK_congr {H : κ → Nat} {c : Nat}
    {B B' : List (HashBucket κ ν)} {i : Nat} (h : bkt B' i = bkt B i) :
    slotOK H c B' i ↔ slotOK H c B i := by
  unfold slotOK; rw [h]

theorem adjOK_congr {c : Nat} {B B' : List (HashBucket κ ν)} {i : Nat}
    (h1 : bkt B' i = bkt B i)
    (h2 : bkt B' ((i + c - 1) % c) = bkt B ((i + c - 1) % c)) :
    adjOK c B' i ↔ adjOK c B i := by
  unfold adjOK occAt; rw [h1, h2]

theorem pred_ne_self (hc2 : 2 ≤ c) {p : Nat} (hp : p < c) :
    (p + c - 1) % c ≠ p := by
  intro h
  have h1 : p + c - 1 = p + (c - 1) := by omega
  have h2 : (p + (c - 1)) % c = (p + 0) % c := by
    rw [← h1, h, Nat.add_zero, Nat.mod_eq_of_lt hp]
  have := add_mod_inj (c := c) (by omega) (by omega) h2
  omega

theorem succ_ne_self (hc2 : 2 ≤ c) {p : Nat} (hp : p < c) :
    (p + 1) % c ≠ p := by
  intro h
  have h2 : (p + 1) % c = (p + 0) % c := by
    rw [h, Nat.add_zero, Nat.mod_eq_of_lt hp]
  have := add_mod_inj (c := c) (by omega) (by omega) h2
  omega

theorem pred_of_succ (hc0 : 0 < c) {p : Nat} (hp : p < c) :
    ((p + 1) % c + c - 1) % c = p := by
  have h1 : (p + 1) % c + c - 1 = (p + 1) % c + (c - 1) := by omega
  rw [h1, Nat.mod_add_mod]
  have h2 : p + 1 + (c - 1) = p + c := by omega
  rw [h2, Nat.add_mod_right, Nat.mod_eq_of_lt hp]

theorem mask_step {k : Nat} (hk : k ≤ 63) (b : Nat) :
    (b + 1) &&& sub64 (2 ^ k) 1 = (b + 1) % 2 ^ k := by
  rw [sub64_one Nat.one_le_two_pow
    (Nat.pow_le_pow_right (by norm_num) (by omega)), land_mask]

end PlaceLemmas

section PlaceSteps

variable {H : κ → Nat} {c : Nat} {B₀ B : List (HashBucket κ ν)}
  {kv₀ : κ × ν} {value : Option (κ × ν)} {hash p d : Nat}

/-- Placement step: storing the traveler in the empty slot `p` restores the
full table invariant with one more entry. -/
theorem PLI_place (hc2 : 2 ≤ c) (hc63 : c ≤ 2 ^ 63)
    (hp : PLI H c B₀ kv₀ B value hash p d) (hemp : ¬occAt B p) :
    PlacePost H c B₀ (B.set p (⟨value, hash, d⟩ : HashBucket κ ν)) kv₀ := by
  have hc0 : 0 < c := by omega
  have hpc : p < c := PLI_p_lt hc0 hp
  have hd : d < c := PLI_d_lt hc2 hp ⟨p, hpc, hemp⟩
  have hplen : p < B.length := hp.len ▸ hpc
  obtain ⟨kv, hkv, hhash⟩ := hp.trav
  subst hkv
  subst hhash
  have hbp : bkt (B.set p ⟨some kv, H kv.1, d⟩) p = ⟨some kv, H kv.1, d⟩ :=
    bkt_set_self hplen _
  have hbne : ∀ i, i ≠ p →
      bkt (B.set p ⟨some kv, H kv.1, d⟩) i = bkt B i := fun i hi =>
    bkt_set_ne (fun h => hi h.symm) _
  have hdisp : d = dispOf c (H kv.1) p := by
    rw [hp.pos]
    exact (dispOf_spec hc0 (H kv.1) d hd).symm
  have hoccp : occAt (B.set p ⟨some kv, H kv.1, d⟩) p :=
    occAt_of_payload (show (bkt (B.set p ⟨some kv, H kv.1, d⟩) p).payload =
      some kv from by rw [hbp])
  refine ⟨?_, ?_, ?_, ?_, ?_, ?_⟩
  · rw [List.length_set, hp.len]
  · -- slots
    intro i hi
    by_cases hip : i = p
    · subst hip
      unfold slotOK
      rw [hbp]
      constructor
      · intro kv' hkv'
        have hkk : kv = kv' := Option.some.inj hkv'
        subst hkk
        exact ⟨rfl, hdisp⟩
      · intro hnone
        exact absurd hnone (by simp)
    · rw [slotOK_congr (hbne i hip)]
      exact hp.slots i hi
  · -- adjacency
    intro i hi
    by_cases hip : i = p
    · subst hip
      intro hocc1 hdne1
      rw [hbp] at hdne1
      have hdne : d ≠ 0 := hdne1
      have hq := pred_ne_self hc2 hpc
      obtain ⟨hoccq, hdq⟩ := hp.pred hdne
      refine ⟨(occAt_congr (hbne _ hq)).mpr hoccq, ?_⟩
      rw [hbp, hbne _ hq]
      exact hdq
    · intro hocc1 hdne1
      have hocci : occAt B i := (occAt_congr (hbne i hip)).mp hocc1
      rw [hbne i hip] at hdne1
      by_cases hqp : (i + c - 1) % c = p
      · exact absurd (hqp ▸ (hp.adj i hi hocci hdne1).1) hemp
      · obtain ⟨ho, hb⟩ := hp.adj i hi hocci hdne1
        refine ⟨(occAt_congr (hbne _ hqp)).mpr ho, ?_⟩
        rw [hbne i hip, hbne _ hqp]
        exact hb
  · -- uniqueness
    intro i hi j hj key hki hkj
    have hknew : (⟨some kv, H kv.1, d⟩ : HashBucket κ ν).keyOf = some kv.1 :=
      rfl
    by_cases hip : i = p <;> by_cases hjp : j = p
    · rw [hip, hjp]
    · subst hip
      rw [hbp, hknew] at hki
      have hkey : key = kv.1 := by injection hki with h; exact h.symm
      rw [hbne j hjp] at hkj
      exact absurd (hkey ▸ hkj) (hp.travNotIn j hj kv rfl)
    · subst hjp
      rw [hbp, hknew] at hkj
      have hkey : key = kv.1 := by injection hkj with h; exact h.symm
      rw [hbne i hip] at hki
      exact absurd (hkey ▸ hki) (hp.travNotIn i hi kv rfl)
    · rw [hbne i hip] at hki
      rw [hbne j hjp] at hkj
      exact hp.uniq i hi j hj key hki hkj
  · -- count
    have h1 := occCount_split hpc (B.set p ⟨some kv, H kv.1, d⟩)
    have h2 := occCount_split hpc B
    rw [filter_erase_set hplen, if_pos hoccp] at h1
    rw [if_neg hemp, Nat.add_zero] at h2
    rw [h1, ← h2, occCount_iff_congr hp.occ_same]
  · -- content
    intro q w
    have hml := hp.content q w
    constructor
    · rintro ⟨i, hi, hpay⟩
      by_cases hip : i = p
      · subst hip
        rw [hbp] at hpay
        have hkqw : kv = (q, w) := Option.some.inj hpay
        exact hml.mp (Or.inr (by rw [hkqw]))
      · rw [hbne i hip] at hpay
        exact hml.mp (Or.inl ⟨i, hi, hpay⟩)
    · intro hin
      rcases hml.mpr hin with hst | hv
      · obtain ⟨i, hi, hpay⟩ := hst
        have hip : i ≠ p := by
          intro h
          rw [h, payload_of_not_occ hemp] at hpay
          exact absurd hpay (by simp)
        exact ⟨i, hi, by rw [hbne i hip]; exact hpay⟩
      · refine ⟨p, hpc, by rw [hbp]; injection hv with h; rw [h]⟩

/-- Robin-Hood stealing step: swapping the traveler with a less-displaced
resident at slot `p` re-establishes the loop invariant for the evicted
resident at the next slot. -/
theorem PLI_swap (hc2 : 2 ≤ c) (hc63 : c ≤ 2 ^ 63)
    (hp : PLI H c B₀ kv₀ B value hash p d)
    (hocc : occAt B p) (hlt : (bkt B p).distance_ < d)
    (he : ∃ e < c, ¬occAt B e) :
    PLI H c B₀ kv₀ (B.set p (⟨value, hash, d⟩ : HashBucket κ ν))
      (bkt B p).payload (bkt B p).hash_ ((p + 1) % c)
      ((bkt B p).distance_ + 1) := by
  have hc0 : 0 < c := by omega
  have hpc : p < c := PLI_p_lt hc0 hp
  have hd : d < c := PLI_d_lt hc2 hp he
  have hplen : p < B.length := hp.len ▸ hpc
  obtain ⟨kv, hkv, hhash⟩ := hp.trav
  subst hkv
  subst hhash
  obtain ⟨kvr, hkvr⟩ := payload_of_occ hocc
  obtain ⟨hhr, hdr⟩ := (hp.slots p hpc).1 kvr hkvr
  have hdrlt : (bkt B p).distance_ < c := by rw [hdr]; exact dispOf_lt hc0 _ _
  have hpidx : ((bkt B p).hash_ % c + (bkt B p).distance_) % c = p := by
    rw [hhr, hdr]
    exact idx_of_dispOf hc0 _ _ hpc
  have hbp : bkt (B.set p ⟨some kv, H kv.1, d⟩) p = ⟨some kv, H kv.1, d⟩ :=
    bkt_set_self hplen _
  have hbne : ∀ i, i ≠ p →
      bkt (B.set p ⟨some kv, H kv.1, d⟩) i = bkt B i := fun i hi =>
    bkt_set_ne (fun h => hi h.symm) _
  have hdisp : d = dispOf c (H kv.1) p := by
    rw [hp.pos]
    exact (dispOf_spec hc0 (H kv.1) d hd).symm
  have hoccp : occAt (B.set p ⟨some kv, H kv.1, d⟩) p :=
    occAt_of_payload (show (bkt (B.set p ⟨some kv, H kv.1, d⟩) p).payload =
      some kv from by rw [hbp])
  have hkne : kvr.1 ≠ kv.1 := by
    intro h
    exact hp.travNotIn p hpc kv rfl (h ▸ keyOf_of_payload hkvr)
  refine ⟨?_, ⟨kvr, hkvr, hhr⟩, ?_, ?_, ?_, ?_, ?_, ?_, ?_, ?_⟩
  · rw [List.length_set, hp.len]
  · -- pos
    have e2 := Nat.mod_add_mod ((bkt B p).hash_ % c + (bkt B p).distance_) c 1
    rw [hpidx] at e2
    rw [e2, Nat.add_assoc]
  · -- slots
    intro i hi
    by_cases hip : i = p
    · subst hip
      unfold slotOK
      rw [hbp]
      constructor
      · intro kv' hkv'
        have hkk : kv = kv' := Option.some.inj hkv'
        subst hkk
        exact ⟨rfl, hdisp⟩
      · intro hnone
        exact absurd hnone (by simp)
    · rw [slotOK_congr (hbne i hip)]
      exact hp.slots i hi
  · -- adjacency
    intro i hi
    by_cases hip : i = p
    · subst hip
      intro hocc1 hdne1
      rw [hbp] at hdne1
      obtain ⟨hoccq, hdq⟩ := hp.pred hdne1
      have hq := pred_ne_self hc2 hpc
      refine ⟨(occAt_congr (hbne _ hq)).mpr hoccq, ?_⟩
      rw [hbp, hbne _ hq]
      exact hdq
    · intro hocc1 hdne1
      have hocci : occAt B i := (occAt_congr (hbne i hip)).mp hocc1
      rw [hbne i hip] at hdne1
      obtain ⟨ho, hb⟩ := hp.adj i hi hocci hdne1
      by_cases hqp : (i + c - 1) % c = p
      · rw [hqp] at hb ⊢
        refine ⟨hoccp, ?_⟩
        rw [hbne i hip, hbp]
        show (bkt B i).distance_ ≤ d + 1
        omega
      · refine ⟨(occAt_congr (hbne _ hqp)).mpr ho, ?_⟩
        rw [hbne i hip, hbne _ hqp]
        exact hb
  · -- pred for the new traveler
    intro _
    have hps := pred_of_succ hc0 hpc
    rw [hps, hbp]
    refine ⟨hoccp, ?_⟩
    show (bkt B p).distance_ + 1 ≤ d + 1
    omega
  · -- occ_same
    intro i hi
    by_cases hip : i = p
    · rw [hip]
      exact iff_of_true hoccp ((hp.occ_same p hpc).mp hocc)
    · rw [occAt_congr (hbne i hip)]
      exact hp.occ_same i hi
  · -- uniqueness
    intro i hi j hj key hki hkj
    have hknew : (⟨some kv, H kv.1, d⟩ : HashBucket κ ν).keyOf = some kv.1 :=
      rfl
    by_cases hip : i = p <;> by_cases hjp : j = p
    · rw [hip, hjp]
    · subst hip
      rw [hbp, hknew] at hki
      have hkey : key = kv.1 := by injection hki with h; exact h.symm
      rw [hbne j hjp] at hkj
      exact absurd (hkey ▸ hkj) (hp.travNotIn j hj kv rfl)
    · subst hjp
      rw [hbp, hknew] at hkj
      have hkey : key = kv.1 := by injection hkj with h; exact h.symm
      rw [hbne i hip] at hki
      exact absurd (hkey ▸ hki) (hp.travNotIn i hi kv rfl)
    · rw [hbne i hip] at hki
      rw [hbne j hjp] at hkj
      exact hp.uniq i hi j hj key hki hkj
  · -- the evicted resident's key is no longer stored
    intro i hi kv' hkv'
    have hkk : kvr = kv' := by
      rw [hkvr] at hkv'
      exact Option.some.inj hkv'
    subst hkk
    by_cases hip : i = p
    · subst hip
      rw [hbp]
      intro hcon
      have : kv.1 = kvr.1 := by
        have hknew : (⟨some kv, H kv.1, d⟩ : HashBucket κ ν).keyOf =
            some kv.1 := rfl
        rw [hknew] at hcon
        injection hcon
      exact hkne this.symm
    · rw [hbne i hip]
      intro hcon
      exact hip (hp.uniq i hi p hpc kvr.1 hcon (keyOf_of_payload hkvr))
  · -- content
    intro q w
    have base := hp.content q w
    have hstep : (storedP c (B.set p ⟨some kv, H kv.1, d⟩) q w ∨
        (bkt B p).payload = some (q, w)) ↔
        (storedP c B q w ∨ some kv = some (q, w)) := by
      constructor
      · rintro (⟨i, hi, hpay⟩ | hpay)
        · by_cases hip : i = p
          · subst hip
            rw [hbp] at hpay
            exact Or.inr hpay
          · rw [hbne i hip] at hpay
            exact Or.inl ⟨i, hi, hpay⟩
        · exact Or.inl ⟨p, hpc, hpay⟩
      · rintro (⟨i, hi, hpay⟩ | hpay)
        · by_cases hip : i = p
          · subst hip
            exact Or.inr hpay
          · exact Or.inl ⟨i, hi, by rw [hbne i hip]; exact hpay⟩
        · exact Or.inl ⟨p, hpc, by rw [hbp]; exact hpay⟩
    rw [hstep]
    exact base

/-- Advancing over a resident at least as displaced as the traveler keeps
the loop invariant. -/
theorem PLI_advance (hc2 : 2 ≤ c) (hc63 : c ≤ 2 ^ 63)
    (hp : PLI H c B₀ kv₀ B value hash p d)
    (hocc : occAt B p) (hge : d ≤ (bkt B p).distance_) :
    PLI H c B₀ kv₀ B value hash ((p + 1) % c) (d + 1) := by
  have hc0 : 0 < c := by omega
  have hpc : p < c := PLI_p_lt hc0 hp
  refine ⟨hp.len, hp.trav, ?_, hp.slots, hp.adj, ?_, hp.occ_same, hp.uniq,
    hp.travNotIn, hp.content⟩
  · have e2 := Nat.mod_add_mod (hash % c + d) c 1
    rw [← hp.pos] at e2
    rw [e2, Nat.add_assoc]
  · intro _
    rw [pred_of_succ hc0 hpc]
    exact ⟨hocc, by omega⟩

end PlaceSteps

/-- Main specification of the placement loop: given the loop invariant and
an empty slot within the fuel horizon, the loop terminates and restores the
table invariant with the inserted pair added. -/
theorem placeLoop_spec {k : Nat} (hk1 : 1 ≤ k) (hk63 : k ≤ 63)
    {H : κ → Nat} {B₀ : List (HashBucket κ ν)} {kv₀ : κ × ν} :
    ∀ fuel (B : List (HashBucket κ ν)) value hash p d ans,
      PLI H (2 ^ k) B₀ kv₀ B value hash p d →
      (∃ j, j < fuel ∧ j < 2 ^ k ∧ ¬occAt B ((p + j) % 2 ^ k)) →
      ∃ B' pf ans',
        placeLoop (2 ^ k) fuel B value hash p d ans = some (B', pf, ans') ∧
          PlacePost H (2 ^ k) B₀ B' kv₀ := by
  have hc2 : 2 ≤ 2 ^ k := by
    calc (2 : Nat) = 2 ^ 1 := (pow_one 2).symm
      _ ≤ 2 ^ k := Nat.pow_le_pow_right (by norm_num) hk1
  have hc63 : (2 : Nat) ^ k ≤ 2 ^ 63 :=
    Nat.pow_le_pow_right (by norm_num) hk63
  have hc0 : 0 < 2 ^ k := by omega
  intro fuel
  induction fuel with
  | zero =>
    rintro B value hash p d ans hPLI ⟨j, hj, -, -⟩
    exact absurd hj (by omega)
  | succ fuel ih =>
    rintro B value hash p d ans hPLI ⟨j, hjf, hjc, hje⟩
    have hpc : p < 2 ^ k := PLI_p_lt hc0 hPLI
    simp only [placeLoop]
    by_cases hemp : (bkt B p).empty
    · rw [if_pos hemp]
      have hnocc : ¬occAt B p := fun h =>
        (not_empty_iff_occ hc0 hc63 (hPLI.slots p hpc)).mpr h hemp
      exact ⟨_, p, ans, rfl, PLI_place hc2 hc63 hPLI hnocc⟩
    · have hocc : occAt B p :=
        (not_empty_iff_occ hc0 hc63 (hPLI.slots p hpc)).mp hemp
      rw [if_neg hemp]
      have hj0 : j ≠ 0 := by
        intro h
        rw [h, Nat.add_zero, Nat.mod_eq_of_lt hpc] at hje
        exact hje hocc
      have hene : (p + j) % 2 ^ k ≠ p := by
        intro h
        have h2 : (p + j) % 2 ^ k = (p + 0) % 2 ^ k := by
          rw [h, Nat.add_zero, Nat.mod_eq_of_lt hpc]
        exact hj0 (add_mod_inj hjc hc0 h2)
      have he : ∃ e < 2 ^ k, ¬occAt B e :=
        ⟨(p + j) % 2 ^ k, Nat.mod_lt _ hc0, hje⟩
      have harith : ((p + 1) % 2 ^ k + (j - 1)) % 2 ^ k =
          (p + j) % 2 ^ k := by
        rw [Nat.mod_add_mod]
        congr 1
        omega
      by_cases hlt : (bkt B p).distance_ < d
      · rw [if_pos hlt, mask_step hk63]
        have hPLI' := PLI_swap hc2 hc63 hPLI hocc hlt he
        have hje' : ¬occAt (B.set p ⟨value, hash, d⟩)
            (((p + 1) % 2 ^ k + (j - 1)) % 2 ^ k) := by
          rw [harith, occAt_congr (bkt_set_ne (fun hh => hene hh.symm) _)]
          exact hje
        exact ih _ _ _ _ _ _ hPLI' ⟨j - 1, by omega, by omega, hje'⟩
      · rw [if_neg hlt, mask_step hk63]
        have hge : d ≤ (bkt B p).distance_ := by omega
        have hPLI' := PLI_advance hc2 hc63 hPLI hocc hge
        have hje' : ¬occAt B (((p + 1) % 2 ^ k + (j - 1)) % 2 ^ k) := by
          rw [harith]
          exact hje
        exact ih _ _ _ _ _ _ hPLI' ⟨j - 1, by omega, by omega, hje'⟩

/-! ### `insert` lemmas -/

/-- Unfolding lemma for `insertCore` (one step of the definition). -/
theorem insertCore_eq (rfuel : Nat) (m : HashMap κ ν) (value : κ × ν)
    (hash : Nat) :
    insertCore rfuel m value hash =
      match find_bucket m value.1 hash with
      | none => none
      | some position₀ =>
        if m.check position₀ value.1 hash then some (m, position₀)
        else
          if m.size_ = m.max_size_ then
            match rfuel with
            | 0 => none
            | r + 1 =>
              match get_capacity (m.size_ + 1) with
              | none => none
              | some newCap =>
                match rehashWith (fun m' v h => insertCore r m' v h) m newCap with
                | none => none
                | some m' =>
                  match placeLoop m'.capacity_ (m'.capacity_ + 1) m'.buckets_
                      (some value) hash (m'.get_ideal hash) 0 none with
                  | none => none
                  | some (B, position, answer) =>
                    some ({ m' with buckets_ := B, size_ := m'.size_ + 1 },
                      match answer with | none => position | some a => a)
          else
            match placeLoop m.capacity_ (m.capacity_ + 1) m.buckets_
                (some value) hash (m.get_ideal hash) 0 none with
            | none => none
            | some (B, position, answer) =>
              some ({ m with buckets_ := B, size_ := m.size_ + 1 },
                match answer with | none => position | some a => a) := by
  cases rfuel with
  | zero => rw [insertCore.eq_1]
  | succ r => rw [insertCore.eq_2]

section InsertLemmas

variable {m : HashMap κ ν}

theorem Inv.tblOK (hInv : Inv m) : TblOK m.hasher_ m.capacity_ m.buckets_ :=
  ⟨hInv.buckets_len, hInv.slots, hInv.adj, hInv.uniq⟩

theorem Inv.cap_pos_of_size_ne (hInv : Inv m) (hsz : m.size_ ≠ m.max_size_) :
    ∃ k, 1 ≤ k ∧ k ≤ 63 ∧ m.capacity_ = 2 ^ k := by
  rcases hInv.cap_pow with h0 | h
  · exfalso
    apply hsz
    have hm : m.mask_ = 0 := by rw [hInv.mask_eq, h0]
    have : ceilMaxLoad 0 = 0 := by norm_num [ceilMaxLoad]
    have hmax : m.max_size_ = 0 := by
      rw [hInv.max_eq, hm, h0, this]
      simp
    have hsz0 : m.size_ = 0 := by
      have := hInv.size_le
      omega
    omega
  · exact h

theorem Inv.occ_lt_cap (hInv : Inv m) {k : Nat} (hc : m.capacity_ = 2 ^ k) :
    occCount m.capacity_ m.buckets_ < m.capacity_ := by
  have h1 : m.size_ ≤ m.max_size_ := hInv.size_le
  have h2 : m.max_size_ ≤ m.mask_ := by
    rw [hInv.max_eq]
    exact min_le_left _ _
  have h3 : m.mask_ = m.capacity_ - 1 := hInv.mask_eq
  have hc0 : 0 < m.capacity_ := by
    rw [hc]; exact Nat.pos_pow_of_pos k (by norm_num)
  rw [← hInv.size_eq]
  omega

/-- The key-is-present path of `insert`: the map is returned unchanged. -/
theorem insertCore_present (hInv : Inv m) {kv : κ × ν} {j : Nat}
    (hj : j < m.capacity_) (hkey : (bkt m.buckets_ j).keyOf = some kv.1)
    (rfuel : Nat) :
    insertCore rfuel m kv (m.hasher_ kv.1) = some (m, j) := by
  have hcpow : ∃ k, 1 ≤ k ∧ k ≤ 63 ∧ m.capacity_ = 2 ^ k := by
    rcases hInv.cap_pow with h0 | h
    · rw [h0] at hj; omega
    · exact h
  obtain ⟨k, hk1, hk63, hc⟩ := hcpow
  have hfb := find_bucket_hit hc hk1 hk63 hInv.mask_eq hInv.tblOK hj
    hInv.size_eq hkey
  have hch := check_of_stored hc hk1 hk63 hInv.tblOK hj hInv.size_eq hkey
  rw [insertCore_eq, hfb]
  simp only [if_pos hch]

/-- Placing an absent key into a table with headroom: the Robin-Hood
placement loop terminates and the updated map satisfies the invariant, with
the new pair added to the stored content. -/
theorem placeLoop_insert (hInv : Inv m) {kv : κ × ν}
    (habs : ¬HasKey m kv.1) (hsz : m.size_ ≠ m.max_size_) :
    ∃ B' pf ans',
      placeLoop m.capacity_ (m.capacity_ + 1) m.buckets_ (some kv)
        (m.hasher_ kv.1) (m.get_ideal (m.hasher_ kv.1)) 0 none =
        some (B', pf, ans') ∧
      Inv { m with buckets_ := B', size_ := m.size_ + 1 } ∧
      (∀ q w, storedP m.capacity_ B' q w ↔
        (storedP m.capacity_ m.buckets_ q w ∨ (q, w) = kv)) := by
  obtain ⟨k, hk1, hk63, hc⟩ := hInv.cap_pos_of_size_ne hsz
  have hc0 : 0 < m.capacity_ := by
    rw [hc]; exact Nat.pos_pow_of_pos k (by norm_num)
  -- the initial loop invariant
  have hideal : m.get_ideal (m.hasher_ kv.1) =
      m.hasher_ kv.1 % m.capacity_ := get_ideal_eq hc hInv.mask_eq _
  have hPLI : PLI m.hasher_ m.capacity_ m.buckets_ kv m.buckets_ (some kv)
      (m.hasher_ kv.1) (m.get_ideal (m.hasher_ kv.1)) 0 := by
    refine ⟨hInv.buckets_len, ⟨kv, rfl, rfl⟩, ?_, hInv.slots, hInv.adj,
      fun h => absurd rfl h, fun i hi => Iff.rfl, hInv.uniq, ?_, ?_⟩
    · rw [hideal, Nat.add_zero, Nat.mod_mod_of_dvd _ (dvd_refl _)]
    · intro i hi kv' hkv' hcon
      have : kv = kv' := Option.some.inj hkv'
      subst this
      exact habs ⟨i, hi, hcon⟩
    · intro q w
      constructor
      · rintro (h | h)
        · exact Or.inl h
        · exact Or.inr (Option.some.inj h).symm
      · rintro (h | h)
        · exact Or.inl h
        · exact Or.inr (congrArg some h.symm)
  -- an empty slot within the fuel horizon
  obtain ⟨e, hec, hemp⟩ := occCount_lt_exists_empty (hInv.occ_lt_cap hc)
  have hpc : m.get_ideal (m.hasher_ kv.1) < m.capacity_ := by
    rw [hideal]; exact Nat.mod_lt _ hc0
  obtain ⟨j, hjc, hje⟩ := exists_shift hc0 hpc hec
  have hwit : ∃ j', j' < m.capacity_ + 1 ∧ j' < m.capacity_ ∧
      ¬occAt m.buckets_ ((m.get_ideal (m.hasher_ kv.1) + j') % m.capacity_) :=
    ⟨j, by omega, hjc, by rw [hje]; exact hemp⟩
  have hspec := placeLoop_spec (κ := κ) (ν := ν) hk1 hk63
    (m.capacity_ + 1) m.buckets_ (some kv) (m.hasher_ kv.1)
    (m.get_ideal (m.hasher_ kv.1)) 0 none (hc ▸ hPLI) (by rw [← hc]; exact hwit)
  rw [← hc] at hspec
  obtain ⟨B', pf, ans', heq, hpost⟩ := hspec
  refine ⟨B', pf, ans', heq, ?_, hpost.content⟩
  refine ⟨hpost.len, hInv.cap_pow, hInv.mask_eq, hInv.max_eq, hInv.min_eq,
    ?_, ?_, hpost.slots, hpost.adj, hpost.uniq⟩
  · show m.size_ + 1 = occCount m.capacity_ B'
    rw [hpost.count, ← hInv.size_eq]
  · show m.size_ + 1 ≤ m.max_size_
    have := hInv.size_le
    omega

/-- The absent-key, no-rehash path of `insert`: the pair is placed by the
Robin-Hood loop and the invariant is preserved. -/
theorem insertCore_absent (hInv : Inv m) {kv : κ × ν}
    (habs : ¬HasKey m kv.1) (hsz : m.size_ ≠ m.max_size_) (rfuel : Nat) :
    ∃ m' pos, insertCore rfuel m kv (m.hasher_ kv.1) = some (m', pos) ∧
      m'.hasher_ = m.hasher_ ∧ m'.capacity_ = m.capacity_ ∧
      m'.mask_ = m.mask_ ∧ m'.max_size_ = m.max_size_ ∧
      m'.min_size_ = m.min_size_ ∧ m'.size_ = m.size_ + 1 ∧ Inv m' ∧
      (∀ q w, storedP m.capacity_ m'.buckets_ q w ↔
        (storedP m.capacity_ m.buckets_ q w ∨ (q, w) = kv)) := by
  obtain ⟨k, hk1, hk63, hc⟩ := hInv.cap_pos_of_size_ne hsz
  have htb := hInv.tblOK
  obtain ⟨pos₀, hfb⟩ := Option.isSome_iff_exists.mp
    (find_bucket_isSome hc hk1 hk63 hInv.mask_eq htb kv.1 (m.hasher_ kv.1))
  have hnch := check_absent hc hk1 hk63 htb habs pos₀ (m.hasher_ kv.1)
  obtain ⟨B', pf, ans', heq, hI', hcont⟩ := placeLoop_insert hInv habs hsz
  refine ⟨{ m with buckets_ := B', size_ := m.size_ + 1 },
    (match ans' with | none => pf | some a => a), ?_, rfl, rfl, rfl, rfl, rfl,
    rfl, hI', hcont⟩
  rw [insertCore_eq, hfb]
  simp only [if_neg hnch, if_neg hsz, heq]
  cases ans' <;> rfl

end InsertLemmas

/-! ### Counting and membership bridges -/

theorem bkt_eq_getElem {B : List (HashBucket κ ν)} {i : Nat}
    (h : i < B.length) : bkt B i = B[i] := by
  unfold bkt
  rw [List.getD_eq_getElem?_getD, List.getElem?_eq_getElem h]
  rfl

theorem storedP_iff_mem {c : Nat} {B : List (HashBucket κ ν)}
    (hlen : B.length = c) (q : κ) (w : ν) :
    storedP c B q w ↔ ∃ b ∈ B, b.payload = some (q, w) := by
  constructor
  · rintro ⟨i, hi, hpay⟩
    have hl : i < B.length := by omega
    exact ⟨B[i], List.getElem_mem hl, by rwa [← bkt_eq_getElem hl]⟩
  · rintro ⟨b, hb, hpay⟩
    obtain ⟨i, hl, rfl⟩ := List.mem_iff_getElem.mp hb
    exact ⟨i, by omega, by rwa [bkt_eq_getElem hl]⟩

theorem hasKey_iff_stored {m : HashMap κ ν} (q : κ) :
    HasKey m q ↔ ∃ w, storedP m.capacity_ m.buckets_ q w := by
  constructor
  · rintro ⟨i, hi, hk⟩
    obtain ⟨w, hw⟩ := payload_of_keyOf hk
    exact ⟨w, i, hi, hw⟩
  · rintro ⟨w, i, hi, hw⟩
    exact ⟨i, hi, keyOf_of_payload hw⟩

theorem occCount_zero (B : List (HashBucket κ ν)) : occCount 0 B = 0 := by
  simp [occCount]

theorem occCount_cons (b : HashBucket κ ν) (B : List (HashBucket κ ν))
    (n : Nat) :
    occCount (n + 1) (b :: B) =
      occCount n B + (if b.payload.isSome then 1 else 0) := by
  unfold occCount
  rw [Finset.card_filter, Finset.card_filter, Finset.sum_range_succ']
  congr 1

theorem occCount_eq_countP (B : List (HashBucket κ ν)) :
    occCount B.length B = B.countP (fun b => b.payload.isSome) := by
  induction B with
  | nil => simp [occCount]
  | cons b B ih =>
    rw [List.length_cons, occCount_cons, List.countP_cons, ih]

theorem occCount_replicate (c n : Nat) :
    occCount c (List.replicate n (HashBucket.vacant : HashBucket κ ν)) = 0 := by
  unfold occCount
  rw [Finset.card_eq_zero, Finset.filter_eq_empty_iff]
  intro i _
  unfold occAt
  rw [bkt_replicate]
  simp [HashBucket.vacant]

/-! ### `rehash` lemmas -/

section RehashLemmas

variable {m : HashMap κ ν}

/-- Specification of the freshly reset table installed by `rehash`. -/
theorem freshTable_spec {k' : Nat} (hk1 : 1 ≤ k') (hk63 : k' ≤ 63)
    (m : HashMap κ ν) :
    Inv (freshTable m (2 ^ k')) ∧
      (freshTable m (2 ^ k')).hasher_ = m.hasher_ ∧
      (freshTable m (2 ^ k')).capacity_ = 2 ^ k' ∧
      (freshTable m (2 ^ k')).size_ = 0 ∧
      (freshTable m (2 ^ k')).mask_ = 2 ^ k' - 1 ∧
      (freshTable m (2 ^ k')).max_size_ =
        min (2 ^ k' - 1) (ceilMaxLoad (2 ^ k')) ∧
      (freshTable m (2 ^ k')).min_size_ = floorMinLoad (2 ^ k') ∧
      (∀ q w, ¬storedP (2 ^ k') (freshTable m (2 ^ k')).buckets_ q w) ∧
      (∀ q, ¬HasKey (freshTable m (2 ^ k')) q) := by
  have h1 : (1 : Nat) ≤ 2 ^ k' := Nat.one_le_two_pow
  have h64 : (2 : Nat) ^ k' ≤ 2 ^ 64 :=
    Nat.pow_le_pow_right (by norm_num) (by omega)
  have hmask : sub64 (2 ^ k') 1 = 2 ^ k' - 1 := sub64_one h1 h64
  have hnostore : ∀ q w, ¬storedP (2 ^ k') (freshTable m (2 ^ k')).buckets_ q w := by
    rintro q w ⟨i, hi, hpay⟩
    rw [show (freshTable m (2 ^ k')).buckets_ =
      List.replicate (2 ^ k') HashBucket.vacant from rfl, bkt_replicate] at hpay
    exact absurd hpay (by simp [HashBucket.vacant])
  refine ⟨?_, rfl, rfl, rfl, by rw [show (freshTable m (2 ^ k')).mask_ =
    sub64 (2 ^ k') 1 from rfl, hmask], ?_, rfl, hnostore, ?_⟩
  · refine ⟨?_, Or.inr ⟨k', hk1, hk63, rfl⟩, ?_, ?_, rfl, ?_, ?_, ?_, ?_, ?_⟩
    · exact List.length_replicate _ _
    · show sub64 (2 ^ k') 1 = 2 ^ k' - 1
      exact hmask
    · show min (sub64 (2 ^ k') 1) (ceilMaxLoad (2 ^ k')) =
        min (sub64 (2 ^ k') 1) (ceilMaxLoad (2 ^ k'))
      rfl
    · exact (occCount_replicate _ _).symm
    · show (0 : Nat) ≤ _
      omega
    · intro i hi
      constructor
      · intro kv hkv
        rw [show (freshTable m (2 ^ k')).buckets_ =
          List.replicate (2 ^ k') HashBucket.vacant from rfl,
          bkt_replicate] at hkv
        exact absurd hkv (by simp [HashBucket.vacant])
      · intro _
        rw [show (freshTable m (2 ^ k')).buckets_ =
          List.replicate (2 ^ k') HashBucket.vacant from rfl, bkt_replicate]
        rfl
    · intro i hi hocc
      exfalso
      unfold occAt at hocc
      rw [show (freshTable m (2 ^ k')).buckets_ =
        List.replicate (2 ^ k') HashBucket.vacant from rfl,
        bkt_replicate] at hocc
      simp [HashBucket.vacant] at hocc
    · intro i hi j hj key hki hkj
      exfalso
      rw [show (freshTable m (2 ^ k')).buckets_ =
        List.replicate (2 ^ k') HashBucket.vacant from rfl,
        bkt_replicate] at hki
      exact absurd hki (by simp [HashBucket.keyOf, HashBucket.vacant])
  · show min (sub64 (2 ^ k') 1) (ceilMaxLoad (2 ^ k')) =
      min (2 ^ k' - 1) (ceilMaxLoad (2 ^ k'))
    rw [hmask]
  · rintro q ⟨i, hi, hk⟩
    obtain ⟨w, hw⟩ := payload_of_keyOf hk
    exact hnostore q w ⟨i, hi, hw⟩

/-- The re-insertion fold of `rehash`: distinct-keyed occupied buckets are
re-inserted one by one, preserving the invariant and accumulating content. -/
theorem reinsertWith_spec (r : Nat) :
    ∀ (L : List (HashBucket κ ν)) (acc : HashMap κ ν),
      Inv acc →
      (∀ b ∈ L, ¬b.empty → ∃ kv : κ × ν, b.payload = some kv) →
      (∀ b ∈ L, b.empty → b.payload = none) →
      L.Pairwise (fun b b' => ∀ kv kv' : κ × ν, b.payload = some kv →
        b'.payload = some kv' → kv.1 ≠ kv'.1) →
      (∀ b ∈ L, ∀ kv : κ × ν, b.payload = some kv → ¬HasKey acc kv.1) →
      acc.size_ + L.countP (fun b => b.payload.isSome) ≤ acc.max_size_ →
      ∃ m', reinsertWith (fun m'' v h => insertCore r m'' v h) acc L =
          some m' ∧
        Inv m' ∧ m'.hasher_ = acc.hasher_ ∧ m'.capacity_ = acc.capacity_ ∧
        m'.mask_ = acc.mask_ ∧ m'.max_size_ = acc.max_size_ ∧
        m'.min_size_ = acc.min_size_ ∧
        m'.size_ = acc.size_ + L.countP (fun b => b.payload.isSome) ∧
        (∀ q w, storedP acc.capacity_ m'.buckets_ q w ↔
          (storedP acc.capacity_ acc.buckets_ q w ∨
            ∃ b ∈ L, b.payload = some (q, w))) := by
  intro L
  induction L with
  | nil =>
    intro acc hInv _ _ _ _ _
    refine ⟨acc, rfl, hInv, rfl, rfl, rfl, rfl, rfl, by simp, ?_⟩
    intro q w
    simp
  | cons cur rest ih =>
    intro acc hInv hpay hempnone hpw hdisj hbudget
    by_cases hemp : cur.empty
    · have hcpay : cur.payload = none := hempnone cur (by simp) hemp
      have hcount : (cur :: rest).countP (fun b => b.payload.isSome) =
          rest.countP (fun b => b.payload.isSome) := by
        rw [List.countP_cons, hcpay]
        simp
      rw [hcount] at hbudget
      obtain ⟨m', heq, hI, hh, hca, hma, hmx, hmn, hsz, hcont⟩ :=
        ih acc hInv (fun b hb => hpay b (by simp [hb]))
          (fun b hb => hempnone b (by simp [hb]))
          (List.Pairwise.of_cons hpw)
          (fun b hb => hdisj b (by simp [hb])) hbudget
      refine ⟨m', ?_, hI, hh, hca, hma, hmx, hmn, by rw [hsz, hcount], ?_⟩
      · rw [show reinsertWith (fun m'' v h => insertCore r m'' v h) acc
          (cur :: rest) = reinsertWith (fun m'' v h => insertCore r m'' v h)
            acc rest from by rw [reinsertWith]; rw [if_pos hemp]]
        exact heq
      · intro q w
        rw [hcont]
        constructor
        · rintro (h | ⟨b, hb, hpb⟩)
          · exact Or.inl h
          · exact Or.inr ⟨b, by simp [hb], hpb⟩
        · rintro (h | ⟨b, hb, hpb⟩)
          · exact Or.inl h
          · rcases List.mem_cons.mp hb with rfl | hb'
            · rw [hcpay] at hpb
              exact absurd hpb (by simp)
            · exact Or.inr ⟨b, hb', hpb⟩
    · obtain ⟨kv, hkv⟩ := hpay cur (by simp) hemp
      have hcount : (cur :: rest).countP (fun b => b.payload.isSome) =
          rest.countP (fun b => b.payload.isSome) + 1 := by
        rw [List.countP_cons, hkv]
        simp
      rw [hcount] at hbudget
      have habs : ¬HasKey acc kv.1 := hdisj cur (by simp) kv hkv
      have hszne : acc.size_ ≠ acc.max_size_ := by omega
      obtain ⟨acc', pos, hins, hh', hca', hma', hmx', hmn', hsz', hI', hcont'⟩ :=
        insertCore_absent hInv habs hszne r
      have hK' : ∀ q, HasKey acc' q ↔ (HasKey acc q ∨ q = kv.1) := by
        intro q
        rw [hasKey_iff_stored, hasKey_iff_stored]
        constructor
        · rintro ⟨w, hst⟩
          rw [hca'] at hst
          rcases (hcont' q w).mp hst with h | h
          · exact Or.inl ⟨w, h⟩
          · exact Or.inr (congrArg Prod.fst h)
        · rintro (⟨w, hst⟩ | rfl)
          · exact ⟨w, by rw [hca']; exact (hcont' q w).mpr (Or.inl hst)⟩
          · refine ⟨kv.2, ?_⟩
            rw [hca']
            exact (hcont' kv.1 kv.2).mpr (Or.inr rfl)
      obtain ⟨m', heq, hI, hh, hca, hma, hmx, hmn, hsz, hcont⟩ :=
        ih acc' hI' (fun b hb => hpay b (by simp [hb]))
          (fun b hb => hempnone b (by simp [hb]))
          (List.Pairwise.of_cons hpw)
          (fun b hb kv' hkv' hK => by
            rcases (hK' kv'.1).mp hK with h | h
            · exact hdisj b (by simp [hb]) kv' hkv' h
            · exact (List.pairwise_cons.mp hpw).1 b hb kv kv' hkv hkv'
                h.symm)
          (by omega)
      refine ⟨m', ?_, hI, by rw [hh, hh'], by rw [hca, hca'],
        by rw [hma, hma'], by rw [hmx, hmx'], by rw [hmn, hmn'],
        by rw [hsz, hsz', hcount]; omega, ?_⟩
      · rw [show reinsertWith (fun m'' v h => insertCore r m'' v h) acc
            (cur :: rest) = match insertCore r acc kv (acc.hasher_ kv.1) with
              | none => none
              | some (m'', _) => reinsertWith
                  (fun m'' v h => insertCore r m'' v h) m'' rest from by
            rw [reinsertWith]
            rw [if_neg hemp, hkv]]
        rw [hins]
        exact heq
      · intro q w
        rw [hca'] at hcont
        rw [hcont, hcont']
        constructor
        · rintro ((h | h) | ⟨b, hb, hpb⟩)
          · exact Or.inl h
          · exact Or.inr ⟨cur, by simp, by rw [hkv, h]⟩
          · exact Or.inr ⟨b, by simp [hb], hpb⟩
        · rintro (h | ⟨b, hb, hpb⟩)
          · exact Or.inl (Or.inl h)
          · rcases List.mem_cons.mp hb with rfl | hb'
            · rw [hkv] at hpb
              exact Or.inl (Or.inr (Option.some.inj hpb).symm)
            · exact Or.inr ⟨b, hb', hpb⟩

/-- Re-insertion into the pathological capacity-0 table produced by the
`size_t` wrap at the 2⁶³ boundary immediately exhausts the rehash fuel. -/
theorem reinsertWith_zero_none {acc : HashMap κ ν}
    (hsz : acc.size_ = 0) (hmax : acc.max_size_ = 0) :
    ∀ {L : List (HashBucket κ ν)},
      (∀ b ∈ L, ¬b.empty → ∃ kv : κ × ν, b.payload = some kv) →
      (∃ b ∈ L, ¬b.empty) →
      reinsertWith (fun m'' v h => insertCore 0 m'' v h) acc L = none := by
  intro L
  induction L with
  | nil =>
    rintro _ ⟨b, hb, -⟩
    exact absurd hb (by simp)
  | cons cur rest ih =>
    rintro hpay ⟨b, hb, hbne⟩
    by_cases hemp : cur.empty
    · rcases List.mem_cons.mp hb with rfl | hb'
      · exact absurd hemp hbne
      · rw [reinsertWith, if_pos hemp]
        exact ih (fun b' hb' => hpay b' (by simp [hb'])) ⟨b, hb', hbne⟩
    · obtain ⟨kv, hkv⟩ := hpay cur (by simp) hemp
      have hmempty : acc.empty := hsz
      have hfb : find_bucket acc kv.1 (acc.hasher_ kv.1) =
          some (acc.get_ideal (acc.hasher_ kv.1)) := by
        unfold find_bucket
        rw [if_pos hmempty]
      have hnch : ¬acc.check (acc.get_ideal (acc.hasher_ kv.1)) kv.1
          (acc.hasher_ kv.1) := fun h => h.1 hmempty
      have hsm : acc.size_ = acc.max_size_ := by omega
      have hic : insertCore 0 acc kv (acc.hasher_ kv.1) = none := by
        simp only [insertCore_eq, hfb, if_neg hnch, if_pos hsm]
      rw [reinsertWith, if_neg hemp, hkv]
      show (match insertCore 0 acc kv (acc.hasher_ kv.1) with
          | none => none
          | some (m', _) =>
            reinsertWith (fun m'' v h => insertCore 0 m'' v h) m' rest) = none
      rw [hic]

/-- Under the invariant, a non-empty bucket of the table holds a payload. -/
theorem buckets_pay_of_Inv {m : HashMap κ ν} (hInv : Inv m) :
    ∀ b ∈ m.buckets_, ¬b.empty → ∃ kv : κ × ν, b.payload = some kv := by
  intro b hb hne
  obtain ⟨i, hl, rfl⟩ := List.mem_iff_getElem.mp hb
  have hi : i < m.capacity_ := by rw [← hInv.buckets_len]; exact hl
  have hsl := hInv.slots i hi
  rw [← bkt_eq_getElem hl] at hne ⊢
  cases hpay : (bkt m.buckets_ i).payload with
  | none => exact absurd (hsl.2 hpay) hne
  | some kv => exact ⟨kv, rfl⟩

/-- Under the invariant, an empty bucket of the table holds no payload. -/
theorem buckets_empnone_of_Inv {m : HashMap κ ν} (hInv : Inv m) :
    ∀ b ∈ m.buckets_, b.empty → b.payload = none := by
  intro b hb hbe
  obtain ⟨i, hl, rfl⟩ := List.mem_iff_getElem.mp hb
  have hi : i < m.capacity_ := by rw [← hInv.buckets_len]; exact hl
  have hsl := hInv.slots i hi
  rw [← bkt_eq_getElem hl] at hbe ⊢
  cases hpay : (bkt m.buckets_ i).payload with
  | none => rfl
  | some kv =>
    exfalso
    have hd := (hsl.1 kv hpay).2
    have hcap63 : m.capacity_ ≤ 2 ^ 63 := by
      rcases hInv.cap_pow with h0 | ⟨k, hk1, hk63, hc⟩
      · omega
      · rw [hc]; exact Nat.pow_le_pow_right (by norm_num) hk63
    have hlt : dispOf m.capacity_ (m.hasher_ kv.1) i < m.capacity_ :=
      Nat.mod_lt _ (by omega)
    have hu : (bkt m.buckets_ i).distance_ = UNOCCUPIED := hbe
    rw [hd] at hu
    have hs : 2 ^ 63 < UNOCCUPIED := by norm_num [UNOCCUPIED]
    omega

/-- Under the invariant, the payloads of the table carry pairwise distinct
keys (in list order). -/
theorem buckets_pairwise_of_Inv {m : HashMap κ ν} (hInv : Inv m) :
    m.buckets_.Pairwise (fun b b' => ∀ kv kv' : κ × ν, b.payload = some kv →
      b'.payload = some kv' → kv.1 ≠ kv'.1) := by
  rw [List.pairwise_iff_getElem]
  intro i j hi hj hij
  intro kv kv' hkv hkv' hkeys
  have hic : i < m.capacity_ := by rw [← hInv.buckets_len]; exact hi
  have hjc : j < m.capacity_ := by rw [← hInv.buckets_len]; exact hj
  have hki : (bkt m.buckets_ i).keyOf = some kv.1 := by
    rw [bkt_eq_getElem hi]; exact keyOf_of_payload hkv
  have hkj : (bkt m.buckets_ j).keyOf = some kv.1 := by
    rw [bkt_eq_getElem hj, hkeys]; exact keyOf_of_payload hkv'
  exact absurd (hInv.uniq i hic j hjc kv.1 hki hkj) (by omega)

/-- The grow path of `insert`: the key is absent, the occupied count has
reached the grow threshold, and the doubled capacity fits in `size_t`.  The
map is rehashed to `get_capacity(size_ + 1)` and the pair is then placed. -/
theorem insertCore_grow {m : HashMap κ ν} (hInv : Inv m) {kv : κ × ν}
    (habs : ¬HasKey m kv.1) (hsz : m.size_ = m.max_size_)
    (hbound : m.size_ + 1 ≤ 2 ^ 62) (r : Nat) :
    ∃ m' pos k', insertCore (r + 1) m kv (m.hasher_ kv.1) = some (m', pos) ∧
      1 ≤ k' ∧ k' ≤ 63 ∧ get_capacity (m.size_ + 1) = some (2 ^ k') ∧
      m'.capacity_ = 2 ^ k' ∧ m'.hasher_ = m.hasher_ ∧
      m'.size_ = m.size_ + 1 ∧ Inv m' ∧
      (∀ q w, storedP m'.capacity_ m'.buckets_ q w ↔
        (storedP m.capacity_ m.buckets_ q w ∨ (q, w) = kv)) := by
  -- the find/check prefix on the old table
  have hpre : ∃ pos₀, find_bucket m kv.1 (m.hasher_ kv.1) = some pos₀ ∧
      ¬m.check pos₀ kv.1 (m.hasher_ kv.1) := by
    by_cases hme : m.empty
    · exact ⟨m.get_ideal (m.hasher_ kv.1),
        by unfold find_bucket; rw [if_pos hme], fun h => h.1 hme⟩
    · rcases hInv.cap_pow with h0 | ⟨k, hk1, hk63, hc⟩
      · exfalso
        apply hme
        have hm0 : m.mask_ = 0 := by rw [hInv.mask_eq, h0]
        have hcl : ceilMaxLoad 0 = 0 := by norm_num [ceilMaxLoad]
        have hmax : m.max_size_ = 0 := by
          rw [hInv.max_eq, hm0, h0, hcl]; simp
        have := hInv.size_le
        show m.size_ = 0
        omega
      · obtain ⟨pos₀, hfb⟩ := Option.isSome_iff_exists.mp
          (find_bucket_isSome hc hk1 hk63 hInv.mask_eq hInv.tblOK kv.1
            (m.hasher_ kv.1))
        exact ⟨pos₀, hfb, check_absent hc hk1 hk63 hInv.tblOK habs pos₀ _⟩
  obtain ⟨pos₀, hfb, hnch⟩ := hpre
  -- the new capacity
  obtain ⟨k', hgc, hk'1, hk'63, h2n, -⟩ :=
    get_capacity_sound (n := m.size_ + 1) (by omega) hbound
  -- the fresh table
  obtain ⟨hIF, hFh, hFc, hFs, hFm, hFmax, hFmin, hFnostore, hFnokey⟩ :=
    freshTable_spec (ν := ν) hk'1 hk'63 m
  -- counting the old entries
  have hcount : m.buckets_.countP (fun b => b.payload.isSome) = m.size_ := by
    rw [← occCount_eq_countP, hInv.buckets_len, ← hInv.size_eq]
  have hmaxF : m.size_ + 1 ≤ (freshTable m (2 ^ k')).max_size_ := by
    rw [hFmax]
    exact le_min_mask_ceil (by omega) h2n
  have hbudget : (freshTable m (2 ^ k')).size_ +
      m.buckets_.countP (fun b => b.payload.isSome) ≤
      (freshTable m (2 ^ k')).max_size_ := by
    rw [hFs, hcount]
    omega
  -- re-insertion of the old entries into the fresh table
  obtain ⟨m₁, hre, hI₁, h₁h, h₁c, h₁m, h₁mx, h₁mn, h₁s, hcont₁⟩ :=
    reinsertWith_spec r m.buckets_ (freshTable m (2 ^ k')) hIF
      (buckets_pay_of_Inv hInv) (buckets_empnone_of_Inv hInv)
      (buckets_pairwise_of_Inv hInv)
      (fun b hb kv' hkv' => hFnokey kv'.1) hbudget
  rw [hFc] at hcont₁
  have hcont₁' : ∀ q w, storedP (2 ^ k') m₁.buckets_ q w ↔
      storedP m.capacity_ m.buckets_ q w := by
    intro q w
    rw [hcont₁ q w]
    constructor
    · rintro (h | h)
      · exact absurd h (hFnostore q w)
      · exact (storedP_iff_mem hInv.buckets_len q w).mpr h
    · intro h
      exact Or.inr ((storedP_iff_mem hInv.buckets_len q w).mp h)
  -- the key is still absent after the rehash, and there is headroom
  have habs₁ : ¬HasKey m₁ kv.1 := by
    intro hK
    obtain ⟨w, hst⟩ := (hasKey_iff_stored kv.1).mp hK
    rw [h₁c, hFc] at hst
    exact habs ((hasKey_iff_stored kv.1).mpr ⟨w, (hcont₁' kv.1 w).mp hst⟩)
  have h₁size : m₁.size_ = m.size_ := by
    rw [h₁s, hFs, hcount]
    omega
  have hsz₁ : m₁.size_ ≠ m₁.max_size_ := by
    have h2 : m₁.max_size_ = (freshTable m (2 ^ k')).max_size_ := h₁mx
    omega
  -- placement of the new pair
  obtain ⟨B', pf, ans', hpl, hI', hcont'⟩ := placeLoop_insert hI₁ habs₁ hsz₁
  have hhm : m₁.hasher_ = m.hasher_ := by rw [h₁h, hFh]
  have hpl' : placeLoop m₁.capacity_ (m₁.capacity_ + 1) m₁.buckets_ (some kv)
      (m.hasher_ kv.1) (m₁.get_ideal (m.hasher_ kv.1)) 0 none =
      some (B', pf, ans') := by rw [← hhm]; exact hpl
  refine ⟨{ m₁ with buckets_ := B', size_ := m₁.size_ + 1 },
    (match ans' with | none => pf | some a => a), k', ?_, hk'1, hk'63, hgc,
    ?_, ?_, ?_, hI', ?_⟩
  · rw [insertCore_eq, hfb]
    simp only [if_neg hnch, if_pos hsz, hgc, rehashWith, hre, hpl']
    cases ans' <;> rfl
  · show m₁.capacity_ = 2 ^ k'
    rw [h₁c, hFc]
  · show m₁.hasher_ = m.hasher_
    exact hhm
  · show m₁.size_ + 1 = m.size_ + 1
    omega
  · intro q w
    show storedP m₁.capacity_ B' q w ↔ _
    rw [hcont' q w, h₁c, hFc, hcont₁' q w]

/-- The `size_t` boundary of the grow path: once `size_ + 1` exceeds `2 ^ 62`
the doubled capacity wraps to `0` (or the doubling loop never exits); the
rehash into the capacity-0 table then exhausts the rehash fuel, so the
operation is marked divergent. -/
theorem insertCore_overflow {m : HashMap κ ν} (hInv : Inv m) {kv : κ × ν}
    (habs : ¬HasKey m kv.1) (hsz : m.size_ = m.max_size_)
    (hbig : 2 ^ 62 < m.size_ + 1) :
    insertCore 1 m kv (m.hasher_ kv.1) = none := by
  have hme : ¬m.empty := fun h => by
    have : m.size_ = 0 := h
    omega
  rcases hInv.cap_pow with h0 | ⟨k, hk1, hk63, hc⟩
  · exfalso
    apply hme
    have hm0 : m.mask_ = 0 := by rw [hInv.mask_eq, h0]
    have hcl : ceilMaxLoad 0 = 0 := by norm_num [ceilMaxLoad]
    have hmax : m.max_size_ = 0 := by
      rw [hInv.max_eq, hm0, h0, hcl]; simp
    have := hInv.size_le
    show m.size_ = 0
    omega
  have hc0 : 0 < m.capacity_ := by
    rw [hc]; exact Nat.pos_pow_of_pos k (by norm_num)
  have hc63 : m.capacity_ ≤ 2 ^ 63 := by
    rw [hc]; exact Nat.pow_le_pow_right (by norm_num) hk63
  obtain ⟨pos₀, hfb⟩ := Option.isSome_iff_exists.mp
    (find_bucket_isSome hc hk1 hk63 hInv.mask_eq hInv.tblOK kv.1
      (m.hasher_ kv.1))
  have hnch := check_absent hc hk1 hk63 hInv.tblOK habs pos₀ (m.hasher_ kv.1)
  -- an occupied old bucket, witnessing the stuck re-insertion
  have hocc : ∃ i < m.capacity_, occAt m.buckets_ i := by
    by_contra hno
    push_neg at hno
    have hz : occCount m.capacity_ m.buckets_ = 0 := by
      unfold occCount
      rw [Finset.card_eq_zero, Finset.filter_eq_empty_iff]
      intro i hi
      exact hno i (Finset.mem_range.mp hi)
    have := hInv.size_eq
    omega
  obtain ⟨i, hic, hocci⟩ := hocc
  have hil : i < m.buckets_.length := by rw [hInv.buckets_len]; exact hic
  have hbne : ¬(bkt m.buckets_ i).empty :=
    (not_empty_iff_occ hc0 hc63 (hInv.slots i hic)).mpr hocci
  have hmem : (bkt m.buckets_ i) ∈ m.buckets_ := by
    rw [bkt_eq_getElem hil]; exact List.getElem_mem hil
  have hfmax : (freshTable m 0).max_size_ = 0 := by
    show min (sub64 0 1) (ceilMaxLoad 0) = 0
    norm_num [sub64, ceilMaxLoad]
  have hzn : reinsertWith (fun m'' v h => insertCore 0 m'' v h)
      (freshTable m 0) m.buckets_ = none :=
    reinsertWith_zero_none rfl hfmax (buckets_pay_of_Inv hInv)
      ⟨bkt m.buckets_ i, hmem, hbne⟩
  rw [insertCore_eq, hfb]
  simp only [if_neg hnch, if_pos hsz]
  rcases get_capacity_boundary (n := m.size_ + 1) hbig with hg | hg
  · simp only [hg, rehashWith, hzn]
  · simp only [hg]

/-- Master specification of the public `insert`: whenever it succeeds, the
invariant is preserved, the hasher is unchanged, the stored content gains
the new pair exactly when its key was absent, and a present key leaves the
map untouched. -/
theorem insert_spec {m m' : HashMap κ ν} (hInv : Inv m) {kv : κ × ν}
    (h : m.insert kv = some m') :
    Inv m' ∧ m'.hasher_ = m.hasher_ ∧
      (∀ q w, MapsTo m' q w ↔
        (MapsTo m q w ∨ ((q, w) = kv ∧ ¬HasKey m kv.1))) ∧
      (HasKey m kv.1 → m' = m) ∧
      (¬HasKey m kv.1 → m'.size_ = m.size_ + 1) := by
  unfold HashMap.insert at h
  by_cases hk : HasKey m kv.1
  · obtain ⟨j, hj, hkey⟩ := hk
    rw [insertCore_present hInv hj hkey 1] at h
    have hm : m' = m := (Option.some.inj h).symm
    subst hm
    refine ⟨hInv, rfl, ?_, fun _ => rfl, fun hn => absurd ⟨j, hj, hkey⟩ hn⟩
    intro q w
    constructor
    · exact Or.inl
    · rintro (hq | ⟨-, hn⟩)
      · exact hq
      · exact absurd ⟨j, hj, hkey⟩ hn
  · by_cases hsz : m.size_ = m.max_size_
    · by_cases hbound : m.size_ + 1 ≤ 2 ^ 62
      · obtain ⟨mg, pos, k', heq, hk'1, hk'63, hgc, hcap, hhash, hsize, hI,
          hcont⟩ := insertCore_grow hInv hk hsz hbound 0
        have heq' : insertCore 1 m kv (m.hasher_ kv.1) = some (mg, pos) := heq
        rw [heq'] at h
        have hm : m' = mg := (Option.some.inj h).symm
        subst hm
        refine ⟨hI, hhash, ?_, fun hkk => absurd hkk hk, fun _ => hsize⟩
        intro q w
        show storedP m'.capacity_ m'.buckets_ q w ↔ _
        rw [hcont q w]
        constructor
        · rintro (hq | hq)
          · exact Or.inl hq
          · exact Or.inr ⟨hq, hk⟩
        · rintro (hq | ⟨hq, -⟩)
          · exact Or.inl hq
          · exact Or.inr hq
      · rw [insertCore_overflow hInv hk hsz (by omega)] at h
        exact absurd h (by simp)
    · obtain ⟨ma, pos, heq, hhash, hcap, hmask, hmax, hmin, hsize, hI,
        hcont⟩ := insertCore_absent hInv hk hsz 1
      rw [heq] at h
      have hm : m' = ma := (Option.some.inj h).symm
      subst hm
      refine ⟨hI, hhash, ?_, fun hkk => absurd hkk hk, fun _ => hsize⟩
      intro q w
      show storedP m'.capacity_ m'.buckets_ q w ↔ _
      rw [hcap, hcont q w]
      constructor
      · rintro (hq | hq)
        · exact Or.inl hq
        · exact Or.inr ⟨hq, hk⟩
      · rintro (hq | ⟨hq, -⟩)
        · exact Or.inl hq
        · exact Or.inr hq

/-- Below the `size_t` boundary the public `insert` always succeeds. -/
theorem insert_total {m : HashMap κ ν} (hInv : Inv m) (kv : κ × ν)
    (hbound : m.size_ + 1 ≤ 2 ^ 62) :
    ∃ m', m.insert kv = some m' := by
  unfold HashMap.insert
  by_cases hk : HasKey m kv.1
  · obtain ⟨j, hj, hkey⟩ := hk
    rw [insertCore_present hInv hj hkey 1]
    exact ⟨m, rfl⟩
  · by_cases hsz : m.size_ = m.max_size_
    · obtain ⟨mg, pos, k', heq, -⟩ := insertCore_grow hInv hk hsz hbound 0
      have heq' : insertCore 1 m kv (m.hasher_ kv.1) = some (mg, pos) := heq
      rw [heq']
      exact ⟨mg, rfl⟩
    · obtain ⟨ma, pos, heq, -⟩ := insertCore_absent hInv hk hsz 1
      rw [heq]
      exact ⟨ma, rfl⟩

end RehashLemmas

/-! ### `erase` helpers -/

section EraseHelpers

variable {H : κ → Nat} {c : Nat} {B : List (HashBucket κ ν)}

/-- Writing slot `p` trades its old occupancy for the new bucket's. -/
theorem occCount_set {p : Nat} (hp : p < c) (hpl : p < B.length)
    (b : HashBucket κ ν) :
    occCount c (B.set p b) + (if occAt B p then 1 else 0) =
      occCount c B + (if b.payload.isSome then 1 else 0) := by
  rw [occCount_split hp (B.set p b), occCount_split hp B,
    filter_erase_set hpl]
  have hbp : occAt (B.set p b) p ↔ b.payload.isSome = true := by
    unfold occAt; rw [bkt_set_self hpl]
  by_cases h1 : b.payload.isSome = true
  · rw [if_pos (hbp.mpr h1), if_pos h1]; omega
  · rw [if_neg (fun hh => h1 (hbp.mp hh)), if_neg h1]; omega

theorem occCount_set_clear {p : Nat} (hp : p < c) (hpl : p < B.length)
    {b : HashBucket κ ν} (hb : b.payload = none) (hocc : occAt B p) :
    occCount c (B.set p b) = occCount c B - 1 := by
  have := occCount_set hp hpl b
  rw [if_pos hocc, if_neg (by rw [hb]; simp)] at this
  omega

theorem occCount_set_occ {p : Nat} (hp : p < c) (hpl : p < B.length)
    {b : HashBucket κ ν} (hb : b.payload.isSome = true) (hocc : ¬occAt B p) :
    occCount c (B.set p b) = occCount c B + 1 := by
  have := occCount_set hp hpl b
  rw [if_neg hocc, if_pos hb] at this
  omega

theorem occCount_pos_exists_occ (h : 0 < occCount c B) :
    ∃ o < c, occAt B o := by
  unfold occCount at h
  obtain ⟨o, ho⟩ := Finset.card_pos.mp h
  rw [Finset.mem_filter, Finset.mem_range] at ho
  exact ⟨o, ho.1, ho.2⟩

/-- A table with at least two free slots has a free slot besides `p`. -/
theorem exists_second_empty (hc2 : 2 ≤ c) (hn : occCount c B ≤ c - 2)
    {p : Nat} (hp : p < c) : ∃ e < c, e ≠ p ∧ ¬occAt B e := by
  by_contra hno
  push_neg at hno
  have hsub : (Finset.range c).erase p ⊆
      (Finset.range c).filter fun i => occAt B i := by
    intro e he
    rw [Finset.mem_erase, Finset.mem_range] at he
    exact Finset.mem_filter.mpr ⟨Finset.mem_range.mpr he.2,
      hno e he.2 he.1⟩
  have hcard := Finset.card_le_card hsub
  rw [Finset.card_erase_of_mem (Finset.mem_range.mpr hp),
    Finset.card_range] at hcard
  unfold occCount at hn
  omega

/-- Moving one slot backwards decrements the stored displacement. -/
theorem dispOf_succ (hc0 : 0 < c) (h p : Nat) :
    dispOf c h ((p + 1) % c) = (dispOf c h p + 1) % c := by
  unfold dispOf
  have hh : h % c < c := Nat.mod_lt _ hc0
  have e1 : (p + 1) % c + c - h % c = (p + 1) % c + (c - h % c) := by omega
  rw [e1, Nat.mod_add_mod]
  have e3 : p + 1 + (c - h % c) = (p + c - h % c) + 1 := by omega
  rw [e3, Nat.mod_add_mod]

/-- A non-empty bucket of a coherent table holds a payload
(list-membership version, not requiring the full invariant). -/
theorem list_pay_of_slots (hlen : B.length = c)
    (hslots : ∀ i < c, slotOK H c B i) :
    ∀ b ∈ B, ¬b.empty → ∃ kv : κ × ν, b.payload = some kv := by
  intro b hb hne
  obtain ⟨i, hl, rfl⟩ := List.mem_iff_getElem.mp hb
  have hi : i < c := by omega
  have hsl := hslots i hi
  rw [← bkt_eq_getElem hl] at hne ⊢
  cases hpay : (bkt B i).payload with
  | none => exact absurd (hsl.2 hpay) hne
  | some kv => exact ⟨kv, rfl⟩

/-- An empty bucket of a coherent table holds no payload. -/
theorem list_empnone_of_slots (hc63 : c ≤ 2 ^ 63) (hlen : B.length = c)
    (hslots : ∀ i < c, slotOK H c B i) :
    ∀ b ∈ B, b.empty → b.payload = none := by
  intro b hb hbe
  obtain ⟨i, hl, rfl⟩ := List.mem_iff_getElem.mp hb
  have hi : i < c := by omega
  have hsl := hslots i hi
  rw [← bkt_eq_getElem hl] at hbe ⊢
  cases hpay : (bkt B i).payload with
  | none => rfl
  | some kv =>
    exfalso
    have hd := (hsl.1 kv hpay).2
    have hlt : dispOf c (H kv.1) i < c := Nat.mod_lt _ (by omega)
    have hu : (bkt B i).distance_ = UNOCCUPIED := hbe
    rw [hd] at hu
    have hs : 2 ^ 63 < UNOCCUPIED := by norm_num [UNOCCUPIED]
    omega

/-- A key-unique table has pairwise distinct payload keys in list order. -/
theorem list_pairwise_of_uniq (hlen : B.length = c) (huniq : uniqOK c B) :
    B.Pairwise (fun b b' => ∀ kv kv' : κ × ν, b.payload = some kv →
      b'.payload = some kv' → kv.1 ≠ kv'.1) := by
  rw [List.pairwise_iff_getElem]
  intro i j hi hj hij
  intro kv kv' hkv hkv' hkeys
  have hic : i < c := by omega
  have hjc : j < c := by omega
  have hki : (bkt B i).keyOf = some kv.1 := by
    rw [bkt_eq_getElem hi]; exact keyOf_of_payload hkv
  have hkj : (bkt B j).keyOf = some kv.1 := by
    rw [bkt_eq_getElem hj, hkeys]; exact keyOf_of_payload hkv'
  exact absurd (huniq i hic j hjc kv.1 hki hkj) (by omega)

end EraseHelpers

theorem pred_inj {c : Nat} (hc0 : 0 < c) {i j : Nat} (hi : i < c)
    (hj : j < c) (h : (i + c - 1) % c = (j + c - 1) % c) : i = j := by
  have h1 : i + c - 1 = i + (c - 1) := by omega
  have h2 : j + c - 1 = j + (c - 1) := by omega
  rw [h1, h2] at h
  have h3 : i ≡ j [MOD c] := Nat.ModEq.add_right_cancel' (c - 1) h
  have h4 : i % c = j % c := h3
  rwa [Nat.mod_eq_of_lt hi, Nat.mod_eq_of_lt hj] at h4

/-- State of the pure-scan tail of the backward-shift loop: the gap has been
closed, Robin-Hood adjacency holds everywhere except possibly at the scan
position `g`, and an occupied slot at `g` already sits at its ideal bucket
(so the loop stops there). -/
structure ScanInv (H : κ → Nat) (c : Nat) (B : List (HashBucket κ ν))
    (g : Nat) : Prop where
  len : B.length = c
  gLt : g < c
  slots : ∀ i < c, slotOK H c B i
  adjE : ∀ i < c, i ≠ g → adjOK c B i
  stopOK : occAt B g → (bkt B g).distance_ = 0

/-- The scan tail of the backward-shift loop only skips empty slots and
stops, leaving the table untouched, at the first occupied slot — which by
adjacency has distance `0`; at that point adjacency holds everywhere. -/
theorem shiftLoop_scan {k : Nat} (hk1 : 1 ≤ k) (hk63 : k ≤ 63)
    {H : κ → Nat} :
    ∀ fuel (B : List (HashBucket κ ν)) pos g,
      ScanInv H (2 ^ k) B g →
      (∃ j, j < fuel ∧ occAt B ((g + j) % 2 ^ k)) →
      shiftLoop (2 ^ k) (2 ^ k - 1) fuel B pos g = some B ∧
        ∀ i < 2 ^ k, adjOK (2 ^ k) B i := by
  have hc0 : 0 < 2 ^ k := Nat.pos_pow_of_pos k (by norm_num)
  have hc2 : 2 ≤ 2 ^ k := by
    calc (2 : Nat) = 2 ^ 1 := (pow_one 2).symm
      _ ≤ 2 ^ k := Nat.pow_le_pow_right (by norm_num) hk1
  have hc63 : (2 : Nat) ^ k ≤ 2 ^ 63 :=
    Nat.pow_le_pow_right (by norm_num) hk63
  intro fuel
  induction fuel with
  | zero =>
    rintro B pos g hSI ⟨j, hj, -⟩
    exact absurd hj (by omega)
  | succ fuel ih =>
    rintro B pos g hSI ⟨j, hjf, hje⟩
    by_cases hd0 : (bkt B g).distance_ = 0
    · refine ⟨by simp only [shiftLoop]; rw [if_pos hd0], ?_⟩
      intro i hi
      by_cases hig : i = g
      · subst hig
        intro _ hdn
        exact absurd hd0 hdn
      · exact hSI.adjE i hi hig
    · have hnocc : ¬occAt B g := fun h => hd0 (hSI.stopOK h)
      have hemp : (bkt B g).empty := by
        by_contra hne
        exact hnocc
          ((not_empty_iff_occ hc0 hc63 (hSI.slots g hSI.gLt)).mp hne)
      have hj0 : j ≠ 0 := by
        intro h
        rw [h, Nat.add_zero, Nat.mod_eq_of_lt hSI.gLt] at hje
        exact hnocc hje
      have hSI' : ScanInv H (2 ^ k) B ((g + 1) % 2 ^ k) := by
        refine ⟨hSI.len, Nat.mod_lt _ hc0, hSI.slots, ?_, ?_⟩
        · intro i hi hig'
          by_cases hig : i = g
          · subst hig
            intro hocc
            exact absurd hocc hnocc
          · exact hSI.adjE i hi hig
        · intro hocc
          by_contra hdn
          have hadj := hSI.adjE ((g + 1) % 2 ^ k) (Nat.mod_lt _ hc0)
            (succ_ne_self hc2 hSI.gLt)
          have hpred := (hadj hocc hdn).1
          rw [pred_of_succ hc0 hSI.gLt] at hpred
          exact hnocc hpred
      have harith : ((g + 1) % 2 ^ k + (j - 1)) % 2 ^ k = (g + j) % 2 ^ k := by
        rw [Nat.mod_add_mod]
        congr 1
        omega
      have hrec := ih B pos ((g + 1) % 2 ^ k) hSI'
        ⟨j - 1, by omega, by rw [harith]; exact hje⟩
      refine ⟨?_, hrec.2⟩
      simp only [shiftLoop]
      rw [if_neg hd0, if_pos hemp, mask_step hk63]
      exact hrec.1

/-- The loop invariant of the moving phase of the backward-shift loop: the
gap at `pos` is empty, the scan position is `g = pos + 1`, the table is
coherent and Robin-Hood adjacency holds except possibly at `g`; a displaced
resident at `g` is justified two steps back across the gap (`gapAdj`); the
stored content and occupancy count already agree with the post-clear table
`B₁`. -/
structure ELI (H : κ → Nat) (c : Nat) (B₁ B : List (HashBucket κ ν))
    (pos g : Nat) : Prop where
  len : B.length = c
  posLt : pos < c
  gEq : g = (pos + 1) % c
  slots : ∀ i < c, slotOK H c B i
  uniq : uniqOK c B
  gapEmp : ¬occAt B pos
  adjE : ∀ i < c, i ≠ g → adjOK c B i
  gapAdj : occAt B g → (bkt B g).distance_ ≠ 0 →
    ((bkt B g).distance_ ≤ 1 ∨
      (occAt B ((pos + c - 1) % c) ∧
        (bkt B g).distance_ ≤ (bkt B ((pos + c - 1) % c)).distance_ + 2))
  content : ∀ q w, storedP c B q w ↔ storedP c B₁ q w
  count : occCount c B = occCount c B₁

/-- One move step of the backward-shift loop: the displaced resident at `g`
moves back into the gap at `pos` with its displacement recomputed, and its
old slot becomes the new gap. -/
theorem ELI_move {k : Nat} (hk1 : 1 ≤ k) (hk63 : k ≤ 63)
    {H : κ → Nat} {B₁ B : List (HashBucket κ ν)} {pos g : Nat}
    (hE : ELI H (2 ^ k) B₁ B pos g)
    (hocc : occAt B g) (hd : (bkt B g).distance_ ≠ 0) :
    ELI H (2 ^ k) B₁
      ((B.set pos ⟨(bkt B g).payload, (bkt B g).hash_,
          sub64 pos ((bkt B g).hash_ &&& (2 ^ k - 1)) &&& (2 ^ k - 1)⟩).set
        g (bkt B g).clear)
      g ((g + 1) % 2 ^ k) ∧
    occAt ((B.set pos ⟨(bkt B g).payload, (bkt B g).hash_,
        sub64 pos ((bkt B g).hash_ &&& (2 ^ k - 1)) &&& (2 ^ k - 1)⟩).set
      g (bkt B g).clear) pos ∧
    (∀ i, i ≠ pos → i ≠ g →
      bkt ((B.set pos ⟨(bkt B g).payload, (bkt B g).hash_,
          sub64 pos ((bkt B g).hash_ &&& (2 ^ k - 1)) &&& (2 ^ k - 1)⟩).set
        g (bkt B g).clear) i = bkt B i) := by
  have hc0 : 0 < 2 ^ k := Nat.pos_pow_of_pos k (by norm_num)
  have hc2 : 2 ≤ 2 ^ k := by
    calc (2 : Nat) = 2 ^ 1 := (pow_one 2).symm
      _ ≤ 2 ^ k := Nat.pow_le_pow_right (by norm_num) hk1
  have hgLt : g < 2 ^ k := by rw [hE.gEq]; exact Nat.mod_lt _ hc0
  have hgp : g ≠ pos := by rw [hE.gEq]; exact succ_ne_self hc2 hE.posLt
  obtain ⟨kv, hkv⟩ := payload_of_occ hocc
  have hsl := hE.slots g hgLt
  have hhash : (bkt B g).hash_ = H kv.1 := (hsl.1 kv hkv).1
  have hdist : (bkt B g).distance_ = dispOf (2 ^ k) (H kv.1) g :=
    (hsl.1 kv hkv).2
  have hnewd : sub64 pos ((bkt B g).hash_ &&& (2 ^ k - 1)) &&& (2 ^ k - 1) =
      dispOf (2 ^ k) (H kv.1) pos := by
    rw [hhash, show H kv.1 &&& (2 ^ k - 1) = H kv.1 % 2 ^ k from
      land_mask _ _,
      get_distance_bridge (by omega) (H kv.1 % 2 ^ k) pos
        (le_of_lt (Nat.mod_lt _ hc0))]
    rfl
  have hDlt : dispOf (2 ^ k) (H kv.1) pos < 2 ^ k := Nat.mod_lt _ hc0
  have hstep : (dispOf (2 ^ k) (H kv.1) pos + 1) % 2 ^ k =
      (bkt B g).distance_ := by
    rw [hdist, hE.gEq, dispOf_succ hc0]
  have hDsucc : (bkt B g).distance_ = dispOf (2 ^ k) (H kv.1) pos + 1 := by
    by_cases hD : dispOf (2 ^ k) (H kv.1) pos + 1 < 2 ^ k
    · rw [← hstep, Nat.mod_eq_of_lt hD]
    · exfalso
      have hDm : dispOf (2 ^ k) (H kv.1) pos = 2 ^ k - 1 := by omega
      apply hd
      rw [← hstep, hDm]
      have he : 2 ^ k - 1 + 1 = 2 ^ k := by omega
      rw [he, Nat.mod_self]
  have hdistLt : (bkt B g).distance_ < 2 ^ k := by
    rw [hdist]; exact Nat.mod_lt _ hc0
  set mv : HashBucket κ ν := ⟨(bkt B g).payload, (bkt B g).hash_,
    sub64 pos ((bkt B g).hash_ &&& (2 ^ k - 1)) &&& (2 ^ k - 1)⟩ with hmv
  set B' := (B.set pos mv).set g (bkt B g).clear with hB'
  have hmvp : mv.payload = some kv := hkv
  have hmvh : mv.hash_ = H kv.1 := hhash
  have hmvd : mv.distance_ = dispOf (2 ^ k) (H kv.1) pos := hnewd
  have hplen : pos < B.length := by rw [hE.len]; exact hE.posLt
  have hlen1 : g < (B.set pos mv).length := by
    rw [List.length_set, hE.len]; exact hgLt
  have hbmv : bkt B' pos = mv := by
    rw [hB', bkt_set_ne hgp ((bkt B g).clear)]
    exact bkt_set_self hplen mv
  have hbcl : bkt B' g = (bkt B g).clear := by
    rw [hB']; exact bkt_set_self hlen1 _
  have hbother : ∀ i, i ≠ pos → i ≠ g → bkt B' i = bkt B i := by
    intro i hip hig
    rw [hB', bkt_set_ne (fun h => hig h.symm) _,
      bkt_set_ne (fun h => hip h.symm) _]
  have hoccmv : occAt B' pos := by
    unfold occAt
    rw [hbmv, hmvp]
    rfl
  have hnoccg : ¬occAt B' g := by
    intro hocc'
    unfold occAt at hocc'
    rw [hbcl] at hocc'
    simp [HashBucket.clear] at hocc'
  refine ⟨⟨?_, hgLt, rfl, ?_, ?_, hnoccg, ?_, ?_, ?_, ?_⟩, hoccmv, hbother⟩
  · rw [hB', List.length_set, List.length_set, hE.len]
  · -- slots
    intro i hi
    by_cases hig : i = g
    · subst hig
      constructor
      · intro kv' hkv'
        rw [hbcl] at hkv'
        exact absurd hkv' (by simp [HashBucket.clear])
      · intro _
        rw [hbcl]
        rfl
    · by_cases hip : i = pos
      · subst hip
        constructor
        · intro kv' hkv'
          rw [hbmv, hmvp] at hkv'
          have hkk : kv = kv' := Option.some.inj hkv'
          subst hkk
          exact ⟨by rw [hbmv]; exact hmvh, by rw [hbmv]; exact hmvd⟩
        · intro hnone
          rw [hbmv, hmvp] at hnone
          exact absurd hnone (by simp)
      · rw [slotOK_congr (hbother i hip hig)]
        exact hE.slots i hi
  · -- uniq
    have hkey' : ∀ i < 2 ^ k, ∀ key : κ, (bkt B' i).keyOf = some key →
        (i = pos ∧ key = kv.1) ∨
          (i ≠ pos ∧ i ≠ g ∧ (bkt B i).keyOf = some key) := by
      intro i hi key hk
      by_cases hig : i = g
      · subst hig
        rw [hbcl] at hk
        exact absurd hk (by simp [HashBucket.keyOf, HashBucket.clear])
      · by_cases hip : i = pos
        · subst hip
          refine Or.inl ⟨rfl, ?_⟩
          rw [hbmv, keyOf_of_payload hmvp] at hk
          exact (Option.some.inj hk).symm
        · exact Or.inr ⟨hip, hig, by rw [← hbother i hip hig]; exact hk⟩
    intro i hi j hj key hki hkj
    have hkg : (bkt B g).keyOf = some kv.1 := keyOf_of_payload hkv
    rcases hkey' i hi key hki with ⟨hip, hkey1⟩ | ⟨hip, hig, hbi⟩ <;>
      rcases hkey' j hj key hkj with ⟨hjp, hkey2⟩ | ⟨hjp, hjg, hbj⟩
    · rw [hip, hjp]
    · exfalso
      rw [hkey1] at hbj
      exact hjg (hE.uniq j hj g hgLt kv.1 hbj hkg)
    · exfalso
      rw [hkey2] at hbi
      exact hig (hE.uniq i hi g hgLt kv.1 hbi hkg)
    · exact hE.uniq i hi j hj key hbi hbj
  · -- adjE
    intro i hi hig'
    by_cases hig : i = g
    · subst hig
      intro hocc'
      exact absurd hocc' hnoccg
    · by_cases hip : i = pos
      · rw [hip]
        intro hoccp hdnp
        rw [hbmv, hmvd] at hdnp
        rcases hE.gapAdj hocc hd with hle1 | ⟨hoccpred, hble⟩
        · exfalso
          omega
        · have hpredg : (pos + 2 ^ k - 1) % 2 ^ k ≠ g := by
            intro h
            rw [hE.gEq] at h
            have h' : (pos + (2 ^ k - 1)) % 2 ^ k = (pos + 1) % 2 ^ k := by
              rw [← h]; congr 1; omega
            have := add_mod_inj (c := 2 ^ k) (by omega) (by omega) h'
            omega
          have hpredp : (pos + 2 ^ k - 1) % 2 ^ k ≠ pos :=
            pred_ne_self hc2 hE.posLt
          have hbpred : bkt B' ((pos + 2 ^ k - 1) % 2 ^ k) =
              bkt B ((pos + 2 ^ k - 1) % 2 ^ k) := hbother _ hpredp hpredg
          constructor
          · unfold occAt
            rw [hbpred]
            exact hoccpred
          · rw [hbmv, hmvd, hbpred]
            omega
      · have hpredne : (i + 2 ^ k - 1) % 2 ^ k ≠ pos := by
          intro h
          have hpg : ((pos + 1) % 2 ^ k + 2 ^ k - 1) % 2 ^ k = pos :=
            pred_of_succ hc0 hE.posLt
          rw [← hE.gEq] at hpg
          exact hig (pred_inj hc0 hi hgLt (by rw [h]; exact hpg.symm))
        have hpredng : (i + 2 ^ k - 1) % 2 ^ k ≠ g := by
          intro h
          have hpg' : ((g + 1) % 2 ^ k + 2 ^ k - 1) % 2 ^ k = g :=
            pred_of_succ hc0 hgLt
          exact hig' (pred_inj hc0 hi (Nat.mod_lt _ hc0)
            (by rw [h]; exact hpg'.symm))
        rw [adjOK_congr (hbother i hip hig) (hbother _ hpredne hpredng)]
        exact hE.adjE i hi hig
  · -- gapAdj at the new scan position
    intro hocc' hdn'
    have hpredg : (g + 2 ^ k - 1) % 2 ^ k = pos := by
      rw [hE.gEq]; exact pred_of_succ hc0 hE.posLt
    by_cases hgp' : (g + 1) % 2 ^ k = pos
    · exfalso
      rw [hgp'] at hocc' hdn'
      rw [hbmv, hmvd] at hdn'
      have hdvd : 2 ^ k ∣ 2 := by
        have h1 : ((pos + 1) % 2 ^ k + 1) % 2 ^ k = pos := by
          rw [← hE.gEq]; exact hgp'
        rw [Nat.mod_add_mod] at h1
        have h2 : (pos + 2) % 2 ^ k = pos := h1
        have hmod : pos + 2 ≡ pos [MOD 2 ^ k] := by
          show (pos + 2) % 2 ^ k = pos % 2 ^ k
          rw [h2, Nat.mod_eq_of_lt hE.posLt]
        have h5 := (Nat.modEq_iff_dvd' (by omega)).mp hmod.symm
        simpa using h5
      have h2le : 2 ^ k ≤ 2 := Nat.le_of_dvd (by norm_num) hdvd
      omega
    · have hg'g : (g + 1) % 2 ^ k ≠ g := succ_ne_self hc2 hgLt
      have hbg' : bkt B' ((g + 1) % 2 ^ k) = bkt B ((g + 1) % 2 ^ k) :=
        hbother _ hgp' hg'g
      rw [occAt_congr hbg'] at hocc'
      rw [hbg'] at hdn'
      have hadj := hE.adjE ((g + 1) % 2 ^ k) (Nat.mod_lt _ hc0) hg'g
        hocc' hdn'
      rw [pred_of_succ hc0 hgLt] at hadj
      refine Or.inr ⟨?_, ?_⟩
      · rw [hpredg]
        exact hoccmv
      · rw [hpredg, hbg', hbmv, hmvd]
        have hb2 := hadj.2
        omega
  · -- content
    intro q w
    rw [← hE.content q w]
    constructor
    · rintro ⟨i, hi, hpay'⟩
      by_cases hig : i = g
      · subst hig
        rw [hbcl] at hpay'
        exact absurd hpay' (by simp [HashBucket.clear])
      · by_cases hip : i = pos
        · subst hip
          rw [hbmv, hmvp] at hpay'
          have hqw : kv = (q, w) := Option.some.inj hpay'
          exact ⟨g, hgLt, by rw [hkv, hqw]⟩
        · exact ⟨i, hi, by rw [← hbother i hip hig]; exact hpay'⟩
    · rintro ⟨i, hi, hpay⟩
      by_cases hig : i = g
      · subst hig
        have hqw : kv = (q, w) := by
          rw [hkv] at hpay
          exact Option.some.inj hpay
        exact ⟨pos, hE.posLt, by rw [hbmv, hmvp, hqw]⟩
      · by_cases hip : i = pos
        · subst hip
          exact absurd (occAt_of_payload hpay) hE.gapEmp
        · exact ⟨i, hi, by rw [hbother i hip hig]; exact hpay⟩
  · -- count
    rw [← hE.count, hB']
    have hocc1 : occAt (B.set pos mv) g := by
      unfold occAt
      rw [bkt_set_ne (fun h => hgp h.symm) mv, hkv]
      rfl
    rw [occCount_set_clear hgLt hlen1
      (show ((bkt B g).clear).payload = none from rfl) hocc1]
    rw [occCount_set_occ hE.posLt hplen
      (show mv.payload.isSome = true by rw [hmvp]; rfl) hE.gapEmp]
    omega

/-- The backward-shift loop, started right after the erased slot `pos₀` has
been cleared: the loop closes the gap by shifting the displaced run back one
slot, scans over empty slots, and stops at the first slot with distance `0`,
restoring the full table invariant with the content of the cleared table. -/
theorem shiftLoop_run {k : Nat} (hk1 : 1 ≤ k) (hk63 : k ≤ 63)
    {H : κ → Nat} {B₁ : List (HashBucket κ ν)} {pos₀ : Nat}
    (hpos₀ : pos₀ < 2 ^ k)
    (hn1 : 1 ≤ occCount (2 ^ k) B₁) (hn2 : occCount (2 ^ k) B₁ ≤ 2 ^ k - 2) :
    ∀ fuel s (B : List (HashBucket κ ν)),
      fuel + s = 2 ^ k + 1 → s ≤ 2 ^ k - 2 →
      (1 ≤ s → occAt B pos₀) →
      ELI H (2 ^ k) B₁ B ((pos₀ + s) % 2 ^ k) ((pos₀ + s + 1) % 2 ^ k) →
      (∃ j, j ≤ 2 ^ k - 2 - s ∧
        ((bkt B (((pos₀ + s + 1) % 2 ^ k + j) % 2 ^ k)).distance_ = 0 ∨
          ¬occAt B (((pos₀ + s + 1) % 2 ^ k + j) % 2 ^ k))) →
      ∃ B', shiftLoop (2 ^ k) (2 ^ k - 1) fuel B ((pos₀ + s) % 2 ^ k)
          ((pos₀ + s + 1) % 2 ^ k) = some B' ∧
        B'.length = 2 ^ k ∧ (∀ i < 2 ^ k, slotOK H (2 ^ k) B' i) ∧
        uniqOK (2 ^ k) B' ∧ (∀ i < 2 ^ k, adjOK (2 ^ k) B' i) ∧
        (∀ q w, storedP (2 ^ k) B' q w ↔ storedP (2 ^ k) B₁ q w) ∧
        occCount (2 ^ k) B' = occCount (2 ^ k) B₁ ∧
        (∀ t u, t ≤ u → u ≤ 2 ^ k - 2 →
          ((bkt B (((pos₀ + s + 1) % 2 ^ k + t) % 2 ^ k)).distance_ = 0 ∨
            ¬occAt B (((pos₀ + s + 1) % 2 ^ k + t) % 2 ^ k)) →
          bkt B' (((pos₀ + s + 1) % 2 ^ k + u) % 2 ^ k) =
            bkt B (((pos₀ + s + 1) % 2 ^ k + u) % 2 ^ k)) := by
  have hc0 : 0 < 2 ^ k := Nat.pos_pow_of_pos k (by norm_num)
  have hc2 : 2 ≤ 2 ^ k := by
    calc (2 : Nat) = 2 ^ 1 := (pow_one 2).symm
      _ ≤ 2 ^ k := Nat.pow_le_pow_right (by norm_num) hk1
  have hc63 : (2 : Nat) ^ k ≤ 2 ^ 63 :=
    Nat.pow_le_pow_right (by norm_num) hk63
  intro fuel
  induction fuel with
  | zero =>
    intro s B hfe hs _ _ _
    omega
  | succ fuel ih =>
    rintro s B hfe hs hmoved hE ⟨j, hjle, hjstop⟩
    have hgLt : (pos₀ + s + 1) % 2 ^ k < 2 ^ k := Nat.mod_lt _ hc0
    by_cases hd0 : (bkt B ((pos₀ + s + 1) % 2 ^ k)).distance_ = 0
    · refine ⟨B, ?_, hE.len, hE.slots, hE.uniq, ?_, hE.content, hE.count,
        fun t u _ _ _ => rfl⟩
      · simp only [shiftLoop]
        rw [if_pos hd0]
      · intro i hi
        by_cases hig : i = (pos₀ + s + 1) % 2 ^ k
        · rw [hig]
          intro _ hdn
          exact absurd hd0 hdn
        · exact hE.adjE i hi hig
    · by_cases hemp : (bkt B ((pos₀ + s + 1) % 2 ^ k)).empty
      · -- the gap is followed by an empty slot: pure scan from here on
        have hnocc : ¬occAt B ((pos₀ + s + 1) % 2 ^ k) := fun hocc =>
          ((not_empty_iff_occ hc0 hc63 (hE.slots _ hgLt)).mpr hocc) hemp
        have hSI : ScanInv H (2 ^ k) B
            (((pos₀ + s + 1) % 2 ^ k + 1) % 2 ^ k) := by
          refine ⟨hE.len, Nat.mod_lt _ hc0, hE.slots, ?_, ?_⟩
          · intro i hi hig'
            by_cases hig : i = (pos₀ + s + 1) % 2 ^ k
            · rw [hig]
              intro hocc
              exact absurd hocc hnocc
            · exact hE.adjE i hi hig
          · intro hocc
            by_contra hdn
            have hadj := hE.adjE _ (Nat.mod_lt _ hc0)
              (succ_ne_self hc2 hgLt) hocc hdn
            rw [pred_of_succ hc0 hgLt] at hadj
            exact hnocc hadj.1
        have hwit : ∃ j2, j2 < fuel ∧
            occAt B ((((pos₀ + s + 1) % 2 ^ k + 1) % 2 ^ k + j2) %
              2 ^ k) := by
          by_cases hs0 : s = 0
          · subst hs0
            obtain ⟨o, ho, hocco⟩ := occCount_pos_exists_occ
              (show 0 < occCount (2 ^ k) B by rw [hE.count]; omega)
            have hg2 : ((pos₀ + 0 + 1) % 2 ^ k + 1) % 2 ^ k < 2 ^ k :=
              Nat.mod_lt _ hc0
            refine ⟨(o + 2 ^ k - (((pos₀ + 0 + 1) % 2 ^ k + 1) % 2 ^ k)) %
              2 ^ k, ?_, ?_⟩
            · have := Nat.mod_lt
                (o + 2 ^ k - (((pos₀ + 0 + 1) % 2 ^ k + 1) % 2 ^ k))
                (y := 2 ^ k) hc0
              omega
            · rw [Nat.add_mod_mod]
              have he : ((pos₀ + 0 + 1) % 2 ^ k + 1) % 2 ^ k +
                  (o + 2 ^ k - (((pos₀ + 0 + 1) % 2 ^ k + 1) % 2 ^ k)) =
                  o + 2 ^ k := by omega
              rw [he, Nat.add_mod_right, Nat.mod_eq_of_lt ho]
              exact hocco
          · have hoccp := hmoved (by omega)
            refine ⟨2 ^ k - s - 2, by omega, ?_⟩
            have hg2 : ((pos₀ + s + 1) % 2 ^ k + 1) % 2 ^ k =
                (pos₀ + s + 2) % 2 ^ k := by
              rw [Nat.mod_add_mod]
            rw [hg2, Nat.mod_add_mod]
            have he : pos₀ + s + 2 + (2 ^ k - s - 2) = pos₀ + 2 ^ k := by
              omega
            rw [he, Nat.add_mod_right, Nat.mod_eq_of_lt hpos₀]
            exact hoccp
        obtain ⟨heqscan, hadjall⟩ := shiftLoop_scan hk1 hk63 fuel B
          ((pos₀ + s) % 2 ^ k) (((pos₀ + s + 1) % 2 ^ k + 1) % 2 ^ k)
          hSI hwit
        refine ⟨B, ?_, hE.len, hE.slots, hE.uniq, hadjall, hE.content,
          hE.count, fun t u _ _ _ => rfl⟩
        simp only [shiftLoop]
        rw [if_neg hd0, if_pos hemp, mask_step hk63]
        exact heqscan
      · -- a displaced resident: move it back into the gap
        have hocc : occAt B ((pos₀ + s + 1) % 2 ^ k) :=
          (not_empty_iff_occ hc0 hc63 (hE.slots _ hgLt)).mp hemp
        obtain ⟨hE', hoccmv, hother⟩ := ELI_move hk1 hk63 hE hocc hd0
        have hj0 : j ≠ 0 := by
          intro h
          subst h
          rw [Nat.add_zero, Nat.mod_eq_of_lt hgLt] at hjstop
          rcases hjstop with h | h
          · exact hd0 h
          · exact h hocc
        have e1 : ((pos₀ + s) % 2 ^ k + 1) % 2 ^ k =
            (pos₀ + (s + 1)) % 2 ^ k := by
          rw [Nat.mod_add_mod, ← Nat.add_assoc]
        have e2 : ((pos₀ + s + 1) % 2 ^ k + 1) % 2 ^ k =
            (pos₀ + (s + 1) + 1) % 2 ^ k := by
          rw [Nat.mod_add_mod, ← Nat.add_assoc]
        rw [e2] at hE'
        have hmoved' : 1 ≤ s + 1 →
            occAt ((B.set ((pos₀ + s) % 2 ^ k)
                ⟨(bkt B ((pos₀ + s + 1) % 2 ^ k)).payload,
                  (bkt B ((pos₀ + s + 1) % 2 ^ k)).hash_,
                  sub64 ((pos₀ + s) % 2 ^ k)
                      ((bkt B ((pos₀ + s + 1) % 2 ^ k)).hash_ &&&
                        (2 ^ k - 1)) &&&
                    (2 ^ k - 1)⟩).set ((pos₀ + s + 1) % 2 ^ k)
              (bkt B ((pos₀ + s + 1) % 2 ^ k)).clear) pos₀ := by
          intro _
          by_cases hs0 : s = 0
          · have hpe : (pos₀ + s) % 2 ^ k = pos₀ := by
              rw [hs0, Nat.add_zero, Nat.mod_eq_of_lt hpos₀]
            exact cast (congrArg _ hpe) hoccmv
          · have hne1 : pos₀ ≠ (pos₀ + s) % 2 ^ k := by
              intro h
              have h2 : (pos₀ + s) % 2 ^ k = (pos₀ + 0) % 2 ^ k := by
                rw [show pos₀ + 0 = pos₀ from rfl, Nat.mod_eq_of_lt hpos₀]
                exact h.symm
              exact hs0 (add_mod_inj (c := 2 ^ k) (by omega) (by omega) h2)
            have hne2 : pos₀ ≠ (pos₀ + s + 1) % 2 ^ k := by
              intro h
              have h2 : (pos₀ + (s + 1)) % 2 ^ k = (pos₀ + 0) % 2 ^ k := by
                rw [show pos₀ + 0 = pos₀ from rfl, Nat.mod_eq_of_lt hpos₀,
                  ← Nat.add_assoc]
                exact h.symm
              have := add_mod_inj (c := 2 ^ k) (by omega) (by omega) h2
              omega
            exact (occAt_congr (hother pos₀ hne1 hne2)).mpr
              (hmoved (by omega))
        have hXgen : ∀ v, 1 ≤ v → v ≤ 2 ^ k - 2 →
            ((pos₀ + s + 1) % 2 ^ k + v) % 2 ^ k ≠ (pos₀ + s) % 2 ^ k ∧
            ((pos₀ + s + 1) % 2 ^ k + v) % 2 ^ k ≠
              (pos₀ + s + 1) % 2 ^ k := by
          intro v hv1 hv2
          constructor
          · intro h
            have hlhs : (pos₀ + s + (1 + v)) % 2 ^ k =
                ((pos₀ + s + 1) % 2 ^ k + v) % 2 ^ k := by
              rw [Nat.mod_add_mod]
              congr 1
              omega
            have h1 : (pos₀ + s + (1 + v)) % 2 ^ k =
                (pos₀ + s + 0) % 2 ^ k := by
              rw [hlhs, h, Nat.add_zero]
            have := add_mod_inj (c := 2 ^ k) (by omega) (by omega) h1
            omega
          · intro h
            have hlhs : (pos₀ + s + 1 + v) % 2 ^ k =
                ((pos₀ + s + 1) % 2 ^ k + v) % 2 ^ k :=
              (Nat.mod_add_mod _ _ _).symm
            have h1 : (pos₀ + s + 1 + v) % 2 ^ k =
                (pos₀ + s + 1 + 0) % 2 ^ k := by
              rw [hlhs, h, Nat.add_zero]
            have := add_mod_inj (c := 2 ^ k) (by omega) (by omega) h1
            omega
        have hXp : ((pos₀ + s + 1) % 2 ^ k + j) % 2 ^ k ≠
            (pos₀ + s) % 2 ^ k := (hXgen j (by omega) (by omega)).1
        have hXg : ((pos₀ + s + 1) % 2 ^ k + j) % 2 ^ k ≠
            (pos₀ + s + 1) % 2 ^ k := (hXgen j (by omega) (by omega)).2
        have hfemp' : ∃ j2, j2 ≤ 2 ^ k - 2 - (s + 1) ∧
            ((bkt ((B.set ((pos₀ + s) % 2 ^ k)
                  ⟨(bkt B ((pos₀ + s + 1) % 2 ^ k)).payload,
                    (bkt B ((pos₀ + s + 1) % 2 ^ k)).hash_,
                    sub64 ((pos₀ + s) % 2 ^ k)
                        ((bkt B ((pos₀ + s + 1) % 2 ^ k)).hash_ &&&
                          (2 ^ k - 1)) &&&
                      (2 ^ k - 1)⟩).set ((pos₀ + s + 1) % 2 ^ k)
                (bkt B ((pos₀ + s + 1) % 2 ^ k)).clear)
                (((pos₀ + (s + 1) + 1) % 2 ^ k + j2) % 2 ^ k)).distance_ =
                0 ∨
              ¬occAt ((B.set ((pos₀ + s) % 2 ^ k)
                  ⟨(bkt B ((pos₀ + s + 1) % 2 ^ k)).payload,
                    (bkt B ((pos₀ + s + 1) % 2 ^ k)).hash_,
                    sub64 ((pos₀ + s) % 2 ^ k)
                        ((bkt B ((pos₀ + s + 1) % 2 ^ k)).hash_ &&&
                          (2 ^ k - 1)) &&&
                      (2 ^ k - 1)⟩).set ((pos₀ + s + 1) % 2 ^ k)
                (bkt B ((pos₀ + s + 1) % 2 ^ k)).clear)
                (((pos₀ + (s + 1) + 1) % 2 ^ k + j2) % 2 ^ k)) := by
          refine ⟨j - 1, by omega, ?_⟩
          have hidx : ((pos₀ + (s + 1) + 1) % 2 ^ k + (j - 1)) % 2 ^ k =
              ((pos₀ + s + 1) % 2 ^ k + j) % 2 ^ k := by
            rw [Nat.mod_add_mod, Nat.mod_add_mod]
            congr 1
            omega
          rw [hidx]
          rcases hjstop with h | h
          · exact Or.inl (by rw [hother _ hXp hXg]; exact h)
          · exact Or.inr (fun hcon =>
              h ((occAt_congr (hother _ hXp hXg)).mp hcon))
        obtain ⟨B'', heq, hlen'', hslots'', huniq'', hadj'', hcont'',
          hcount'', huntouched''⟩ :=
          ih (s + 1) _ (by omega) (by omega) hmoved' hE' hfemp'
        refine ⟨B'', ?_, hlen'', hslots'', huniq'', hadj'', hcont'',
          hcount'', ?_⟩
        · simp only [shiftLoop]
          rw [if_neg hd0, if_neg hemp, mask_step hk63 ((pos₀ + s) % 2 ^ k),
            mask_step hk63 ((pos₀ + s + 1) % 2 ^ k), e1, e2]
          exact heq
        · intro t u htu hu hstop
          have ht0 : t ≠ 0 := by
            intro h
            subst h
            rw [Nat.add_zero, Nat.mod_eq_of_lt hgLt] at hstop
            rcases hstop with hh | hh
            · exact hd0 hh
            · exact hh hocc
          obtain ⟨hXpu, hXgu⟩ := hXgen u (by omega) hu
          obtain ⟨hXpt, hXgt⟩ := hXgen t (by omega) (by omega)
          have hvalu := hother _ hXpu hXgu
          have hvalt := hother _ hXpt hXgt
          have hidxt : ((pos₀ + (s + 1) + 1) % 2 ^ k + (t - 1)) % 2 ^ k =
              ((pos₀ + s + 1) % 2 ^ k + t) % 2 ^ k := by
            rw [Nat.mod_add_mod, Nat.mod_add_mod]
            congr 1
            omega
          have hidxu : ((pos₀ + (s + 1) + 1) % 2 ^ k + (u - 1)) % 2 ^ k =
              ((pos₀ + s + 1) % 2 ^ k + u) % 2 ^ k := by
            rw [Nat.mod_add_mod, Nat.mod_add_mod]
            congr 1
            omega
          have hres2 := huntouched'' (t - 1) (u - 1) (by omega) (by omega)
            (by
              rw [hidxt]
              rcases hstop with hh | hh
              · exact Or.inl (by rw [hvalt]; exact hh)
              · exact Or.inr (fun hcon => hh ((occAt_congr hvalt).mp hcon)))
          rw [hidxu] at hres2
          rw [hres2, hvalu]

theorem no_occ_of_occCount_zero {c : Nat} {B : List (HashBucket κ ν)}
    (h : occCount c B = 0) : ∀ i < c, ¬occAt B i := by
  intro i hi hocc
  unfold occCount at h
  rw [Finset.card_eq_zero, Finset.filter_eq_empty_iff] at h
  exact h (Finset.mem_range.mpr hi) hocc

/-- Clearing the unique slot of a key: coherence, key uniqueness and the
occupancy count survive, and exactly that key's pair leaves the content. -/
theorem clear_slot_facts {H : κ → Nat} {c : Nat} {B : List (HashBucket κ ν)}
    (hlen : B.length = c) (hslots : ∀ i < c, slotOK H c B i)
    (huniq : uniqOK c B) {j : Nat} {key : κ} {w₀ : ν}
    (hj : j < c) (hpay₀ : (bkt B j).payload = some (key, w₀)) :
    (∀ i < c, slotOK H c (B.set j (bkt B j).clear) i) ∧
    uniqOK c (B.set j (bkt B j).clear) ∧
    occCount c (B.set j (bkt B j).clear) = occCount c B - 1 ∧
    (∀ q w, storedP c (B.set j (bkt B j).clear) q w ↔
      (storedP c B q w ∧ q ≠ key)) := by
  have hjlen : j < B.length := by omega
  have hbj : bkt (B.set j (bkt B j).clear) j = (bkt B j).clear :=
    bkt_set_self hjlen _
  have hbne : ∀ i, i ≠ j → bkt (B.set j (bkt B j).clear) i = bkt B i :=
    fun i hij => bkt_set_ne (fun h => hij h.symm) _
  have hkeyj : (bkt B j).keyOf = some key := keyOf_of_payload hpay₀
  refine ⟨?_, ?_, ?_, ?_⟩
  · intro i hi
    by_cases hij : i = j
    · subst hij
      constructor
      · intro kv hkv
        rw [hbj] at hkv
        exact absurd hkv (by simp [HashBucket.clear])
      · intro _
        rw [hbj]
        rfl
    · rw [slotOK_congr (hbne i hij)]
      exact hslots i hi
  · intro i hi i' hi' key' hki hki'
    have htr : ∀ t < c, (bkt (B.set j (bkt B j).clear) t).keyOf =
        some key' → (bkt B t).keyOf = some key' := by
      intro t ht hkt
      by_cases htj : t = j
      · subst htj
        rw [hbj] at hkt
        exact absurd hkt (by simp [HashBucket.keyOf, HashBucket.clear])
      · rw [← hbne t htj]
        exact hkt
    exact huniq i hi i' hi' key' (htr i hi hki) (htr i' hi' hki')
  · exact occCount_set_clear hj hjlen (show ((bkt B j).clear).payload =
      none from rfl) (occAt_of_payload hpay₀)
  · intro q w
    constructor
    · rintro ⟨i, hi, hp⟩
      by_cases hij : i = j
      · subst hij
        rw [hbj] at hp
        exact absurd hp (by simp [HashBucket.clear])
      · rw [hbne i hij] at hp
        refine ⟨⟨i, hi, hp⟩, ?_⟩
        intro hqk
        subst hqk
        exact hij (huniq i hi j hj q (keyOf_of_payload hp) hkeyj)
    · rintro ⟨⟨i, hi, hp⟩, hqk⟩
      have hij : i ≠ j := by
        intro h
        subst h
        rw [hpay₀] at hp
        exact hqk (congrArg Prod.fst (Option.some.inj hp)).symm
      exact ⟨i, hi, by rw [hbne i hij]; exact hp⟩

/-- A free slot (other than the just-cleared one) lies ahead of the scan
start, bounding the moving phase of the backward shift. -/
theorem femp_init {c : Nat} (hc2 : 2 ≤ c) {B : List (HashBucket κ ν)}
    (hn2 : occCount c B ≤ c - 2) {j : Nat} (hj : j < c) :
    ∃ jf, jf ≤ c - 2 ∧ ¬occAt B (((j + 1) % c + jf) % c) := by
  obtain ⟨e, he, hej, hocce⟩ := exists_second_empty hc2 hn2 hj
  have hjc : (j + 1) % c < c := Nat.mod_lt _ (by omega)
  have hslot : ((j + 1) % c + (e + c - (j + 1) % c) % c) % c = e := by
    rw [Nat.add_mod_mod]
    have h1 : (j + 1) % c + (e + c - (j + 1) % c) = e + c := by omega
    rw [h1, Nat.add_mod_right, Nat.mod_eq_of_lt he]
  refine ⟨(e + c - (j + 1) % c) % c, ?_, by rw [hslot]; exact hocce⟩
  by_contra hgt
  push_neg at hgt
  have hlt : (e + c - (j + 1) % c) % c < c := Nat.mod_lt _ (by omega)
  have hjf : (e + c - (j + 1) % c) % c = c - 1 := by omega
  apply hej
  rw [hjf] at hslot
  have hpred : ((j + 1) % c + (c - 1)) % c = j := by
    have h1 : ((j + 1) % c + c - 1) % c = j := pred_of_succ (by omega) hj
    have h2 : (j + 1) % c + c - 1 = (j + 1) % c + (c - 1) := by omega
    rw [h2] at h1
    exact h1
  rw [hpred] at hslot
  exact hslot.symm

/-- The state right after clearing the erased slot satisfies the shift-loop
invariant at step 0. -/
theorem ELI_clear {H : κ → Nat} {c : Nat} (hc2 : 2 ≤ c)
    {B : List (HashBucket κ ν)}
    (hlen : B.length = c) (hslots : ∀ i < c, slotOK H c B i)
    (hadj : ∀ i < c, adjOK c B i) (huniq : uniqOK c B)
    {j : Nat} {key : κ} {w₀ : ν}
    (hj : j < c) (hpay₀ : (bkt B j).payload = some (key, w₀)) :
    ELI H c (B.set j (bkt B j).clear) (B.set j (bkt B j).clear) j
      ((j + 1) % c) := by
  have hc0 : 0 < c := by omega
  have hjlen : j < B.length := by omega
  have hbj : bkt (B.set j (bkt B j).clear) j = (bkt B j).clear :=
    bkt_set_self hjlen _
  have hbne : ∀ i, i ≠ j → bkt (B.set j (bkt B j).clear) i = bkt B i :=
    fun i hij => bkt_set_ne (fun h => hij h.symm) _
  obtain ⟨hslots₁, huniq₁, -, -⟩ :=
    clear_slot_facts hlen hslots huniq hj hpay₀
  have hnocc : ¬occAt (B.set j (bkt B j).clear) j := by
    intro h
    unfold occAt at h
    rw [hbj] at h
    simp [HashBucket.clear] at h
  refine ⟨by rw [List.length_set]; exact hlen, hj, rfl, hslots₁, huniq₁,
    hnocc, ?_, ?_, fun q w => Iff.rfl, rfl⟩
  · intro i hi hig
    by_cases hij : i = j
    · subst hij
      intro hocc
      exact absurd hocc hnocc
    · have hpredj : (i + c - 1) % c ≠ j := by
        intro h
        have hpg : ((j + 1) % c + c - 1) % c = j := pred_of_succ hc0 hj
        exact hig (pred_inj hc0 hi (Nat.mod_lt _ hc0)
          (by rw [h]; exact hpg.symm))
      rw [adjOK_congr (hbne i hij) (hbne _ hpredj)]
      exact hadj i hi
  · intro hocc hdn
    have hgj : (j + 1) % c ≠ j := succ_ne_self hc2 hj
    have hbg : bkt (B.set j (bkt B j).clear) ((j + 1) % c) =
        bkt B ((j + 1) % c) := hbne _ hgj
    rw [occAt_congr hbg] at hocc
    rw [hbg] at hdn
    have hadjg := hadj ((j + 1) % c) (Nat.mod_lt _ hc0) hocc hdn
    rw [pred_of_succ hc0 hj] at hadjg
    by_cases hb0 : (bkt B j).distance_ = 0
    · left
      rw [hbg]
      have := hadjg.2
      omega
    · right
      have hadjj := hadj j hj (occAt_of_payload hpay₀) hb0
      have hpredjj : (j + c - 1) % c ≠ j := pred_ne_self hc2 hj
      have hbpred : bkt (B.set j (bkt B j).clear) ((j + c - 1) % c) =
          bkt B ((j + c - 1) % c) := hbne _ hpredjj
      constructor
      · rw [occAt_congr hbpred]
        exact hadjj.1
      · rw [hbg, hbpred]
        have h1 := hadjg.2
        have h2 := hadjj.2
        omega

/-- Master specification of the public `erase`: it always succeeds under
the invariant, preserves it, removes exactly the erased key from the stored
content, and leaves the map untouched when the key is absent. -/
theorem erase_spec {m : HashMap κ ν} (hInv : Inv m) (key : κ) :
    ∃ m', m.erase key = some m' ∧ Inv m' ∧ m'.hasher_ = m.hasher_ ∧
      (∀ q w, MapsTo m' q w ↔ (MapsTo m q w ∧ q ≠ key)) ∧
      (HasKey m key → m'.size_ = m.size_ - 1) ∧
      (¬HasKey m key → m' = m) := by
  unfold HashMap.erase
  by_cases hk : HasKey m key
  case neg =>
    have hres : eraseCore 1 m key (m.hasher_ key) = some m := by
      by_cases hme : m.empty
      · have hfb : find_bucket m key (m.hasher_ key) =
            some (m.get_ideal (m.hasher_ key)) := by
          unfold find_bucket
          rw [if_pos hme]
        have hnch : ¬m.check (m.get_ideal (m.hasher_ key)) key
            (m.hasher_ key) := fun h => h.1 hme
        simp only [eraseCore, hfb, if_neg hnch]
      · rcases hInv.cap_pow with h0 | ⟨k, hk1, hk63, hc⟩
        · exfalso
          apply hme
          have hm0 : m.mask_ = 0 := by rw [hInv.mask_eq, h0]
          have hcl : ceilMaxLoad 0 = 0 := by norm_num [ceilMaxLoad]
          have hmax : m.max_size_ = 0 := by
            rw [hInv.max_eq, hm0, h0, hcl]
            simp
          have := hInv.size_le
          show m.size_ = 0
          omega
        · obtain ⟨pos₀, hfb⟩ := Option.isSome_iff_exists.mp
            (find_bucket_isSome hc hk1 hk63 hInv.mask_eq hInv.tblOK key
              (m.hasher_ key))
          have hnch := check_absent hc hk1 hk63 hInv.tblOK hk pos₀
            (m.hasher_ key)
          simp only [eraseCore, hfb, if_neg hnch]
    refine ⟨m, hres, hInv, rfl, ?_, fun hkk => absurd hkk hk, fun _ => rfl⟩
    intro q w
    constructor
    · intro h
      refine ⟨h, ?_⟩
      intro hq
      subst hq
      obtain ⟨i, hi, hp⟩ := h
      exact hk ⟨i, hi, keyOf_of_payload hp⟩
    · exact And.left
  case pos =>
    obtain ⟨j, hj, hkeyj⟩ := hk
    obtain ⟨w₀, hpay₀⟩ := payload_of_keyOf hkeyj
    have hcpow : ∃ k, 1 ≤ k ∧ k ≤ 63 ∧ m.capacity_ = 2 ^ k := by
      rcases hInv.cap_pow with h0 | h
      · rw [h0] at hj
        omega
      · exact h
    obtain ⟨k, hk1, hk63, hc⟩ := hcpow
    have hc2 : 2 ≤ m.capacity_ := by
      rw [hc]
      calc (2 : Nat) = 2 ^ 1 := (pow_one 2).symm
        _ ≤ 2 ^ k := Nat.pow_le_pow_right (by norm_num) hk1
    have hc63 : m.capacity_ ≤ 2 ^ 63 := by
      rw [hc]
      exact Nat.pow_le_pow_right (by norm_num) hk63
    have hn1 : 1 ≤ m.size_ := by
      have hposc : 0 < occCount m.capacity_ m.buckets_ := by
        unfold occCount
        refine Finset.card_pos.mpr ⟨j, ?_⟩
        rw [Finset.mem_filter, Finset.mem_range]
        exact ⟨hj, occAt_of_payload hpay₀⟩
      have := hInv.size_eq
      omega
    have hfb := find_bucket_hit hc hk1 hk63 hInv.mask_eq hInv.tblOK hj
      hInv.size_eq hkeyj
    have hch := check_of_stored hc hk1 hk63 hInv.tblOK hj hInv.size_eq hkeyj
    obtain ⟨hslots₁, huniq₁, hcount₁, hcont₁⟩ :=
      clear_slot_facts hInv.buckets_len hInv.slots hInv.uniq hj hpay₀
    rw [← hInv.size_eq] at hcount₁
    have hlen₁ : (m.buckets_.set j (bkt m.buckets_ j).clear).length = m.capacity_ := by
      rw [List.length_set]
      exact hInv.buckets_len
    by_cases hone : m.size_ - 1 = 0
    · -- the table becomes empty: early return, no capacity reset
      have hm₁e : ({ m with buckets_ := m.buckets_.set j (bkt m.buckets_ j).clear, size_ := m.size_ - 1 } : HashMap κ ν).empty := hone
      have hres : eraseCore 1 m key (m.hasher_ key) = some { m with buckets_ := m.buckets_.set j (bkt m.buckets_ j).clear, size_ := m.size_ - 1 } := by
        simp only [eraseCore, hfb, if_pos hch, if_pos hm₁e]
      refine ⟨{ m with buckets_ := m.buckets_.set j (bkt m.buckets_ j).clear, size_ := m.size_ - 1 }, hres, ?_, rfl, hcont₁, fun _ => rfl,
        fun hn => absurd ⟨j, hj, hkeyj⟩ hn⟩
      refine ⟨hlen₁, hInv.cap_pow, hInv.mask_eq, hInv.max_eq, hInv.min_eq,
        ?_, ?_, hslots₁, ?_, huniq₁⟩
      · show m.size_ - 1 = occCount m.capacity_ (m.buckets_.set j (bkt m.buckets_ j).clear)
        omega
      · show m.size_ - 1 ≤ m.max_size_
        have := hInv.size_le
        omega
      · intro i hi hocc
        have h0 : occCount m.capacity_
            (m.buckets_.set j (bkt m.buckets_ j).clear) = 0 := by omega
        exact absurd hocc (no_occ_of_occCount_zero h0 i hi)
    · by_cases hshr : m.size_ - 1 < m.min_size_
      · -- shrink rehash
        have hm₁ne : ¬({ m with buckets_ := m.buckets_.set j (bkt m.buckets_ j).clear, size_ := m.size_ - 1 } : HashMap κ ν).empty := hone
        have hminb : m.min_size_ ≤ 2 ^ 61 := by
          rw [hInv.min_eq]
          exact floorMinLoad_le hc63
        obtain ⟨k', hgc, hk'1, hk'63, h2n, -⟩ :=
          get_capacity_sound (n := m.size_ - 1) (by omega) (by omega)
        obtain ⟨hIF, hFh, hFc, hFs, hFm, hFmax, hFmin, hFnostore, hFnokey⟩ :=
          freshTable_spec (ν := ν) hk'1 hk'63 ({ m with buckets_ := m.buckets_.set j (bkt m.buckets_ j).clear, size_ := m.size_ - 1 } : HashMap κ ν)
        have hcountP : (m.buckets_.set j (bkt m.buckets_ j).clear).countP
            (fun b => b.payload.isSome) = m.size_ - 1 := by
          rw [← occCount_eq_countP, hlen₁]
          omega
        have hmaxF : m.size_ - 1 ≤
            (freshTable ({ m with buckets_ := m.buckets_.set j (bkt m.buckets_ j).clear, size_ := m.size_ - 1 } : HashMap κ ν) (2 ^ k')).max_size_ := by
          rw [hFmax]
          exact le_min_mask_ceil (by omega) h2n
        have hbudget : (freshTable ({ m with buckets_ := m.buckets_.set j (bkt m.buckets_ j).clear, size_ := m.size_ - 1 } : HashMap κ ν) (2 ^ k')).size_ +
            (m.buckets_.set j (bkt m.buckets_ j).clear).countP (fun b => b.payload.isSome) ≤
            (freshTable ({ m with buckets_ := m.buckets_.set j (bkt m.buckets_ j).clear, size_ := m.size_ - 1 } : HashMap κ ν) (2 ^ k')).max_size_ := by
          rw [hFs, hcountP]
          omega
        obtain ⟨m₂, hre, hI₂, h₂h, h₂c, h₂m, h₂mx, h₂mn, h₂s, hcont₂⟩ :=
          reinsertWith_spec 1 (m.buckets_.set j (bkt m.buckets_ j).clear)
            (freshTable ({ m with buckets_ := m.buckets_.set j (bkt m.buckets_ j).clear, size_ := m.size_ - 1 } : HashMap κ ν) (2 ^ k')) hIF
            (list_pay_of_slots hlen₁ hslots₁)
            (list_empnone_of_slots hc63 hlen₁ hslots₁)
            (list_pairwise_of_uniq hlen₁ huniq₁)
            (fun b hb kv' hkv' => hFnokey kv'.1) hbudget
        rw [hFc] at hcont₂
        have hres : eraseCore 1 m key (m.hasher_ key) = some m₂ := by
          simp only [eraseCore, hfb, if_pos hch, if_neg hm₁ne, if_pos hshr,
            hgc, rehashWith, hre]
        refine ⟨m₂, hres, hI₂, by rw [h₂h, hFh], ?_, fun _ => ?_,
          fun hn => absurd ⟨j, hj, hkeyj⟩ hn⟩
        · intro q w
          show storedP m₂.capacity_ m₂.buckets_ q w ↔
            (storedP m.capacity_ m.buckets_ q w ∧ q ≠ key)
          rw [h₂c, hFc, hcont₂ q w, ← hcont₁ q w]
          constructor
          · rintro (h | h)
            · exact absurd h (hFnostore q w)
            · exact (storedP_iff_mem hlen₁ q w).mpr h
          · intro h
            exact Or.inr ((storedP_iff_mem hlen₁ q w).mp h)
        · rw [h₂s, hFs, hcountP]
          omega
      · -- backward shift
        have hm₁ne : ¬({ m with buckets_ := m.buckets_.set j (bkt m.buckets_ j).clear, size_ := m.size_ - 1 } : HashMap κ ν).empty := hone
        have hn2' : occCount m.capacity_ (m.buckets_.set j (bkt m.buckets_ j).clear) ≤ m.capacity_ - 2 := by
          have h1 : m.size_ ≤ m.max_size_ := hInv.size_le
          have h2 : m.max_size_ ≤ m.mask_ := by
            rw [hInv.max_eq]
            exact min_le_left _ _
          have h3 : m.mask_ = m.capacity_ - 1 := hInv.mask_eq
          omega
        have hn1' : 1 ≤ occCount m.capacity_ (m.buckets_.set j (bkt m.buckets_ j).clear) := by omega
        have hELI := ELI_clear hc2 hInv.buckets_len hInv.slots hInv.adj
          hInv.uniq hj hpay₀
        have hfempB := femp_init hc2 hn2' hj
        rw [hc] at hELI hfempB hn1' hn2'
        have hjk : j < 2 ^ k := by rw [← hc]; exact hj
        have hp0 : (j + 0) % 2 ^ k = j := by
          rw [show j + 0 = j from rfl, Nat.mod_eq_of_lt hjk]
        have hELI0 : ELI m.hasher_ (2 ^ k) (m.buckets_.set j (bkt m.buckets_ j).clear) (m.buckets_.set j (bkt m.buckets_ j).clear)
            ((j + 0) % 2 ^ k) ((j + 0 + 1) % 2 ^ k) :=
          cast (congrArg
            (fun t => ELI m.hasher_ (2 ^ k) (m.buckets_.set j (bkt m.buckets_ j).clear) (m.buckets_.set j (bkt m.buckets_ j).clear) t
              ((j + 1) % 2 ^ k)) hp0.symm) hELI
        obtain ⟨jf, hjfle, hjfocc⟩ := hfempB
        have hrun := shiftLoop_run hk1 hk63 hjk hn1' hn2'
          (2 ^ k + 1) 0 (m.buckets_.set j (bkt m.buckets_ j).clear) (by omega) (by omega)
          (fun h => absurd h (by omega)) hELI0
          ⟨jf, by omega, Or.inr hjfocc⟩
        obtain ⟨B', heq', hlen', hslots', huniq', hadj', hcont', hcount',
          -⟩ := hrun
        rw [hp0] at heq'
        have hp01 : (j + 0 + 1) % 2 ^ k = (j + 1) % 2 ^ k := rfl
        rw [hp01] at heq'
        have hres : eraseCore 1 m key (m.hasher_ key) =
            some { m with buckets_ := B', size_ := m.size_ - 1 } := by
          simp only [eraseCore, hfb, if_pos hch, if_neg hm₁ne, if_neg hshr,
            HashMap.next_bucket]
          rw [hInv.mask_eq, hc, mask_step hk63 j, heq']
        refine ⟨{ m with buckets_ := B', size_ := m.size_ - 1 }, hres, ?_,
          rfl, ?_, fun _ => rfl, fun hn => absurd ⟨j, hj, hkeyj⟩ hn⟩
        · refine ⟨?_, hInv.cap_pow, hInv.mask_eq, hInv.max_eq, hInv.min_eq,
            ?_, ?_, ?_, ?_, ?_⟩
          · show B'.length = m.capacity_
            rw [hlen', hc]
          · show m.size_ - 1 = occCount m.capacity_ B'
            rw [hc, hcount', ← hc]
            omega
          · show m.size_ - 1 ≤ m.max_size_
            have := hInv.size_le
            omega
          · show ∀ i < m.capacity_, slotOK m.hasher_ m.capacity_ B' i
            rw [hc]
            exact hslots'
          · show ∀ i < m.capacity_, adjOK m.capacity_ B' i
            rw [hc]
            exact hadj'
          · show uniqOK m.capacity_ B'
            rw [hc]
            exact huniq'
        · intro q w
          show storedP m.capacity_ B' q w ↔ _
          rw [hc, hcont' q w, ← hc, hcont₁ q w]
          exact Iff.rfl

/-- Specification of `find`: a hit returns an iterator to the unique slot
storing the key, a miss returns the end iterator, and the probe always
terminates. -/
theorem find_spec {m : HashMap κ ν} (hInv : Inv m) (key : κ) :
    (∀ j, j < m.capacity_ → (bkt m.buckets_ j).keyOf = some key →
      m.find key = some (some j)) ∧
    (¬HasKey m key → m.find key = some none) := by
  constructor
  · intro j hj hkeyj
    have hcpow : ∃ k, 1 ≤ k ∧ k ≤ 63 ∧ m.capacity_ = 2 ^ k := by
      rcases hInv.cap_pow with h0 | h
      · rw [h0] at hj
        omega
      · exact h
    obtain ⟨k, hk1, hk63, hc⟩ := hcpow
    have hne : ¬m.empty := by
      intro hme
      have hocc : occAt m.buckets_ j := by
        obtain ⟨w₀, hp⟩ := payload_of_keyOf hkeyj
        exact occAt_of_payload hp
      have hposc : 0 < occCount m.capacity_ m.buckets_ := by
        unfold occCount
        refine Finset.card_pos.mpr ⟨j, ?_⟩
        rw [Finset.mem_filter, Finset.mem_range]
        exact ⟨hj, hocc⟩
      have h1 := hInv.size_eq
      have h2 : m.size_ = 0 := hme
      omega
    have hfb := find_bucket_hit hc hk1 hk63 hInv.mask_eq hInv.tblOK hj
      hInv.size_eq hkeyj
    have hch := check_of_stored hc hk1 hk63 hInv.tblOK hj hInv.size_eq hkeyj
    unfold HashMap.find
    rw [if_neg hne]
    simp only [hfb, if_pos hch]
  · intro hk
    by_cases hme : m.empty
    · unfold HashMap.find
      rw [if_pos hme]
    · rcases hInv.cap_pow with h0 | ⟨k, hk1, hk63, hc⟩
      · exfalso
        apply hme
        have hm0 : m.mask_ = 0 := by rw [hInv.mask_eq, h0]
        have hcl : ceilMaxLoad 0 = 0 := by norm_num [ceilMaxLoad]
        have hmax : m.max_size_ = 0 := by
          rw [hInv.max_eq, hm0, h0, hcl]
          simp
        have := hInv.size_le
        show m.size_ = 0
        omega
      · obtain ⟨pos₀, hfb⟩ := Option.isSome_iff_exists.mp
          (find_bucket_isSome hc hk1 hk63 hInv.mask_eq hInv.tblOK key
            (m.hasher_ key))
        have hnch := check_absent hc hk1 hk63 hInv.tblOK hk pos₀
          (m.hasher_ key)
        unfold HashMap.find
        rw [if_neg hme]
        simp only [hfb, if_neg hnch]

/-- Specification of `at`: a present key's stored value is returned, an
absent key — also on the empty table — signals NotFound (`some none`), and
the probe always terminates. -/
theorem atVal_spec {m : HashMap κ ν} (hInv : Inv m) (key : κ) :
    (∀ w, MapsTo m key w → m.atVal key = some (some w)) ∧
    (¬HasKey m key → m.atVal key = some none) := by
  constructor
  · rintro w ⟨j, hj, hpay⟩
    have hkeyj : (bkt m.buckets_ j).keyOf = some key := keyOf_of_payload hpay
    have hcpow : ∃ k, 1 ≤ k ∧ k ≤ 63 ∧ m.capacity_ = 2 ^ k := by
      rcases hInv.cap_pow with h0 | h
      · rw [h0] at hj
        omega
      · exact h
    obtain ⟨k, hk1, hk63, hc⟩ := hcpow
    have hne : ¬m.empty := by
      intro hme
      have hposc : 0 < occCount m.capacity_ m.buckets_ := by
        unfold occCount
        refine Finset.card_pos.mpr ⟨j, ?_⟩
        rw [Finset.mem_filter, Finset.mem_range]
        exact ⟨hj, occAt_of_payload hpay⟩
      have h1 := hInv.size_eq
      have h2 : m.size_ = 0 := hme
      omega
    have hfb := find_bucket_hit hc hk1 hk63 hInv.mask_eq hInv.tblOK hj
      hInv.size_eq hkeyj
    have hch := check_of_stored hc hk1 hk63 hInv.tblOK hj hInv.size_eq hkeyj
    unfold HashMap.atVal
    rw [if_neg hne]
    simp only [hfb, if_pos hch]
    unfold HashBucket.valOf
    rw [hpay]
    rfl
  · intro hk
    by_cases hme : m.empty
    · unfold HashMap.atVal
      rw [if_pos hme]
    · rcases hInv.cap_pow with h0 | ⟨k, hk1, hk63, hc⟩
      · exfalso
        apply hme
        have hm0 : m.mask_ = 0 := by rw [hInv.mask_eq, h0]
        have hcl : ceilMaxLoad 0 = 0 := by norm_num [ceilMaxLoad]
        have hmax : m.max_size_ = 0 := by
          rw [hInv.max_eq, hm0, h0, hcl]
          simp
        have := hInv.size_le
        show m.size_ = 0
        omega
      · obtain ⟨pos₀, hfb⟩ := Option.isSome_iff_exists.mp
          (find_bucket_isSome hc hk1 hk63 hInv.mask_eq hInv.tblOK key
            (m.hasher_ key))
        have hnch := check_absent hc hk1 hk63 hInv.tblOK hk pos₀
          (m.hasher_ key)
        unfold HashMap.atVal
        rw [if_neg hme]
        simp only [hfb, if_neg hnch]

/-- Specification of `operator[]`: a present key returns the map unchanged;
an absent key inserts a default-constructed value. -/
theorem index_spec [Inhabited ν] {m m' : HashMap κ ν} {key : κ} {p : Nat}
    (hInv : Inv m) (h : m.index key = some (m', p)) :
    Inv m' ∧ m'.hasher_ = m.hasher_ ∧
      (∀ q w, MapsTo m' q w ↔
        (MapsTo m q w ∨ ((q, w) = (key, default) ∧ ¬HasKey m key))) ∧
      (HasKey m key → m' = m) ∧
      (¬HasKey m key → m'.size_ = m.size_ + 1) := by
  by_cases hk : HasKey m key
  · obtain ⟨j, hj, hkeyj⟩ := hk
    have hcpow : ∃ k, 1 ≤ k ∧ k ≤ 63 ∧ m.capacity_ = 2 ^ k := by
      rcases hInv.cap_pow with h0 | hcp
      · rw [h0] at hj
        omega
      · exact hcp
    obtain ⟨k, hk1, hk63, hc⟩ := hcpow
    have hfb := find_bucket_hit hc hk1 hk63 hInv.mask_eq hInv.tblOK hj
      hInv.size_eq hkeyj
    have hch := check_of_stored hc hk1 hk63 hInv.tblOK hj hInv.size_eq hkeyj
    simp only [HashMap.index, hfb, if_pos hch] at h
    have hm : m' = m := by
      have := Option.some.inj h
      exact (congrArg Prod.fst this).symm
    subst hm
    refine ⟨hInv, rfl, ?_, fun _ => rfl,
      fun hn => absurd ⟨j, hj, hkeyj⟩ hn⟩
    intro q w
    constructor
    · exact Or.inl
    · rintro (hq | ⟨-, hn⟩)
      · exact hq
      · exact absurd ⟨j, hj, hkeyj⟩ hn
  · have hstep : insertCore 1 m ((key, default) : κ × ν)
        (m.hasher_ key) = some (m', p) := by
      by_cases hme : m.empty
      · have hfb : find_bucket m key (m.hasher_ key) =
            some (m.get_ideal (m.hasher_ key)) := by
          unfold find_bucket
          rw [if_pos hme]
        have hnch : ¬m.check (m.get_ideal (m.hasher_ key)) key
            (m.hasher_ key) := fun hchk => hchk.1 hme
        simp only [HashMap.index, hfb, if_neg hnch] at h
        exact h
      · rcases hInv.cap_pow with h0 | ⟨k, hk1, hk63, hc⟩
        · exfalso
          apply hme
          have hm0 : m.mask_ = 0 := by rw [hInv.mask_eq, h0]
          have hcl : ceilMaxLoad 0 = 0 := by norm_num [ceilMaxLoad]
          have hmax : m.max_size_ = 0 := by
            rw [hInv.max_eq, hm0, h0, hcl]
            simp
          have := hInv.size_le
          show m.size_ = 0
          omega
        · obtain ⟨pos₀, hfb⟩ := Option.isSome_iff_exists.mp
            (find_bucket_isSome hc hk1 hk63 hInv.mask_eq hInv.tblOK key
              (m.hasher_ key))
          have hnch := check_absent hc hk1 hk63 hInv.tblOK hk pos₀
            (m.hasher_ key)
          simp only [HashMap.index, hfb, if_neg hnch] at h
          exact h
    have habs' : ¬HasKey m ((key, default) : κ × ν).1 := hk
    by_cases hsz : m.size_ = m.max_size_
    · by_cases hbound : m.size_ + 1 ≤ 2 ^ 62
      · obtain ⟨mg, pos, k', heq, hk'1, hk'63, hgc, hcap, hhash, hsize,
          hI, hcont⟩ := insertCore_grow hInv habs' hsz hbound 0
        have heq' : insertCore 1 m ((key, default) : κ × ν)
            (m.hasher_ key) = some (mg, pos) := heq
        rw [heq'] at hstep
        have hm : m' = mg := by
          have := Option.some.inj hstep
          exact (congrArg Prod.fst this).symm
        subst hm
        refine ⟨hI, hhash, ?_, fun hkk => absurd hkk hk, fun _ => hsize⟩
        intro q w
        show storedP m'.capacity_ m'.buckets_ q w ↔ _
        rw [hcont q w]
        constructor
        · rintro (hq | hq)
          · exact Or.inl hq
          · exact Or.inr ⟨hq, hk⟩
        · rintro (hq | ⟨hq, -⟩)
          · exact Or.inl hq
          · exact Or.inr hq
      · have hnone : insertCore 1 m ((key, default) : κ × ν)
            (m.hasher_ key) = none :=
          insertCore_overflow hInv habs' hsz (by omega)
        rw [hnone] at hstep
        exact absurd hstep (by simp)
    · obtain ⟨ma, pos, heq, hhash, hcap, hmask, hmax, hmin, hsize, hI,
        hcont⟩ := insertCore_absent hInv habs' hsz 1
      have heq' : insertCore 1 m ((key, default) : κ × ν)
          (m.hasher_ key) = some (ma, pos) := heq
      rw [heq'] at hstep
      have hm : m' = ma := by
        have := Option.some.inj hstep
        exact (congrArg Prod.fst this).symm
      subst hm
      refine ⟨hI, hhash, ?_, fun hkk => absurd hkk hk, fun _ => hsize⟩
      intro q w
      show storedP m'.capacity_ m'.buckets_ q w ↔ _
      rw [hcap, hcont q w]
      constructor
      · rintro (hq | hq)
        · exact Or.inl hq
        · exact Or.inr ⟨hq, hk⟩
      · rintro (hq | ⟨hq, -⟩)
        · exact Or.inl hq
        · exact Or.inr hq

/-- `clear` resets the map to the default empty state, which satisfies the
invariant. -/
theorem clear_Inv (m : HashMap κ ν) :
    Inv m.clear ∧ (∀ q w, ¬MapsTo m.clear q w) ∧ m.clear.size_ = 0 ∧
      m.clear.capacity_ = 0 := by
  refine ⟨⟨rfl, Or.inl rfl, rfl, ?_, ?_, ?_, Nat.zero_le _, ?_, ?_, ?_⟩,
    ?_, rfl, rfl⟩
  · show (0 : Nat) = min 0 (ceilMaxLoad 0)
    rw [Nat.zero_min]
  · show (0 : Nat) = floorMinLoad 0
    norm_num [floorMinLoad]
  · show (0 : Nat) = occCount 0 []
    rw [occCount_zero]
  · intro i hi
    exact absurd (show i < 0 from hi) (by omega)
  · intro i hi
    exact absurd (show i < 0 from hi) (by omega)
  · intro i hi
    exact absurd (show i < 0 from hi) (by omega)
  · rintro q w ⟨i, hi, -⟩
    exact absurd (show i < 0 from hi) (by omega)

/-- The table built by the constructor satisfies the invariant. -/
theorem mk_table_Inv (hasher : κ → Nat) (capacity : Nat)
    (hcap : capacity = 0 ∨ ∃ k, 1 ≤ k ∧ k ≤ 63 ∧ capacity = 2 ^ k) :
    Inv (update_sizes
      { hasher_ := hasher, size_ := 0, capacity_ := capacity,
        mask_ := if capacity = 0 then 0 else capacity - 1,
        buckets_ := List.replicate capacity HashBucket.vacant,
        max_size_ := 0, min_size_ := 0 } : HashMap κ ν) := by
  refine ⟨List.length_replicate _ _, hcap, ?_, rfl, rfl,
    (occCount_replicate _ _).symm, Nat.zero_le _, ?_, ?_, ?_⟩
  · show (if capacity = 0 then 0 else capacity - 1) = capacity - 1
    by_cases h0 : capacity = 0
    · rw [if_pos h0, h0]
    · rw [if_neg h0]
  · intro i hi
    constructor
    · intro kv hkv
      rw [show (update_sizes
        { hasher_ := hasher, size_ := 0, capacity_ := capacity,
          mask_ := if capacity = 0 then 0 else capacity - 1,
          buckets_ := List.replicate capacity HashBucket.vacant,
          max_size_ := 0, min_size_ := 0 } : HashMap κ ν).buckets_ =
        List.replicate capacity HashBucket.vacant from rfl,
        bkt_replicate] at hkv
      exact absurd hkv (by simp [HashBucket.vacant])
    · intro _
      rw [show (update_sizes
        { hasher_ := hasher, size_ := 0, capacity_ := capacity,
          mask_ := if capacity = 0 then 0 else capacity - 1,
          buckets_ := List.replicate capacity HashBucket.vacant,
          max_size_ := 0, min_size_ := 0 } : HashMap κ ν).buckets_ =
        List.replicate capacity HashBucket.vacant from rfl,
        bkt_replicate]
      rfl
  · intro i hi hocc
    exfalso
    unfold occAt at hocc
    rw [show (update_sizes
      { hasher_ := hasher, size_ := 0, capacity_ := capacity,
        mask_ := if capacity = 0 then 0 else capacity - 1,
        buckets_ := List.replicate capacity HashBucket.vacant,
        max_size_ := 0, min_size_ := 0 } : HashMap κ ν).buckets_ =
      List.replicate capacity HashBucket.vacant from rfl,
      bkt_replicate] at hocc
    simp [HashBucket.vacant] at hocc
  · intro i hi i' hi' key hki hki'
    exfalso
    rw [show (update_sizes
      { hasher_ := hasher, size_ := 0, capacity_ := capacity,
        mask_ := if capacity = 0 then 0 else capacity - 1,
        buckets_ := List.replicate capacity HashBucket.vacant,
        max_size_ := 0, min_size_ := 0 } : HashMap κ ν).buckets_ =
      List.replicate capacity HashBucket.vacant from rfl,
      bkt_replicate] at hki
    exact absurd hki (by simp [HashBucket.keyOf, HashBucket.vacant])

/-- Every successful construction satisfies the invariant and starts with
no stored pairs. -/
theorem mkHashMap_Inv {hasher : κ → Nat} {count : Nat} {m : HashMap κ ν}
    (h : mkHashMap hasher count = some m) :
    Inv m ∧ m.size_ = 0 ∧ m.hasher_ = hasher ∧ ∀ q w, ¬MapsTo m q w := by
  unfold mkHashMap at h
  cases hgc : get_capacity count with
  | none =>
    rw [hgc] at h
    exact absurd h (by simp)
  | some capacity =>
    rw [hgc] at h
    have hm : m = update_sizes
        { hasher_ := hasher, size_ := 0, capacity_ := capacity,
          mask_ := if capacity = 0 then 0 else capacity - 1,
          buckets_ := List.replicate capacity HashBucket.vacant,
          max_size_ := 0, min_size_ := 0 } := (Option.some.inj h).symm
    subst hm
    have hcap : capacity = 0 ∨ ∃ k, 1 ≤ k ∧ k ≤ 63 ∧ capacity = 2 ^ k := by
      by_cases hc0 : count = 0
      · left
        subst hc0
        unfold get_capacity at hgc
        rw [if_pos rfl] at hgc
        exact (Option.some.inj hgc).symm
      · by_cases hble : count ≤ 2 ^ 62
        · obtain ⟨k, hg, hk1, hk63, -, -⟩ :=
            get_capacity_sound (n := count) (by omega) hble
          rw [hg] at hgc
          exact Or.inr ⟨k, hk1, hk63, (Option.some.inj hgc).symm⟩
        · rcases get_capacity_boundary (n := count) (by omega) with hg | hg
          · rw [hg] at hgc
            left
            exact (Option.some.inj hgc).symm
          · rw [hg] at hgc
            exact absurd hgc (by simp)
    refine ⟨mk_table_Inv hasher capacity hcap, rfl, rfl, ?_⟩
    rintro q w ⟨i, hi, hp⟩
    rw [show (update_sizes
      { hasher_ := hasher, size_ := 0, capacity_ := capacity,
        mask_ := if capacity = 0 then 0 else capacity - 1,
        buckets_ := List.replicate capacity HashBucket.vacant,
        max_size_ := 0, min_size_ := 0 } : HashMap κ ν).buckets_ =
      List.replicate capacity HashBucket.vacant from rfl,
      bkt_replicate] at hp
    exact absurd hp (by simp [HashBucket.vacant])

/-- Every reachable map state satisfies the data-structure invariant. -/
theorem reachable_Inv {m : HashMap κ ν} (h : Reachable m) : Inv m := by
  induction h with
  | ctor hasher count hmk => exact (mkHashMap_Inv hmk).1
  | insert hR hins ih => exact (insert_spec ih hins).1
  | erase hR hers ih =>
    rename_i m₀ m' key
    obtain ⟨m'', heq, hI, -⟩ := erase_spec ih key
    have hmm : m'' = m' := Option.some.inj (heq.symm.trans hers)
    rw [← hmm]
    exact hI
  | index hR hidx ih => exact (index_spec ih hidx).1
  | clear hR ih => exact (clear_Inv _).1

/-- The single-element case of `erase`: the code returns early after
clearing the slot, keeping the capacity (no reset to the capacity-0
state). -/
theorem erase_last {m : HashMap κ ν} (hInv : Inv m) {key : κ}
    {j : Nat} (hj : j < m.capacity_)
    (hkeyj : (bkt m.buckets_ j).keyOf = some key)
    (hsz : m.size_ = 1) :
    m.erase key = some { m with
      buckets_ := m.buckets_.set j (bkt m.buckets_ j).clear,
      size_ := m.size_ - 1 } := by
  have hcpow : ∃ k, 1 ≤ k ∧ k ≤ 63 ∧ m.capacity_ = 2 ^ k := by
    rcases hInv.cap_pow with h0 | h
    · rw [h0] at hj
      omega
    · exact h
  obtain ⟨k, hk1, hk63, hc⟩ := hcpow
  have hfb := find_bucket_hit hc hk1 hk63 hInv.mask_eq hInv.tblOK hj
    hInv.size_eq hkeyj
  have hch := check_of_stored hc hk1 hk63 hInv.tblOK hj hInv.size_eq hkeyj
  have hm₁e : ({ m with
      buckets_ := m.buckets_.set j (bkt m.buckets_ j).clear,
      size_ := m.size_ - 1 } : HashMap κ ν).empty := by
    show m.size_ - 1 = 0
    omega
  unfold HashMap.erase
  simp only [eraseCore, hfb, if_pos hch, if_pos hm₁e]

/-- The backward-shift pass of `erase` never writes a slot lying at or past
any slot (in scan order from the successor of the freed slot) that is empty
or stores distance `0`. -/
theorem erase_shift_untouched {m : HashMap κ ν} (hInv : Inv m) {key : κ}
    {j : Nat} (hj : j < m.capacity_)
    (hkeyj : (bkt m.buckets_ j).keyOf = some key)
    (hone : m.size_ - 1 ≠ 0) (hshr : ¬(m.size_ - 1 < m.min_size_)) :
    ∃ B', m.erase key =
        some { m with buckets_ := B', size_ := m.size_ - 1 } ∧
      ∀ t u, t ≤ u → u ≤ m.capacity_ - 2 →
        ((bkt (m.buckets_.set j (bkt m.buckets_ j).clear)
            (((j + 1) % m.capacity_ + t) % m.capacity_)).distance_ = 0 ∨
          ¬occAt (m.buckets_.set j (bkt m.buckets_ j).clear)
            (((j + 1) % m.capacity_ + t) % m.capacity_)) →
        bkt B' (((j + 1) % m.capacity_ + u) % m.capacity_) =
          bkt (m.buckets_.set j (bkt m.buckets_ j).clear)
            (((j + 1) % m.capacity_ + u) % m.capacity_) := by
  obtain ⟨w₀, hpay₀⟩ := payload_of_keyOf hkeyj
  have hcpow : ∃ k, 1 ≤ k ∧ k ≤ 63 ∧ m.capacity_ = 2 ^ k := by
    rcases hInv.cap_pow with h0 | h
    · rw [h0] at hj
      omega
    · exact h
  obtain ⟨k, hk1, hk63, hc⟩ := hcpow
  have hc2 : 2 ≤ m.capacity_ := by
    rw [hc]
    calc (2 : Nat) = 2 ^ 1 := (pow_one 2).symm
      _ ≤ 2 ^ k := Nat.pow_le_pow_right (by norm_num) hk1
  have hc63 : m.capacity_ ≤ 2 ^ 63 := by
    rw [hc]
    exact Nat.pow_le_pow_right (by norm_num) hk63
  have hn1 : 1 ≤ m.size_ := by omega
  have hfb := find_bucket_hit hc hk1 hk63 hInv.mask_eq hInv.tblOK hj
    hInv.size_eq hkeyj
  have hch := check_of_stored hc hk1 hk63 hInv.tblOK hj hInv.size_eq hkeyj
  obtain ⟨hslots₁, huniq₁, hcount₁, hcont₁⟩ :=
    clear_slot_facts hInv.buckets_len hInv.slots hInv.uniq hj hpay₀
  rw [← hInv.size_eq] at hcount₁
  have hm₁ne : ¬({ m with
      buckets_ := m.buckets_.set j (bkt m.buckets_ j).clear,
      size_ := m.size_ - 1 } : HashMap κ ν).empty := hone
  have hn2' : occCount m.capacity_
      (m.buckets_.set j (bkt m.buckets_ j).clear) ≤ m.capacity_ - 2 := by
    have h1 : m.size_ ≤ m.max_size_ := hInv.size_le
    have h2 : m.max_size_ ≤ m.mask_ := by
      rw [hInv.max_eq]
      exact min_le_left _ _
    have h3 : m.mask_ = m.capacity_ - 1 := hInv.mask_eq
    omega
  have hn1' : 1 ≤ occCount m.capacity_
      (m.buckets_.set j (bkt m.buckets_ j).clear) := by omega
  have hELI := ELI_clear hc2 hInv.buckets_len hInv.slots hInv.adj
    hInv.uniq hj hpay₀
  have hfempB := femp_init hc2 hn2' hj
  rw [hc] at hELI hfempB hn1' hn2'
  have hjk : j < 2 ^ k := by rw [← hc]; exact hj
  have hp0 : (j + 0) % 2 ^ k = j := by
    rw [show j + 0 = j from rfl, Nat.mod_eq_of_lt hjk]
  have hELI0 : ELI m.hasher_ (2 ^ k)
      (m.buckets_.set j (bkt m.buckets_ j).clear)
      (m.buckets_.set j (bkt m.buckets_ j).clear)
      ((j + 0) % 2 ^ k) ((j + 0 + 1) % 2 ^ k) :=
    cast (congrArg
      (fun t => ELI m.hasher_ (2 ^ k)
        (m.buckets_.set j (bkt m.buckets_ j).clear)
        (m.buckets_.set j (bkt m.buckets_ j).clear) t
        ((j + 1) % 2 ^ k)) hp0.symm) hELI
  obtain ⟨jf, hjfle, hjfocc⟩ := hfempB
  have hrun := shiftLoop_run hk1 hk63 hjk hn1' hn2'
    (2 ^ k + 1) 0 (m.buckets_.set j (bkt m.buckets_ j).clear) (by omega)
    (by omega) (fun h => absurd h (by omega)) hELI0
    ⟨jf, by omega, Or.inr hjfocc⟩
  obtain ⟨B', heq', hlen', hslots', huniq', hadj', hcont', hcount',
    huntch⟩ := hrun
  rw [hp0] at heq'
  have hp01 : (j + 0 + 1) % 2 ^ k = (j + 1) % 2 ^ k := rfl
  rw [hp01] at heq'
  have hres : eraseCore 1 m key (m.hasher_ key) =
      some { m with buckets_ := B', size_ := m.size_ - 1 } := by
    simp only [eraseCore, hfb, if_pos hch, if_neg hm₁ne, if_neg hshr,
      HashMap.next_bucket]
    rw [hInv.mask_eq, hc, mask_step hk63 j, heq']
  refine ⟨B', hres, ?_⟩
  intro t u htu hu hstop
  rw [hc] at hstop ⊢
  rw [hc] at hu
  exact huntch t u htu hu hstop

/-- The public mutating operations, for stating persistence of a stored
pair across arbitrary operation sequences. -/
inductive MapOp (κ ν : Type) where
  | insertOp (value : κ × ν)
  | eraseOp (key : κ)
  | indexOp (key : κ)
  | clearOp

/-- Whether the operation erases the given key (`clear` erases every
key). -/
def removesKey : MapOp κ ν → κ → Prop
  | MapOp.eraseOp q, key => q = key
  | MapOp.clearOp, _ => True
  | MapOp.insertOp _, _ => False
  | MapOp.indexOp _, _ => False

instance (op : MapOp κ ν) (key : κ) : Decidable (removesKey op key) := by
  cases op with
  | insertOp v => exact inferInstanceAs (Decidable False)
  | eraseOp q => exact inferInstanceAs (Decidable (q = key))
  | indexOp q => exact inferInstanceAs (Decidable False)
  | clearOp => exact inferInstanceAs (Decidable True)

/-- Run one public operation. -/
def runOp [Inhabited ν] (m : HashMap κ ν) : MapOp κ ν → Option (HashMap κ ν)
  | MapOp.insertOp value => m.insert value
  | MapOp.eraseOp key => m.erase key
  | MapOp.indexOp key => (m.index key).map Prod.fst
  | MapOp.clearOp => some m.clear

/-- Run a sequence of public operations. -/
def runOps [Inhabited ν] :
    HashMap κ ν → List (MapOp κ ν) → Option (HashMap κ ν)
  | m, [] => some m
  | m, op :: ops =>
    match runOp m op with
    | none => none
    | some m' => runOps m' ops

/-- Repeated `insert`, in list order. -/
def runInserts : HashMap κ ν → List (κ × ν) → Option (HashMap κ ν)
  | m, [] => some m
  | m, kv :: rest =>
    match m.insert kv with
    | none => none
    | some m' => runInserts m' rest

/-- Writing a pair directly into its ideal slot with distance 0. -/
def setIdeal (H : κ → Nat) (mask : Nat) (B : List (HashBucket κ ν))
    (kv : κ × ν) : List (HashBucket κ ν) :=
  B.set (H kv.1 &&& mask) ⟨some kv, H kv.1, 0⟩

/-- Any single public operation preserves the invariant, and preserves
every stored pair whose key it does not erase. -/
theorem runOp_preserves [Inhabited ν] {m m' : HashMap κ ν} {op : MapOp κ ν}
    (hInv : Inv m) (h : runOp m op = some m') :
    Inv m' ∧ ∀ key v, MapsTo m key v → ¬removesKey op key →
      MapsTo m' key v := by
  cases op with
  | insertOp value =>
    obtain ⟨hI, -, hcont, -, -⟩ := insert_spec hInv h
    exact ⟨hI, fun key v hmt _ => (hcont key v).mpr (Or.inl hmt)⟩
  | eraseOp q =>
    obtain ⟨m'', heq, hI, -, hcont, -, -⟩ := erase_spec hInv q
    have hm : m'' = m' := Option.some.inj (heq.symm.trans h)
    subst hm
    exact ⟨hI, fun key v hmt hnr => (hcont key v).mpr
      ⟨hmt, fun hqk => hnr hqk.symm⟩⟩
  | indexOp q =>
    cases hidx : m.index q with
    | none =>
      rw [runOp, hidx] at h
      exact absurd h (by simp)
    | some mp =>
      obtain ⟨m₂, p⟩ := mp
      rw [runOp, hidx] at h
      have hm : m₂ = m' := Option.some.inj h
      obtain ⟨hI, -, hcont, -, -⟩ := index_spec hInv hidx
      exact ⟨hm ▸ hI, fun key v hmt _ =>
        hm ▸ ((hcont key v).mpr (Or.inl hmt))⟩
  | clearOp =>
    have hm : m.clear = m' := Option.some.inj h
    exact ⟨hm ▸ (clear_Inv m).1, fun key v hmt hnr => absurd trivial hnr⟩

/-- A stored pair survives any sequence of public operations none of which
erases its key. -/
theorem runOps_preserves [Inhabited ν] :
    ∀ (ops : List (MapOp κ ν)) (m m' : HashMap κ ν) (key : κ) (v : ν),
      Inv m → MapsTo m key v → (∀ op ∈ ops, ¬removesKey op key) →
      runOps m ops = some m' → Inv m' ∧ MapsTo m' key v := by
  intro ops
  induction ops with
  | nil =>
    intro m m' key v hI hmt _ hrun
    have hm : m = m' := Option.some.inj hrun
    subst hm
    exact ⟨hI, hmt⟩
  | cons op ops ih =>
    intro m m' key v hI hmt hno hrun
    cases hop : runOp m op with
    | none =>
      rw [runOps, hop] at hrun
      exact absurd hrun (by simp)
    | some m₁ =>
      rw [runOps, hop] at hrun
      obtain ⟨hI₁, hpres⟩ := runOp_preserves hI hop
      exact ih m₁ m' key v hI₁
        (hpres key v hmt (hno op (by simp)))
        (fun op' hop' => hno op' (by simp [hop'])) hrun

/-- Inserting an absent key whose ideal slot is empty, with headroom, writes
the pair into the ideal slot with distance 0 and touches nothing else. -/
theorem insert_ideal_empty {m : HashMap κ ν} (hInv : Inv m) {kv : κ × ν}
    (habs : ¬HasKey m kv.1) (hsz : m.size_ ≠ m.max_size_)
    (hemp : (bkt m.buckets_ (m.get_ideal (m.hasher_ kv.1))).payload = none) :
    m.insert kv = some { m with
      buckets_ := setIdeal m.hasher_ m.mask_ m.buckets_ kv,
      size_ := m.size_ + 1 } := by
  obtain ⟨k, hk1, hk63, hc⟩ := hInv.cap_pos_of_size_ne hsz
  have htb := hInv.tblOK
  obtain ⟨pos₀, hfb⟩ := Option.isSome_iff_exists.mp
    (find_bucket_isSome hc hk1 hk63 hInv.mask_eq htb kv.1 (m.hasher_ kv.1))
  have hnch := check_absent hc hk1 hk63 htb habs pos₀ (m.hasher_ kv.1)
  have hil : m.get_ideal (m.hasher_ kv.1) < m.capacity_ := by
    rw [get_ideal_eq hc hInv.mask_eq]
    exact Nat.mod_lt _ (cap_pos hc hk1 hk63)
  have hbe : (bkt m.buckets_ (m.get_ideal (m.hasher_ kv.1))).empty :=
    (hInv.slots _ hil).2 hemp
  have hpl : placeLoop m.capacity_ (m.capacity_ + 1) m.buckets_ (some kv)
      (m.hasher_ kv.1) (m.get_ideal (m.hasher_ kv.1)) 0 none =
      some (m.buckets_.set (m.get_ideal (m.hasher_ kv.1))
        ⟨some kv, m.hasher_ kv.1, 0⟩, m.get_ideal (m.hasher_ kv.1), none) := by
    rw [placeLoop.eq_2]
    simp only [if_pos hbe]
  show (insertCore 1 m kv (m.hasher_ kv.1)).map Prod.fst = _
  rw [insertCore_eq, hfb]
  simp only [if_neg hnch, if_neg hsz]
  rw [hpl]
  rfl

/-- Inserting a list of keys with pairwise distinct ideal slots, all absent,
all ideal slots empty, and total headroom, succeeds and produces exactly the
fold of direct ideal-slot writes. -/
theorem runInserts_layout :
    ∀ (L : List (κ × ν)) (m : HashMap κ ν), Inv m →
      m.size_ + L.length ≤ m.max_size_ →
      (∀ kv ∈ L, ¬HasKey m kv.1) →
      (∀ kv ∈ L,
        (bkt m.buckets_ (m.hasher_ kv.1 &&& m.mask_)).payload = none) →
      L.Pairwise (fun a b =>
        m.hasher_ a.1 &&& m.mask_ ≠ m.hasher_ b.1 &&& m.mask_) →
      ∃ m', runInserts m L = some m' ∧ Inv m' ∧
        m'.buckets_ = L.foldl (setIdeal m.hasher_ m.mask_) m.buckets_ ∧
        m'.size_ = m.size_ + L.length ∧ m'.capacity_ = m.capacity_ ∧
        m'.mask_ = m.mask_ ∧ m'.max_size_ = m.max_size_ ∧
        m'.min_size_ = m.min_size_ ∧ m'.hasher_ = m.hasher_ := by
  intro L
  induction L with
  | nil =>
    intro m hInv hlen habs hempty hpair
    exact ⟨m, rfl, hInv, rfl, rfl, rfl, rfl, rfl, rfl, rfl⟩
  | cons kv L ih =>
    intro m hInv hlen habs hempty hpair
    rw [List.length_cons] at hlen
    rw [List.pairwise_cons] at hpair
    have hsz : m.size_ ≠ m.max_size_ := by omega
    have hins := insert_ideal_empty hInv (habs kv (by simp)) hsz
      (hempty kv (by simp))
    obtain ⟨hI₁, -, hcont₁, -, -⟩ := insert_spec hInv hins
    have hmain := ih { m with
        buckets_ := setIdeal m.hasher_ m.mask_ m.buckets_ kv,
        size_ := m.size_ + 1 } hI₁ ?_ ?_ ?_ ?_
    · obtain ⟨m', hrun, hI', hbuck, hsize, hcap, hmask, hmax, hmin, hhash⟩ :=
        hmain
      refine ⟨m', ?_, hI', ?_, ?_, hcap, hmask, hmax, hmin, hhash⟩
      · rw [runInserts, hins]
        exact hrun
      · rw [List.foldl_cons]
        exact hbuck
      · rw [List.length_cons]
        have h1 : ({ m with
            buckets_ := setIdeal m.hasher_ m.mask_ m.buckets_ kv,
            size_ := m.size_ + 1 } : HashMap κ ν).size_ = m.size_ + 1 := rfl
        omega
    · show m.size_ + 1 + L.length ≤ m.max_size_
      omega
    · intro kv' hkv' hhk
      obtain ⟨i, hi, hkey⟩ := hhk
      obtain ⟨w, hpay⟩ := payload_of_keyOf hkey
      have hmt : MapsTo { m with
          buckets_ := setIdeal m.hasher_ m.mask_ m.buckets_ kv,
          size_ := m.size_ + 1 } kv'.1 w := ⟨i, hi, hpay⟩
      rcases (hcont₁ kv'.1 w).mp hmt with hold | ⟨hkv, -⟩
      · obtain ⟨j, hj, hpj⟩ := hold
        have hkj := keyOf_of_payload hpj
        exact habs kv' (by simp [hkv']) ⟨j, hj, hkj⟩
      · have hk1' : kv'.1 = kv.1 := by rw [← hkv]
        exact hpair.1 kv' hkv' (by rw [hk1'])
    · intro kv' hkv'
      show (bkt (setIdeal m.hasher_ m.mask_ m.buckets_ kv)
        (m.hasher_ kv'.1 &&& m.mask_)).payload = none
      unfold setIdeal
      rw [bkt_set_ne (hpair.1 kv' hkv')]
      exact hempty kv' (by simp [hkv'])
    · exact hpair.2

/-- The fold of direct ideal-slot writes is invariant under permutation of
the pairs, when their ideal slots are pairwise distinct. -/
theorem foldl_setIdeal_perm {H : κ → Nat} {mask : Nat}
    {L₁ L₂ : List (κ × ν)} (hperm : L₁.Perm L₂)
    (hnd : L₁.Pairwise (fun a b => H a.1 &&& mask ≠ H b.1 &&& mask))
    (B : List (HashBucket κ ν)) :
    L₁.foldl (setIdeal H mask) B = L₂.foldl (setIdeal H mask) B := by
  refine hperm.foldl_eq' ?_ B
  intro x hx y hy z
  by_cases hxy : x = y
  · subst hxy; rfl
  · have hsymm : Symmetric (fun a b : κ × ν =>
        H a.1 &&& mask ≠ H b.1 &&& mask) := fun a b h => h.symm
    have hne := List.Pairwise.forall hsymm hnd hx hy hxy
    show setIdeal H mask (setIdeal H mask z x) y =
      setIdeal H mask (setIdeal H mask z y) x
    unfold setIdeal
    exact List.set_comm _ _ _ hne

/-- Distinctness of ideal slots persists from a smaller power-of-two mask to
any larger one: the low `k` bits already differ. -/
theorem land_mask_mono {h₁ h₂ k k' : Nat} (hkk : k ≤ k')
    (hne : h₁ &&& (2 ^ k - 1) ≠ h₂ &&& (2 ^ k - 1)) :
    h₁ &&& (2 ^ k' - 1) ≠ h₂ &&& (2 ^ k' - 1) := by
  rw [land_mask, land_mask] at hne ⊢
  intro heq
  apply hne
  have hdvd : (2 : Nat) ^ k ∣ 2 ^ k' := pow_dvd_pow 2 hkk
  calc h₁ % 2 ^ k = h₁ % 2 ^ k' % 2 ^ k := (Nat.mod_mod_of_dvd _ hdvd).symm
    _ = h₂ % 2 ^ k' % 2 ^ k := by rw [heq]
    _ = h₂ % 2 ^ k := Nat.mod_mod_of_dvd _ hdvd

/-- A slot hit by none of the ideal-slot writes is untouched by the fold. -/
theorem bkt_foldl_setIdeal_ne {H : κ → Nat} {mask j : Nat} :
    ∀ (P : List (κ × ν)) (B : List (HashBucket κ ν)),
      (∀ kv ∈ P, H kv.1 &&& mask ≠ j) →
      bkt (P.foldl (setIdeal H mask) B) j = bkt B j := by
  intro P
  induction P with
  | nil => intro B _; rfl
  | cons kv P ih =>
    intro B hne
    rw [List.foldl_cons, ih _ (fun kv' h => hne kv' (by simp [h]))]
    exact bkt_set_ne (hne kv (by simp)) _

/-- Every bucket of the fold is either one of the base array's buckets or an
ideal-slot write of one of the pairs. -/
theorem mem_foldl_setIdeal {H : κ → Nat} {mask : Nat} :
    ∀ (P : List (κ × ν)) (B : List (HashBucket κ ν)) (b : HashBucket κ ν),
      b ∈ P.foldl (setIdeal H mask) B →
      b ∈ B ∨ ∃ kv ∈ P, b = ⟨some kv, H kv.1, 0⟩ := by
  intro P
  induction P with
  | nil => intro B b hb; exact Or.inl hb
  | cons kv P ih =>
    intro B b hb
    rw [List.foldl_cons] at hb
    rcases ih _ b hb with hmem | ⟨kv', hkv', hrest⟩
    · rcases List.mem_or_eq_of_mem_set hmem with h | h
      · exact Or.inl h
      · exact Or.inr ⟨kv, by simp, h⟩
    · exact Or.inr ⟨kv', by simp [hkv'], hrest⟩

/-- The payloads held by a bucket array, in slot order — the order in which
`rehash` re-inserts them. -/
def payloadsOf (B : List (HashBucket κ ν)) : List (κ × ν) :=
  B.filterMap (fun b => b.payload)

theorem payloadsOf_replicate (n : Nat) :
    payloadsOf (List.replicate n (HashBucket.vacant : HashBucket κ ν)) =
      [] := by
  induction n with
  | zero => rfl
  | succ n ih =>
    rw [List.replicate_succ]
    show payloadsOf (List.replicate n HashBucket.vacant) = []
    exact ih

theorem payloadsOf_cons_none {b : HashBucket κ ν}
    (hb : b.payload = none) (B : List (HashBucket κ ν)) :
    payloadsOf (b :: B) = payloadsOf B := by
  unfold payloadsOf
  rw [List.filterMap_cons, hb]

theorem payloadsOf_cons_some {b : HashBucket κ ν} {kv : κ × ν}
    (hb : b.payload = some kv) (B : List (HashBucket κ ν)) :
    payloadsOf (b :: B) = kv :: payloadsOf B := by
  unfold payloadsOf
  rw [List.filterMap_cons, hb]

/-- Writing a payload into an empty slot adds exactly that pair to the
payload list, up to permutation. -/
theorem payloadsOf_set_perm {B : List (HashBucket κ ν)} {i : Nat}
    (hi : i < B.length) (hemp : (bkt B i).payload = none)
    {b : HashBucket κ ν} {kv : κ × ν} (hb : b.payload = some kv) :
    (payloadsOf (B.set i b)).Perm (kv :: payloadsOf B) := by
  have hsplit : B.set i b = B.take i ++ b :: B.drop (i + 1) := by
    rw [List.set_eq_take_append_cons_drop, if_pos hi]
  have hBsplit : B = B.take i ++ bkt B i :: B.drop (i + 1) := by
    conv_lhs => rw [← List.take_append_drop i B]
    rw [List.drop_eq_getElem_cons hi, bkt_eq_getElem hi]
  have h₁ : payloadsOf (B.set i b) =
      payloadsOf (B.take i) ++ kv :: payloadsOf (B.drop (i + 1)) := by
    rw [hsplit]
    unfold payloadsOf
    rw [List.filterMap_append, List.filterMap_cons, hb]
  have h₂ : payloadsOf B =
      payloadsOf (B.take i) ++ payloadsOf (B.drop (i + 1)) := by
    conv_lhs => rw [hBsplit]
    unfold payloadsOf
    rw [List.filterMap_append, List.filterMap_cons, hemp]
  rw [h₁, h₂]
  exact List.perm_middle

/-- The fold of ideal-slot writes over a table whose target slots are empty
has exactly the written pairs and the base payloads as its payloads. -/
theorem payloadsOf_foldl_setIdeal {H : κ → Nat} {mask c : Nat} :
    ∀ (P : List (κ × ν)) (B : List (HashBucket κ ν)),
      B.length = c →
      (∀ kv ∈ P, H kv.1 &&& mask < c) →
      (∀ kv ∈ P, (bkt B (H kv.1 &&& mask)).payload = none) →
      P.Pairwise (fun a b => H a.1 &&& mask ≠ H b.1 &&& mask) →
      (payloadsOf (P.foldl (setIdeal H mask) B)).Perm (P ++ payloadsOf B) := by
  intro P
  induction P with
  | nil =>
    intro B _ _ _ _
    simpa using List.Perm.refl (payloadsOf B)
  | cons kv P ih =>
    intro B hlen hlt hemp hpw
    rw [List.pairwise_cons] at hpw
    rw [List.foldl_cons]
    have hlen' : (setIdeal H mask B kv).length = c := by
      rw [setIdeal, List.length_set]
      exact hlen
    have hstep := ih (setIdeal H mask B kv) hlen'
      (fun kv' h => hlt kv' (by simp [h]))
      (fun kv' h => by
        rw [setIdeal, bkt_set_ne (hpw.1 kv' h)]
        exact hemp kv' (by simp [h]))
      hpw.2
    have hfm : (payloadsOf (setIdeal H mask B kv)).Perm
        (kv :: payloadsOf B) :=
      payloadsOf_set_perm (by rw [hlen]; exact hlt kv (by simp))
        (hemp kv (by simp)) (b := ⟨some kv, H kv.1, 0⟩) rfl
    exact (hstep.trans (List.Perm.append_left P hfm)).trans List.perm_middle

/-- The no-grow placement of an absent key whose ideal slot is empty, at any
rehash fuel: the pair lands in the ideal slot with distance 0, preserving
the invariant and adding exactly the new pair to the content. -/
theorem insertCore_ideal_empty {m : HashMap κ ν} (hInv : Inv m) {kv : κ × ν}
    (habs : ¬HasKey m kv.1) (hsz : m.size_ ≠ m.max_size_)
    (hemp : (bkt m.buckets_ (m.get_ideal (m.hasher_ kv.1))).payload = none)
    (rfuel : Nat) :
    insertCore rfuel m kv (m.hasher_ kv.1) =
      some ({ m with
        buckets_ := setIdeal m.hasher_ m.mask_ m.buckets_ kv,
        size_ := m.size_ + 1 }, m.get_ideal (m.hasher_ kv.1)) ∧
    Inv { m with
      buckets_ := setIdeal m.hasher_ m.mask_ m.buckets_ kv,
      size_ := m.size_ + 1 } ∧
    (∀ q w, storedP m.capacity_
        (setIdeal m.hasher_ m.mask_ m.buckets_ kv) q w ↔
      (storedP m.capacity_ m.buckets_ q w ∨ (q, w) = kv)) := by
  obtain ⟨k, hk1, hk63, hc⟩ := hInv.cap_pos_of_size_ne hsz
  have htb := hInv.tblOK
  obtain ⟨pos₀, hfb⟩ := Option.isSome_iff_exists.mp
    (find_bucket_isSome hc hk1 hk63 hInv.mask_eq htb kv.1 (m.hasher_ kv.1))
  have hnch := check_absent hc hk1 hk63 htb habs pos₀ (m.hasher_ kv.1)
  have hil : m.get_ideal (m.hasher_ kv.1) < m.capacity_ := by
    rw [get_ideal_eq hc hInv.mask_eq]
    exact Nat.mod_lt _ (cap_pos hc hk1 hk63)
  have hbe : (bkt m.buckets_ (m.get_ideal (m.hasher_ kv.1))).empty :=
    (hInv.slots _ hil).2 hemp
  have hpl : placeLoop m.capacity_ (m.capacity_ + 1) m.buckets_ (some kv)
      (m.hasher_ kv.1) (m.get_ideal (m.hasher_ kv.1)) 0 none =
      some (m.buckets_.set (m.get_ideal (m.hasher_ kv.1))
        ⟨some kv, m.hasher_ kv.1, 0⟩, m.get_ideal (m.hasher_ kv.1), none) := by
    rw [placeLoop.eq_2]
    simp only [if_pos hbe]
  obtain ⟨B', pf, ans', hpl', hI', hcont'⟩ := placeLoop_insert hInv habs hsz
  have hids := Option.some.inj (hpl'.symm.trans hpl)
  have hB' : B' = m.buckets_.set (m.get_ideal (m.hasher_ kv.1))
      ⟨some kv, m.hasher_ kv.1, 0⟩ := congrArg Prod.fst hids
  have hset : setIdeal m.hasher_ m.mask_ m.buckets_ kv =
      m.buckets_.set (m.get_ideal (m.hasher_ kv.1))
        ⟨some kv, m.hasher_ kv.1, 0⟩ := rfl
  refine ⟨?_, ?_, ?_⟩
  · rw [insertCore_eq, hfb]
    simp only [if_neg hnch, if_neg hsz]
    rw [hpl]
    rfl
  · rw [hset, ← hB']
    exact hI'
  · intro q w
    rw [hset, ← hB']
    exact hcont' q w

/-- The grow threshold of a capacity-`2^k` table is at least half the
capacity. -/
theorem half_le_max_size {k : Nat} (hk1 : 1 ≤ k) :
    2 ^ (k - 1) ≤ min (2 ^ k - 1) (ceilMaxLoad (2 ^ k)) := by
  have h2 : 2 * 2 ^ (k - 1) = 2 ^ k := by
    rw [← pow_succ']
    congr 1
    omega
  exact le_min_mask_ceil Nat.one_le_two_pow (by omega)

/-- Deterministic capacity evolution: the capacity after an insert at
occupied count `n` into a table of capacity `c`, per `insert`'s grow
rule. -/
def capStep (c n : Nat) : Nat :=
  if n = min (c - 1) (ceilMaxLoad c) then (get_capacity (n + 1)).getD 0 else c

/-- Capacity after `n` inserts into an empty table of capacity `c`. -/
def capsAfter (c : Nat) : Nat → Nat
  | 0 => c
  | n + 1 => capStep (capsAfter c n) n

/-- Replay of `rehash`'s re-insertion into a table laid out as a fold of
ideal-slot writes: each occupied old bucket's pair lands in its own (empty)
ideal slot, extending the fold. -/
theorem reinsertWith_ideal (r : Nat) {H : κ → Nat} :
    ∀ (Bold : List (HashBucket κ ν)) (Q : List (κ × ν)) (m : HashMap κ ν),
      Inv m → m.hasher_ = H → m.size_ = Q.length →
      m.buckets_ = Q.foldl (setIdeal H m.mask_)
        (List.replicate m.capacity_ HashBucket.vacant) →
      (∀ q w, storedP m.capacity_ m.buckets_ q w ↔ (q, w) ∈ Q) →
      Q.length + (payloadsOf Bold).length ≤ m.max_size_ →
      (Q ++ payloadsOf Bold).Pairwise (fun a b =>
        H a.1 &&& m.mask_ ≠ H b.1 &&& m.mask_) →
      (∀ b ∈ Bold, ¬b.empty → ∃ kv : κ × ν, b.payload = some kv) →
      (∀ b ∈ Bold, b.empty → b.payload = none) →
      ∃ m', reinsertWith (fun m'' v h => insertCore r m'' v h) m Bold =
          some m' ∧
        Inv m' ∧ m'.hasher_ = H ∧ m'.capacity_ = m.capacity_ ∧
        m'.mask_ = m.mask_ ∧ m'.max_size_ = m.max_size_ ∧
        m'.min_size_ = m.min_size_ ∧
        m'.size_ = Q.length + (payloadsOf Bold).length ∧
        m'.buckets_ = (Q ++ payloadsOf Bold).foldl (setIdeal H m.mask_)
          (List.replicate m.capacity_ HashBucket.vacant) ∧
        (∀ q w, storedP m.capacity_ m'.buckets_ q w ↔
          (q, w) ∈ Q ++ payloadsOf Bold) := by
  intro Bold
  induction Bold with
  | nil =>
    intro Q m hInv hhash hsize hbuck hcont hbudget hpw hpay hempnone
    refine ⟨m, rfl, hInv, hhash, rfl, rfl, rfl, rfl, ?_, ?_, ?_⟩
    · simpa [payloadsOf] using hsize
    · simpa [payloadsOf] using hbuck
    · intro q w
      simpa [payloadsOf] using hcont q w
  | cons cur rest ih =>
    intro Q m hInv hhash hsize hbuck hcont hbudget hpw hpay hempnone
    by_cases hemp : cur.empty
    · have hcpay : cur.payload = none := hempnone cur (by simp) hemp
      have hpo : payloadsOf (cur :: rest) = payloadsOf rest :=
        payloadsOf_cons_none hcpay rest
      rw [hpo] at hbudget hpw
      obtain ⟨m', heq, hI, hh, hca, hma, hmx, hmn, hsz', hbk, hct⟩ :=
        ih Q m hInv hhash hsize hbuck hcont hbudget hpw
          (fun b hb => hpay b (by simp [hb]))
          (fun b hb => hempnone b (by simp [hb]))
      refine ⟨m', ?_, hI, hh, hca, hma, hmx, hmn, by rw [hsz', hpo], ?_, ?_⟩
      · rw [reinsertWith, if_pos hemp]
        exact heq
      · rw [hpo]
        exact hbk
      · intro q w
        rw [hpo]
        exact hct q w
    · obtain ⟨kv, hcpay⟩ := hpay cur (by simp) hemp
      have hpo : payloadsOf (cur :: rest) = kv :: payloadsOf rest :=
        payloadsOf_cons_some hcpay rest
      rw [hpo] at hbudget hpw
      obtain ⟨hpwQ, hpwK, hcross⟩ := List.pairwise_append.mp hpw
      have habs : ¬HasKey m kv.1 := by
        intro hK
        obtain ⟨w, hst⟩ := (hasKey_iff_stored kv.1).mp hK
        have hmem := (hcont kv.1 w).mp hst
        exact hcross (kv.1, w) hmem kv (by simp) rfl
      rw [List.length_cons] at hbudget
      have hsz : m.size_ ≠ m.max_size_ := by omega
      have hslot : (bkt m.buckets_ (m.get_ideal (m.hasher_ kv.1))).payload =
          none := by
        have hj : m.get_ideal (m.hasher_ kv.1) = H kv.1 &&& m.mask_ := by
          rw [HashMap.get_ideal, hhash]
        rw [hj, hbuck, bkt_foldl_setIdeal_ne Q _
          (fun q hq => hcross q hq kv (by simp)), bkt_replicate]
        rfl
      obtain ⟨hstep, hIstep, hcstep⟩ :=
        insertCore_ideal_empty hInv habs hsz hslot r
      have hassoc : (Q ++ [kv]) ++ payloadsOf rest =
          Q ++ kv :: payloadsOf rest := by simp
      obtain ⟨m', heq', hI', hh', hca', hma', hmx', hmn', hsz'', hbk', hct'⟩ :=
        ih (Q ++ [kv])
          { m with
            buckets_ := setIdeal m.hasher_ m.mask_ m.buckets_ kv,
            size_ := m.size_ + 1 }
          hIstep hhash
          (by
            show m.size_ + 1 = (Q ++ [kv]).length
            simp [hsize])
          (by
            show setIdeal m.hasher_ m.mask_ m.buckets_ kv = _
            rw [hhash, hbuck, List.foldl_append]
            rfl)
          (fun q w => (hcstep q w).trans
            (by rw [List.mem_append, List.mem_singleton, hcont q w]))
          (by
            show (Q ++ [kv]).length + (payloadsOf rest).length ≤ m.max_size_
            simp only [List.length_append, List.length_singleton]
            omega)
          (by
            show ((Q ++ [kv]) ++ payloadsOf rest).Pairwise _
            rw [hassoc]
            exact hpw)
          (fun b hb => hpay b (by simp [hb]))
          (fun b hb => hempnone b (by simp [hb]))
      refine ⟨m', ?_, hI', hh', hca', hma', hmx', hmn', ?_, ?_, ?_⟩
      · simp only [reinsertWith, if_neg hemp, hcpay, hstep]
        exact heq'
      · rw [hpo, List.length_cons]
        rw [show (Q ++ [kv]).length = Q.length + 1 from by simp] at hsz''
        omega
      · rw [hpo, ← hassoc]
        exact hbk'
      · intro q w
        rw [hpo, ← hassoc]
        exact hct' q w

/-- The grow path of `insert` on an all-ideal table: the rehash replays
every pair into its (larger-mask) ideal slot and the new pair is then placed
into its own empty ideal slot, so the result is again the canonical fold —
now over the grown capacity. -/
theorem insertCore_grow_ideal {m : HashMap κ ν} (hInv : Inv m) {kv : κ × ν}
    {H : κ → Nat} {k : Nat} (hk1 : 1 ≤ k) (hk63 : k ≤ 63)
    (hhash : m.hasher_ = H) (hc : m.capacity_ = 2 ^ k)
    {P : List (κ × ν)} (hsize : m.size_ = P.length)
    (hbuck : m.buckets_ = P.foldl (setIdeal H (2 ^ k - 1))
      (List.replicate (2 ^ k) HashBucket.vacant))
    (hcont : ∀ q w, storedP m.capacity_ m.buckets_ q w ↔ (q, w) ∈ P)
    (hpw : (P ++ [kv]).Pairwise (fun a b =>
      H a.1 &&& (2 ^ k - 1) ≠ H b.1 &&& (2 ^ k - 1)))
    (hsz : m.size_ = m.max_size_) (hbound : m.size_ + 1 ≤ 2 ^ 62) (r : Nat) :
    ∃ k' m' pos, insertCore (r + 1) m kv (m.hasher_ kv.1) = some (m', pos) ∧
      1 ≤ k' ∧ k' ≤ 63 ∧ k < k' ∧
      get_capacity (m.size_ + 1) = some (2 ^ k') ∧
      m'.capacity_ = 2 ^ k' ∧ m'.hasher_ = H ∧ m'.size_ = P.length + 1 ∧
      Inv m' ∧
      m'.buckets_ = (P ++ [kv]).foldl (setIdeal H (2 ^ k' - 1))
        (List.replicate (2 ^ k') HashBucket.vacant) ∧
      (∀ q w, storedP m'.capacity_ m'.buckets_ q w ↔ (q, w) ∈ P ++ [kv]) := by
  obtain ⟨hpwP, -, hPk⟩ := List.pairwise_append.mp hpw
  have hPkv : ∀ a ∈ P, H a.1 &&& (2 ^ k - 1) ≠ H kv.1 &&& (2 ^ k - 1) :=
    fun a ha => hPk a ha kv (by simp)
  have habs : ¬HasKey m kv.1 := by
    intro hK
    obtain ⟨w, hst⟩ := (hasKey_iff_stored kv.1).mp hK
    exact hPkv (kv.1, w) ((hcont kv.1 w).mp hst) rfl
  obtain ⟨pos₀, hfb⟩ := Option.isSome_iff_exists.mp
    (find_bucket_isSome hc hk1 hk63 hInv.mask_eq hInv.tblOK kv.1
      (m.hasher_ kv.1))
  have hnch := check_absent hc hk1 hk63 hInv.tblOK habs pos₀ (m.hasher_ kv.1)
  obtain ⟨k', hgc, hk'1, hk'63, h2n, -⟩ :=
    get_capacity_sound (n := m.size_ + 1) (by omega) hbound
  have hmsz : 2 ^ (k - 1) ≤ m.size_ := by
    rw [hsz, hInv.max_eq, hInv.mask_eq, hc]
    exact half_le_max_size hk1
  have hklt : k < k' := by
    have h2 : 2 * 2 ^ (k - 1) = 2 ^ k := by
      rw [← pow_succ']
      congr 1
      omega
    have h1 : 2 ^ k < 2 ^ k' := by omega
    exact (Nat.pow_lt_pow_iff_right (by norm_num)).mp h1
  obtain ⟨hIF, hFh, hFc, hFs, hFm, hFmax, hFmin, hFnostore, hFnokey⟩ :=
    freshTable_spec (ν := ν) hk'1 hk'63 m
  have hideal_lt : ∀ q ∈ P, H q.1 &&& (2 ^ k - 1) < 2 ^ k := by
    intro q _
    rw [land_mask]
    exact Nat.mod_lt _ (Nat.pos_pow_of_pos k (by norm_num))
  have hpp : (payloadsOf m.buckets_).Perm P := by
    rw [hbuck]
    have hper := payloadsOf_foldl_setIdeal P
      (List.replicate (2 ^ k) HashBucket.vacant)
      (List.length_replicate _ _) hideal_lt
      (fun q _ => by rw [bkt_replicate]; rfl) hpwP
    rw [payloadsOf_replicate] at hper
    simpa using hper
  have hpw' : (P ++ [kv]).Pairwise (fun a b =>
      H a.1 &&& (2 ^ k' - 1) ≠ H b.1 &&& (2 ^ k' - 1)) :=
    hpw.imp (land_mask_mono (le_of_lt hklt))
  obtain ⟨hpwP', -, hPk'⟩ := List.pairwise_append.mp hpw'
  have hPkv' : ∀ a ∈ P, H a.1 &&& (2 ^ k' - 1) ≠ H kv.1 &&& (2 ^ k' - 1) :=
    fun a ha => hPk' a ha kv (by simp)
  have hppPw : (payloadsOf m.buckets_).Pairwise (fun a b =>
      H a.1 &&& (2 ^ k' - 1) ≠ H b.1 &&& (2 ^ k' - 1)) :=
    (hpp.pairwise_iff (fun h => h.symm)).mpr hpwP'
  have hbudget : ([] : List (κ × ν)).length +
      (payloadsOf m.buckets_).length ≤
      (freshTable m (2 ^ k')).max_size_ := by
    rw [hFmax, hpp.length_eq, ← hsize]
    have hmin := le_min_mask_ceil (n := m.size_ + 1) (by omega) h2n
    simp only [List.length_nil]
    omega
  have hFbuck : (freshTable m (2 ^ k')).buckets_ =
      ([] : List (κ × ν)).foldl
        (setIdeal H (freshTable m (2 ^ k')).mask_)
        (List.replicate (freshTable m (2 ^ k')).capacity_
          HashBucket.vacant) := rfl
  have hclean1 : ∀ b ∈ m.buckets_, ¬b.empty →
      ∃ kv' : κ × ν, b.payload = some kv' := by
    intro b hb hbne
    rcases mem_foldl_setIdeal P _ b (hbuck ▸ hb) with hmem | ⟨kv', -, hbw⟩
    · exfalso
      apply hbne
      rw [List.eq_of_mem_replicate hmem]
      rfl
    · exact ⟨kv', by rw [hbw]⟩
  have hclean2 : ∀ b ∈ m.buckets_, b.empty → b.payload = none := by
    intro b hb hbe
    rcases mem_foldl_setIdeal P _ b (hbuck ▸ hb) with hmem | ⟨kv', -, hbw⟩
    · rw [List.eq_of_mem_replicate hmem]
      rfl
    · exfalso
      rw [hbw] at hbe
      have h0 : (0 : Nat) = UNOCCUPIED := hbe
      norm_num [UNOCCUPIED] at h0
  have hFcont : ∀ q w, storedP (freshTable m (2 ^ k')).capacity_
      (freshTable m (2 ^ k')).buckets_ q w ↔
      (q, w) ∈ ([] : List (κ × ν)) :=
    fun q w => ⟨fun h => absurd h (hFnostore q w), fun h => absurd h (by simp)⟩
  have hpwF : (([] : List (κ × ν)) ++ payloadsOf m.buckets_).Pairwise
      (fun a b => H a.1 &&& (freshTable m (2 ^ k')).mask_ ≠
        H b.1 &&& (freshTable m (2 ^ k')).mask_) := by
    rw [hFm]
    exact hppPw
  obtain ⟨m₁, hre, hI₁, h₁h, h₁c, h₁m, h₁mx, h₁mn, h₁s, h₁b, h₁cont⟩ :=
    reinsertWith_ideal r m.buckets_ [] (freshTable m (2 ^ k')) hIF
      (by rw [hFh]; exact hhash) (by rw [hFs]; rfl) hFbuck hFcont
      hbudget hpwF hclean1 hclean2
  have h₁c' : m₁.capacity_ = 2 ^ k' := by rw [h₁c, hFc]
  have h₁m' : m₁.mask_ = 2 ^ k' - 1 := by rw [h₁m, hFm]
  have h₁s' : m₁.size_ = P.length := by
    rw [h₁s, hpp.length_eq]
    simp
  have h₁b' : m₁.buckets_ = P.foldl (setIdeal H (2 ^ k' - 1))
      (List.replicate (2 ^ k') HashBucket.vacant) := by
    rw [h₁b, hFm, hFc]
    exact foldl_setIdeal_perm hpp hppPw _
  have h₁cont' : ∀ q w, storedP (2 ^ k') m₁.buckets_ q w ↔ (q, w) ∈ P := by
    intro q w
    have hx := h₁cont q w
    rw [hFc] at hx
    exact hx.trans ⟨fun h => hpp.mem_iff.mp (by simpa using h),
      fun h => by simpa using hpp.mem_iff.mpr h⟩
  have hj₁ : m₁.get_ideal (m.hasher_ kv.1) = H kv.1 &&& (2 ^ k' - 1) := by
    rw [HashMap.get_ideal, hhash, h₁m']
  have hslot : (bkt m₁.buckets_
      (m₁.get_ideal (m.hasher_ kv.1))).payload = none := by
    rw [hj₁, h₁b', bkt_foldl_setIdeal_ne P _ hPkv', bkt_replicate]
    rfl
  have hbe : (bkt m₁.buckets_ (m₁.get_ideal (m.hasher_ kv.1))).empty := by
    have hlt : m₁.get_ideal (m.hasher_ kv.1) < m₁.capacity_ := by
      rw [hj₁, h₁c', land_mask]
      exact Nat.mod_lt _ (Nat.pos_pow_of_pos k' (by norm_num))
    exact (hI₁.slots _ hlt).2 hslot
  have hpl : placeLoop m₁.capacity_ (m₁.capacity_ + 1) m₁.buckets_ (some kv)
      (m.hasher_ kv.1) (m₁.get_ideal (m.hasher_ kv.1)) 0 none =
      some (m₁.buckets_.set (m₁.get_ideal (m.hasher_ kv.1))
        ⟨some kv, m.hasher_ kv.1, 0⟩,
        m₁.get_ideal (m.hasher_ kv.1), none) := by
    rw [placeLoop.eq_2]
    simp only [if_pos hbe]
  have habs₁ : ¬HasKey m₁ kv.1 := by
    intro hK
    obtain ⟨w, hst⟩ := (hasKey_iff_stored kv.1).mp hK
    rw [h₁c'] at hst
    exact hPkv' (kv.1, w) ((h₁cont' kv.1 w).mp hst) rfl
  have hsz₁ : m₁.size_ ≠ m₁.max_size_ := by
    have hx : m.size_ + 1 ≤ m₁.max_size_ := by
      rw [h₁mx, hFmax]
      exact le_min_mask_ceil (by omega) h2n
    omega
  obtain ⟨B', pf, ans', hplx, hIx, hcx⟩ := placeLoop_insert hI₁ habs₁ hsz₁
  have hhm : m₁.hasher_ = m.hasher_ := by rw [h₁h, hhash]
  rw [hhm] at hplx
  have hids := Option.some.inj (hplx.symm.trans hpl)
  have hB' : B' = m₁.buckets_.set (m₁.get_ideal (m.hasher_ kv.1))
      ⟨some kv, m.hasher_ kv.1, 0⟩ := congrArg Prod.fst hids
  refine ⟨k', { m₁ with
      buckets_ := m₁.buckets_.set (m₁.get_ideal (m.hasher_ kv.1))
        ⟨some kv, m.hasher_ kv.1, 0⟩,
      size_ := m₁.size_ + 1 },
    m₁.get_ideal (m.hasher_ kv.1), ?_, hk'1, hk'63, hklt, hgc, ?_, ?_, ?_,
    ?_, ?_, ?_⟩
  · rw [insertCore_eq, hfb]
    simp only [if_neg hnch, if_pos hsz, hgc, rehashWith, hre, hpl]
  · exact h₁c'
  · exact h₁h
  · show m₁.size_ + 1 = P.length + 1
    rw [h₁s']
  · rw [← hB']
    exact hIx
  · show m₁.buckets_.set (m₁.get_ideal (m.hasher_ kv.1))
      ⟨some kv, m.hasher_ kv.1, 0⟩ = _
    rw [hj₁, hhash, h₁b', List.foldl_append]
    rfl
  · intro q w
    show storedP m₁.capacity_ (m₁.buckets_.set
      (m₁.get_ideal (m.hasher_ kv.1)) ⟨some kv, m.hasher_ kv.1, 0⟩) q w ↔ _
    rw [← hB', hcx q w, h₁c', h₁cont' q w, List.mem_append,
      List.mem_singleton]

/-- Canonical evolution of repeated insertion into an initially empty
power-of-two table whose keys have pairwise distinct ideal slots under the
initial mask: every intermediate state is the fold of ideal-slot writes over
a vacant table, the capacity evolves deterministically (`capsAfter`), and
the run never fails. -/
theorem runInserts_canon {H : κ → Nat} {k₀ : Nat} :
    ∀ (L P : List (κ × ν)) (k : Nat) (m : HashMap κ ν),
      1 ≤ k → k ≤ 63 → k₀ ≤ k → Inv m → m.hasher_ = H →
      m.capacity_ = 2 ^ k →
      m.capacity_ = capsAfter (2 ^ k₀) P.length →
      m.size_ = P.length →
      m.buckets_ = P.foldl (setIdeal H (2 ^ k - 1))
        (List.replicate (2 ^ k) HashBucket.vacant) →
      (∀ q w, storedP m.capacity_ m.buckets_ q w ↔ (q, w) ∈ P) →
      (P ++ L).Pairwise (fun a b =>
        H a.1 &&& (2 ^ k₀ - 1) ≠ H b.1 &&& (2 ^ k₀ - 1)) →
      P.length + L.length ≤ 2 ^ 62 →
      ∃ k' m', runInserts m L = some m' ∧ Inv m' ∧ m'.hasher_ = H ∧
        1 ≤ k' ∧ k' ≤ 63 ∧ k ≤ k' ∧ m'.capacity_ = 2 ^ k' ∧
        m'.capacity_ = capsAfter (2 ^ k₀) (P.length + L.length) ∧
        m'.size_ = P.length + L.length ∧
        m'.buckets_ = (P ++ L).foldl (setIdeal H (2 ^ k' - 1))
          (List.replicate (2 ^ k') HashBucket.vacant) := by
  intro L
  induction L with
  | nil =>
    intro P k m hk1 hk63 hk₀k hInv hhash hc hcaps hsize hbuck hcont hpw hbnd
    refine ⟨k, m, rfl, hInv, hhash, hk1, hk63, le_refl k, hc, ?_, ?_, ?_⟩
    · simpa using hcaps
    · simpa using hsize
    · simpa using hbuck
  | cons kv L ih =>
    intro P k m hk1 hk63 hk₀k hInv hhash hc hcaps hsize hbuck hcont hpw hbnd
    have hassoc : (P ++ [kv]) ++ L = P ++ kv :: L := by simp
    have hpw' : ((P ++ [kv]) ++ L).Pairwise (fun a b =>
        H a.1 &&& (2 ^ k₀ - 1) ≠ H b.1 &&& (2 ^ k₀ - 1)) := by
      rw [hassoc]
      exact hpw
    have hpwPkv : (P ++ [kv]).Pairwise (fun a b =>
        H a.1 &&& (2 ^ k₀ - 1) ≠ H b.1 &&& (2 ^ k₀ - 1)) :=
      (List.pairwise_append.mp hpw').1
    have hpwPkv_k : (P ++ [kv]).Pairwise (fun a b =>
        H a.1 &&& (2 ^ k - 1) ≠ H b.1 &&& (2 ^ k - 1)) :=
      hpwPkv.imp (land_mask_mono hk₀k)
    have hlenkv : (P ++ [kv]).length = P.length + 1 := by simp
    rw [List.length_cons] at hbnd
    by_cases hgr : m.size_ = m.max_size_
    · obtain ⟨k₁, m₁, pos, htr, hk₁1, hk₁63, hklt, hgcap, hcap₁, hhash₁,
        hsize₁, hI₁, hbuck₁, hcont₁⟩ :=
        insertCore_grow_ideal hInv hk1 hk63 hhash hc hsize hbuck hcont
          hpwPkv_k hgr (by omega) 0
      have hins : m.insert kv = some m₁ := by
        show (insertCore 1 m kv (m.hasher_ kv.1)).map Prod.fst = some m₁
        rw [show insertCore 1 m kv (m.hasher_ kv.1) = some (m₁, pos)
          from htr]
        rfl
      have hcaps₁ : m₁.capacity_ = capsAfter (2 ^ k₀) (P.length + 1) := by
        show m₁.capacity_ = capStep (capsAfter (2 ^ k₀) P.length) P.length
        rw [← hcaps]
        unfold capStep
        have hcond : P.length = min (m.capacity_ - 1)
            (ceilMaxLoad m.capacity_) := by
          rw [← hsize, ← hInv.mask_eq, ← hInv.max_eq]
          exact hgr
        rw [if_pos hcond, ← hsize, hgcap, hcap₁]
        rfl
      have hrec := ih (P ++ [kv]) k₁ m₁ hk₁1 hk₁63 (by omega) hI₁ hhash₁
        hcap₁ (by rw [hlenkv]; exact hcaps₁)
        (by rw [hlenkv]; exact hsize₁)
        hbuck₁ hcont₁ hpw' (by rw [hlenkv]; omega)
      obtain ⟨k', m', hrun, hI', hh', hk'1, hk'63, hk₁k', hcap', hcaps',
        hsize', hbuck'⟩ := hrec
      refine ⟨k', m', ?_, hI', hh', hk'1, hk'63, by omega, hcap', ?_, ?_, ?_⟩
      · rw [runInserts, hins]
        exact hrun
      · rw [List.length_cons]
        rw [hlenkv] at hcaps'
        rw [show P.length + (L.length + 1) = P.length + 1 + L.length
          from by omega]
        exact hcaps'
      · rw [List.length_cons]
        rw [hlenkv] at hsize'
        omega
      · rw [← hassoc]
        exact hbuck'
    · have hcross : ∀ q ∈ P, H q.1 &&& (2 ^ k - 1) ≠
          H kv.1 &&& (2 ^ k - 1) := by
        intro q hq
        obtain ⟨-, -, hPkv⟩ := List.pairwise_append.mp hpwPkv_k
        exact hPkv q hq kv (by simp)
      have habs : ¬HasKey m kv.1 := by
        intro hK
        obtain ⟨w, hst⟩ := (hasKey_iff_stored kv.1).mp hK
        exact hcross (kv.1, w) ((hcont kv.1 w).mp hst) rfl
      have hslot : (bkt m.buckets_
          (m.get_ideal (m.hasher_ kv.1))).payload = none := by
        have hj : m.get_ideal (m.hasher_ kv.1) =
            H kv.1 &&& (2 ^ k - 1) := by
          rw [HashMap.get_ideal, hhash, hInv.mask_eq, hc]
        rw [hj, hbuck, bkt_foldl_setIdeal_ne P _ hcross, bkt_replicate]
        rfl
      obtain ⟨hstep, hIstep, hcstep⟩ :=
        insertCore_ideal_empty hInv habs hgr hslot 1
      have hins : m.insert kv = some { m with
          buckets_ := setIdeal m.hasher_ m.mask_ m.buckets_ kv,
          size_ := m.size_ + 1 } := by
        show (insertCore 1 m kv (m.hasher_ kv.1)).map Prod.fst = _
        rw [hstep]
        rfl
      have hcaps₁ : ({ m with
          buckets_ := setIdeal m.hasher_ m.mask_ m.buckets_ kv,
          size_ := m.size_ + 1 } : HashMap κ ν).capacity_ =
          capsAfter (2 ^ k₀) (P.length + 1) := by
        show m.capacity_ = capStep (capsAfter (2 ^ k₀) P.length) P.length
        rw [← hcaps]
        unfold capStep
        have hcond : ¬(P.length = min (m.capacity_ - 1)
            (ceilMaxLoad m.capacity_)) := by
          intro heq
          apply hgr
          rw [hsize, hInv.max_eq, hInv.mask_eq]
          exact heq
        rw [if_neg hcond]
      have hrec := ih (P ++ [kv]) k
        { m with
          buckets_ := setIdeal m.hasher_ m.mask_ m.buckets_ kv,
          size_ := m.size_ + 1 }
        hk1 hk63 hk₀k hIstep hhash hc
        (by rw [hlenkv]; exact hcaps₁)
        (by
          show m.size_ + 1 = (P ++ [kv]).length
          rw [hlenkv, hsize])
        (by
          show setIdeal m.hasher_ m.mask_ m.buckets_ kv = _
          rw [hhash, hInv.mask_eq, hc, hbuck, List.foldl_append]
          rfl)
        (fun q w => (hcstep q w).trans
          (by rw [List.mem_append, List.mem_singleton, hcont q w]))
        hpw' (by rw [hlenkv]; omega)
      obtain ⟨k', m', hrun, hI', hh', hk'1, hk'63, hkk', hcap', hcaps',
        hsize', hbuck'⟩ := hrec
      refine ⟨k', m', ?_, hI', hh', hk'1, hk'63, hkk', hcap', ?_, ?_, ?_⟩
      · rw [runInserts, hins]
        exact hrun
      · rw [List.length_cons]
        rw [hlenkv] at hcaps'
        rw [show P.length + (L.length + 1) = P.length + 1 + L.length
          from by omega]
        exact hcaps'
      · rw [List.length_cons]
        rw [hlenkv] at hsize'
        omega
      · rw [← hassoc]
        exact hbuck'

/-! ### Concrete states used to exercise the specification claims -/

instance (m : HashMap κ ν) (key : κ) : Decidable (HasKey m key) :=
  decidable_of_iff
    (∃ i ∈ Finset.range m.capacity_, (bkt m.buckets_ i).keyOf = some key)
    (by simp [HasKey, Finset.mem_range])

/-- The identity hash function on `Nat`. -/
def idHasher : Nat → Nat := fun k => k

/-- `HashMap(idHasher, 1)`: empty, capacity 2. -/
def W0 : HashMap Nat Nat :=
  { hasher_ := idHasher, size_ := 0, capacity_ := 2, mask_ := 1,
    buckets_ := List.replicate 2 HashBucket.vacant,
    max_size_ := 1, min_size_ := 0 }

/-- `W0` after `insert((0, 1))`. -/
def W1 : HashMap Nat Nat :=
  { hasher_ := idHasher, size_ := 1, capacity_ := 2, mask_ := 1,
    buckets_ := [⟨some (0, 1), 0, 0⟩, HashBucket.vacant],
    max_size_ := 1, min_size_ := 0 }

/-- `HashMap(idHasher, 0)`: the default empty state, capacity 0. -/
def Wg0 : HashMap Nat Nat :=
  { hasher_ := idHasher, size_ := 0, capacity_ := 0, mask_ := 0,
    buckets_ := [], max_size_ := 0, min_size_ := 0 }

/-- `Wg0` after `insert((0, 0))` (grown to capacity 2). -/
def Wa : HashMap Nat Nat :=
  { hasher_ := idHasher, size_ := 1, capacity_ := 2, mask_ := 1,
    buckets_ := [⟨some (0, 0), 0, 0⟩, HashBucket.vacant],
    max_size_ := 1, min_size_ := 0 }

/-- `Wa` after `insert((1, 0))` (grown to capacity 4). -/
def Wb : HashMap Nat Nat :=
  { hasher_ := idHasher, size_ := 2, capacity_ := 4, mask_ := 3,
    buckets_ := [⟨some (0, 0), 0, 0⟩, ⟨some (1, 0), 1, 0⟩,
      HashBucket.vacant, HashBucket.vacant],
    max_size_ := 3, min_size_ := 0 }

/-- `HashMap(idHasher, 2)`: empty, capacity 4. -/
def W4 : HashMap Nat Nat :=
  { hasher_ := idHasher, size_ := 0, capacity_ := 4, mask_ := 3,
    buckets_ := List.replicate 4 HashBucket.vacant,
    max_size_ := 3, min_size_ := 0 }

theorem reachable_W0 : Reachable W0 := Reachable.ctor idHasher 1 rfl

theorem reachable_W1 : Reachable W1 :=
  Reachable.insert reachable_W0 (show W0.insert (0, 1) = some W1 from rfl)

theorem reachable_Wg0 : Reachable Wg0 := Reachable.ctor idHasher 0 rfl

theorem reachable_Wa : Reachable Wa :=
  Reachable.insert reachable_Wg0 (show Wg0.insert (0, 0) = some Wa from rfl)

theorem reachable_Wb : Reachable Wb :=
  Reachable.insert reachable_Wa (show Wa.insert (1, 0) = some Wb from rfl)

/-! ### The specification claims -/

/-- Claim C1 (amended): after inserting `(k, v)` for a key `k` that is not
yet present, `find k` yields an iterator to a slot storing the pair and
`at k` returns `v`; this persists across any further sequence of public
operations that neither erases `k` nor clears the map.  (The original claim
is refuted by `C1_counterexample`: inserting an already-present key does
not overwrite, so "after inserting (k, v), at(k) yields v" fails for
duplicate inserts.) -/
theorem C1_insert_roundtrip [Inhabited ν] {m m₁ : HashMap κ ν}
    (hR : Reachable m) {kv : κ × ν} (hfresh : ¬HasKey m kv.1)
    (hins : m.insert kv = some m₁) :
    m₁.atVal kv.1 = some (some kv.2) ∧
    (∃ j, m₁.find kv.1 = some (some j) ∧ j < m₁.capacity_ ∧
      (bkt m₁.buckets_ j).payload = some kv) ∧
    ∀ (ops : List (MapOp κ ν)) (m₂ : HashMap κ ν),
      (∀ op ∈ ops, ¬removesKey op kv.1) → runOps m₁ ops = some m₂ →
      m₂.atVal kv.1 = some (some kv.2) ∧
      ∃ j, m₂.find kv.1 = some (some j) ∧ j < m₂.capacity_ ∧
        (bkt m₂.buckets_ j).payload = some kv := by
  have hInv := reachable_Inv hR
  obtain ⟨hI₁, -, hcont, -, -⟩ := insert_spec hInv hins
  have hmt : MapsTo m₁ kv.1 kv.2 := (hcont kv.1 kv.2).mpr (Or.inr ⟨rfl, hfresh⟩)
  have hat := (atVal_spec hI₁ kv.1).1 kv.2 hmt
  obtain ⟨j, hj, hpay⟩ := hmt
  have hkey := keyOf_of_payload hpay
  have hfind := (find_spec hI₁ kv.1).1 j hj hkey
  refine ⟨hat, ⟨j, hfind, hj, hpay⟩, ?_⟩
  intro ops m₂ hno hrun
  obtain ⟨hI₂, hmt₂⟩ :=
    runOps_preserves ops m₁ m₂ kv.1 kv.2 hI₁ ⟨j, hj, hpay⟩ hno hrun
  have hat₂ := (atVal_spec hI₂ kv.1).1 kv.2 hmt₂
  obtain ⟨j₂, hj₂, hpay₂⟩ := hmt₂
  have hkey₂ := keyOf_of_payload hpay₂
  exact ⟨hat₂, j₂, (find_spec hI₂ kv.1).1 j₂ hj₂ hkey₂, hj₂, hpay₂⟩

/-- Witness for C1: inserting `(0, 1)` into the empty capacity-2 table makes
`at 0` return `1`. -/
theorem C1_insert_roundtrip_witness : W1.atVal 0 = some (some 1) :=
  (C1_insert_roundtrip reachable_W0 (by decide)
    (show W0.insert (0, 1) = some W1 from rfl)).1

/-- Counterexample to C1 as stated: `W1` stores `(0, 1)`; inserting `(0, 2)`
leaves the map unchanged (no overwrite), yet afterwards `at 0` still returns
`1`, not the just-inserted `2` — and `0` was never erased nor its value
overwritten by any operation. -/
theorem C1_counterexample :
    W1.insert (0, 2) = some W1 ∧ W1.atVal 0 = some (some 1) ∧
    W1.atVal 0 ≠ some (some 2) :=
  ⟨rfl, rfl, by decide⟩

/-- Claim C2: during erase of a present key (in a state where the
backward-shift pass runs), the pass stops at the first circular successor of
the freed slot that is empty or has stored distance `0`: every slot at or
beyond that stopper (in scan order) is left exactly as it was after the
resolved slot was cleared. -/
theorem C2_backward_shift_stops {m : HashMap κ ν} (hR : Reachable m)
    {key : κ} {j : Nat} (hj : j < m.capacity_)
    (hkeyj : (bkt m.buckets_ j).keyOf = some key)
    (hone : m.size_ - 1 ≠ 0) (hshr : ¬(m.size_ - 1 < m.min_size_)) :
    ∃ B', m.erase key =
        some { m with buckets_ := B', size_ := m.size_ - 1 } ∧
      ∀ t u, t ≤ u → u ≤ m.capacity_ - 2 →
        ((bkt (m.buckets_.set j (bkt m.buckets_ j).clear)
            (((j + 1) % m.capacity_ + t) % m.capacity_)).distance_ = 0 ∨
          ¬occAt (m.buckets_.set j (bkt m.buckets_ j).clear)
            (((j + 1) % m.capacity_ + t) % m.capacity_)) →
        bkt B' (((j + 1) % m.capacity_ + u) % m.capacity_) =
          bkt (m.buckets_.set j (bkt m.buckets_ j).clear)
            (((j + 1) % m.capacity_ + u) % m.capacity_) :=
  erase_shift_untouched (reachable_Inv hR) hj hkeyj hone hshr

/-- Witness for C2: erasing key `0` from `Wb` (slots `0`, `1` occupied); the
successor slot `1` has distance `0`, so the shift stops there at once and
slot `1` keeps its bucket `(1, 0)`. -/
theorem C2_backward_shift_stops_witness :
    (Wb.erase 0).map (fun m' => (bkt m'.buckets_ 1, m'.size_)) =
      some (⟨some (1, 0), 1, 0⟩, 1) := by
  obtain ⟨B', heq, hunt⟩ := C2_backward_shift_stops reachable_Wb
    (show 0 < Wb.capacity_ by decide)
    (show (bkt Wb.buckets_ 0).keyOf = some 0 from rfl)
    (by decide) (by decide)
  have hq := hunt 0 0 (by decide) (by decide) (by decide)
  have hq' : bkt B' 1 = (⟨some (1, 0), 1, 0⟩ : HashBucket Nat Nat) :=
    hq.trans (by decide)
  rw [heq]
  show some (bkt B' 1, Wb.size_ - 1) = some (⟨some (1, 0), 1, 0⟩, 1)
  rw [hq']
  rfl

/-- Claim C3 (amended): erasing the only key of a one-element map clears its
slot and returns early — size drops to `0` but the table keeps its capacity
and bucket array; it is NOT reset to the default capacity-0 state.  (The
original claim is refuted by `C3_counterexample`.) -/
theorem C3_erase_last_no_reset {m : HashMap κ ν} (hR : Reachable m)
    {key : κ} {j : Nat} (hj : j < m.capacity_)
    (hkeyj : (bkt m.buckets_ j).keyOf = some key) (hsz : m.size_ = 1) :
    m.erase key = some { m with
      buckets_ := m.buckets_.set j (bkt m.buckets_ j).clear,
      size_ := m.size_ - 1 } ∧
    ∀ m', m.erase key = some m' →
      m'.size_ = 0 ∧ m'.capacity_ = m.capacity_ ∧
      m'.buckets_.length = m.buckets_.length := by
  have h := erase_last (reachable_Inv hR) hj hkeyj hsz
  refine ⟨h, ?_⟩
  intro m' h'
  rw [h] at h'
  have he := Option.some.inj h'
  subst he
  refine ⟨?_, rfl, ?_⟩
  · show m.size_ - 1 = 0
    omega
  · show (m.buckets_.set j (bkt m.buckets_ j).clear).length = m.buckets_.length
    simp

/-- Witness for C3: erasing `0` from the one-element `W1` clears slot `0`
and keeps capacity `2`. -/
theorem C3_erase_last_no_reset_witness :
    W1.erase 0 = some { W1 with
      buckets_ := W1.buckets_.set 0 (bkt W1.buckets_ 0).clear,
      size_ := 0 } :=
  (C3_erase_last_no_reset reachable_W1 (show 0 < W1.capacity_ by decide)
    (show (bkt W1.buckets_ 0).keyOf = some 0 from rfl) (by decide)).1

/-- Counterexample to C3 as stated: `W1` holds exactly one key; erasing it
empties the map (`size = 0`) but capacity remains `2`, not the claimed
reset to `0`. -/
theorem C3_counterexample :
    W1.size_ = 1 ∧ (W1.erase 0).map HashMap.size_ = some 0 ∧
    (W1.erase 0).map HashMap.capacity_ = some 2 ∧ (2 : Nat) ≠ 0 :=
  ⟨rfl, rfl, rfl, by decide⟩

/-- Claim C4 (amended): a default-constructed map has capacity 0; inserting
one key grows it to capacity 2; but since the grow threshold of a capacity-2
table is `min(mask, ceil(0.8 * 2)) = 1`, inserting a second distinct key
triggers another grow: the insert succeeds with capacity 4, not 2.  (The
original "capacity remains 2" is refuted by `C4_counterexample`.) -/
theorem C4_two_inserts_capacities {hasher : κ → Nat} {m₀ : HashMap κ ν}
    (hmk : mkHashMap hasher 0 = some m₀) (kv₁ kv₂ : κ × ν)
    (hne : kv₂.1 ≠ kv₁.1) :
    m₀.capacity_ = 0 ∧
    ∃ m₁ m₂, m₀.insert kv₁ = some m₁ ∧ m₁.capacity_ = 2 ∧
      m₁.insert kv₂ = some m₂ ∧ m₂.capacity_ = 4 := by
  obtain ⟨hI₀, hsz₀, hhash₀, hnomap₀⟩ := mkHashMap_Inv hmk
  have hm₀ : some (update_sizes
      { hasher_ := hasher, size_ := 0, capacity_ := 0, mask_ := 0,
        buckets_ := [], max_size_ := 0, min_size_ := 0 } : HashMap κ ν) =
      some m₀ := hmk
  have hm₀' := Option.some.inj hm₀
  have hc₀ : m₀.capacity_ = 0 := by rw [← hm₀']; rfl
  have hmax₀ : m₀.max_size_ = 0 := by
    have hcl : ceilMaxLoad 0 = 0 := by norm_num [ceilMaxLoad]
    rw [hI₀.max_eq, hI₀.mask_eq, hc₀, hcl]
    omega
  have habs₁ : ¬HasKey m₀ kv₁.1 := by
    rintro ⟨i, hi, -⟩
    rw [hc₀] at hi
    omega
  obtain ⟨m₁, pos₁, k₁, hins₁, hk₁1, hk₁63, hgc₁, hcap₁, hhash₁, hsz₁, hI₁,
    hcont₁⟩ := insertCore_grow hI₀ habs₁ (by rw [hsz₀, hmax₀])
      (by rw [hsz₀]; norm_num) 0
  have hgc₁' : some ((2 : Nat) ^ k₁) = some 2 := by
    rw [← hgc₁, hsz₀]
    rfl
  have e2 := Option.some.inj hgc₁'
  have hcap₁' : m₁.capacity_ = 2 := by rw [hcap₁, e2]
  have hmax₁ : m₁.max_size_ = 1 := by
    rw [hI₁.max_eq, hI₁.mask_eq, hcap₁']
    decide
  have hsz₁' : m₁.size_ = 1 := by rw [hsz₁, hsz₀]
  have habs₂ : ¬HasKey m₁ kv₂.1 := by
    rintro ⟨i, hi, hk⟩
    obtain ⟨w, hpay⟩ := payload_of_keyOf hk
    rcases (hcont₁ kv₂.1 w).mp ⟨i, hi, hpay⟩ with hold | hnew
    · obtain ⟨i', hi', -⟩ := hold
      rw [hc₀] at hi'
      omega
    · exact hne (by rw [← hnew])
  obtain ⟨m₂, pos₂, k₂, hins₂, hk₂1, hk₂63, hgc₂, hcap₂, hhash₂, hsz₂, hI₂,
    hcont₂⟩ := insertCore_grow hI₁ habs₂ (by rw [hsz₁', hmax₁])
      (by rw [hsz₁']; norm_num) 0
  have hgc₂' : some ((2 : Nat) ^ k₂) = some 4 := by
    rw [← hgc₂, hsz₁']
    rfl
  have e4 := Option.some.inj hgc₂'
  have hins₁'' : m₀.insert kv₁ = some m₁ := by
    show (insertCore 1 m₀ kv₁ (m₀.hasher_ kv₁.1)).map Prod.fst = some m₁
    rw [show insertCore 1 m₀ kv₁ (m₀.hasher_ kv₁.1) = some (m₁, pos₁)
      from hins₁]
    rfl
  have hins₂'' : m₁.insert kv₂ = some m₂ := by
    show (insertCore 1 m₁ kv₂ (m₁.hasher_ kv₂.1)).map Prod.fst = some m₂
    rw [show insertCore 1 m₁ kv₂ (m₁.hasher_ kv₂.1) = some (m₂, pos₂)
      from hins₂]
    rfl
  exact ⟨hc₀, m₁, m₂, hins₁'', hcap₁', hins₂'', by rw [hcap₂, e4]⟩

/-- Witness for C4: the concrete capacity chain 0 → 2 → 4 with the identity
hasher and keys 0 and 1. -/
theorem C4_two_inserts_capacities_witness :
    Wg0.capacity_ = 0 ∧ Wg0.insert (0, 0) = some Wa ∧ Wa.capacity_ = 2 ∧
    Wa.insert (1, 0) = some Wb ∧ Wb.capacity_ = 4 := by
  obtain ⟨h0, m₁, m₂, h1, h2, h3, h4⟩ := C4_two_inserts_capacities
    (show mkHashMap idHasher 0 = some Wg0 from rfl) (0, 0) (1, 0) (by decide)
  have e1 : some m₁ = some Wa :=
    h1.symm.trans (show Wg0.insert (0, 0) = some Wa from rfl)
  have e1' := Option.some.inj e1
  subst e1'
  have e2 : some m₂ = some Wb :=
    h3.symm.trans (show Wa.insert (1, 0) = some Wb from rfl)
  have e2' := Option.some.inj e2
  subst e2'
  exact ⟨h0, h1, h2, h3, h4⟩

/-- Counterexample to C4 as stated: after the first insert the capacity is
2, but the second distinct insert grows the table to capacity 4 — it does
not remain 2. -/
theorem C4_counterexample :
    Wa.capacity_ = 2 ∧ Wa.insert (1, 0) = some Wb ∧ Wb.capacity_ = 4 ∧
    Wb.capacity_ ≠ 2 :=
  ⟨rfl, rfl, rfl, by decide⟩

/-- Claim C5 (amended): inserting the same pairs into a freshly constructed
map in any two orders yields identical final bucket layouts, provided the
pairs' ideal slots under the initial mask are pairwise distinct — the
proviso forced by `C5_counterexample` — and the key count stays within the
`size_t` range of the doubling loop (`get_capacity` wraps past `2 ^ 62`).
Growth is covered: ideal-slot distinctness persists under every larger
power-of-two mask, both orders grow at the same insert counts, and each
rehash replays every pair into its ideal slot of the grown table. -/
theorem C5_order_independent_layout {hasher : κ → Nat} {count : Nat}
    {m : HashMap κ ν} (hmk : mkHashMap hasher count = some m)
    {L₁ L₂ : List (κ × ν)} (hperm : L₁.Perm L₂)
    (hnd : L₁.Pairwise (fun a b =>
      hasher a.1 &&& m.mask_ ≠ hasher b.1 &&& m.mask_))
    (hbound : L₁.length ≤ 2 ^ 62) :
    ∃ m₁ m₂, runInserts m L₁ = some m₁ ∧ runInserts m L₂ = some m₂ ∧
      m₁.buckets_ = m₂.buckets_ ∧ m₁.size_ = m₂.size_ ∧
      m₁.capacity_ = m₂.capacity_ := by
  obtain ⟨hInv, hsz0, hhash, hnomap⟩ := mkHashMap_Inv hmk
  rw [← hhash] at hnd
  rcases hInv.cap_pow with hc0 | ⟨k₀, hk₀1, hk₀63, hc⟩
  · -- capacity 0: the mask is 0, so the distinct-ideal relation is empty
    -- and L₁ has at most one element; the two runs are the same run.
    have hm0 : m.mask_ = 0 := by rw [hInv.mask_eq, hc0]
    rw [hm0] at hnd
    have hz : ∀ x : Nat, x &&& 0 = 0 := by
      intro x
      rw [show (0 : Nat) = 2 ^ 0 - 1 from rfl, land_mask]
      exact Nat.mod_one x
    have hlen1 : L₁.length ≤ 1 := by
      cases L₁ with
      | nil => simp
      | cons a t =>
        cases t with
        | nil => simp
        | cons b t' =>
          exfalso
          rw [List.pairwise_cons] at hnd
          exact hnd.1 b (by simp)
            (by rw [hz (m.hasher_ a.1), hz (m.hasher_ b.1)])
    have hL2 : L₂ = L₁ := by
      cases L₁ with
      | nil => exact hperm.symm.eq_nil
      | cons a t =>
        cases t with
        | nil => exact (List.singleton_perm.mp hperm).symm
        | cons b t' => exact absurd hlen1 (by simp)
    rw [hL2]
    cases L₁ with
    | nil => exact ⟨m, m, rfl, rfl, rfl, rfl, rfl⟩
    | cons a t =>
      cases t with
      | nil =>
        obtain ⟨m', hins⟩ := insert_total hInv a (by rw [hsz0]; norm_num)
        exact ⟨m', m', by rw [runInserts, hins]; rfl,
          by rw [runInserts, hins]; rfl, rfl, rfl, rfl⟩
      | cons b t' => exact absurd hlen1 (by simp)
  · -- power-of-two initial capacity: run the canonical evolution.
    have hmask : m.mask_ = 2 ^ k₀ - 1 := by rw [hInv.mask_eq, hc]
    rw [hmask] at hnd
    have hbuck0 : m.buckets_ = List.replicate m.capacity_
        HashBucket.vacant := by
      cases hgc : get_capacity count with
      | none =>
        rw [mkHashMap, hgc] at hmk
        exact absurd hmk (by simp)
      | some c =>
        rw [mkHashMap, hgc] at hmk
        have hm := Option.some.inj hmk
        rw [← hm]
        rfl
    have hcont0 : ∀ q w, storedP m.capacity_ m.buckets_ q w ↔
        (q, w) ∈ ([] : List (κ × ν)) :=
      fun q w => ⟨fun h => absurd h (hnomap q w), fun h => absurd h (by simp)⟩
    have hbuckF : m.buckets_ = ([] : List (κ × ν)).foldl
        (setIdeal m.hasher_ (2 ^ k₀ - 1))
        (List.replicate (2 ^ k₀) HashBucket.vacant) := by
      rw [hbuck0, hc]
      rfl
    have hcaps0 : m.capacity_ = capsAfter (2 ^ k₀)
        (([] : List (κ × ν)).length) := by
      rw [hc]
      rfl
    have hnd₂ : L₂.Pairwise (fun a b =>
        m.hasher_ a.1 &&& (2 ^ k₀ - 1) ≠ m.hasher_ b.1 &&& (2 ^ k₀ - 1)) :=
      (hperm.pairwise_iff (fun h => h.symm)).mp hnd
    obtain ⟨kA, mA, hrunA, hIA, hhA, hkA1, hkA63, hkkA, hcapA, hcapsA,
      hsizeA, hbuckA⟩ :=
      runInserts_canon L₁ [] k₀ m hk₀1 hk₀63 (le_refl k₀) hInv rfl hc
        hcaps0 (by rw [hsz0]; rfl) hbuckF hcont0 (by simpa using hnd)
        (by simpa using hbound)
    obtain ⟨kB, mB, hrunB, hIB, hhB, hkB1, hkB63, hkkB, hcapB, hcapsB,
      hsizeB, hbuckB⟩ :=
      runInserts_canon L₂ [] k₀ m hk₀1 hk₀63 (le_refl k₀) hInv rfl hc
        hcaps0 (by rw [hsz0]; rfl) hbuckF hcont0 (by simpa using hnd₂)
        (by simpa [← hperm.length_eq] using hbound)
    have hlen12 : L₁.length = L₂.length := hperm.length_eq
    have hcapAB : mA.capacity_ = mB.capacity_ := by
      rw [hcapsA, hcapsB]
      simp [hlen12]
    have hkAB : kA = kB := by
      have hpow : (2 : Nat) ^ kA = 2 ^ kB := by
        rw [← hcapA, hcapAB, hcapB]
      exact Nat.pow_right_injective (by norm_num) hpow
    refine ⟨mA, mB, hrunA, hrunB, ?_, ?_, hcapAB⟩
    · rw [hbuckA, hbuckB, ← hkAB]
      have hndA : L₁.Pairwise (fun a b =>
          m.hasher_ a.1 &&& (2 ^ kA - 1) ≠
            m.hasher_ b.1 &&& (2 ^ kA - 1)) :=
        hnd.imp (land_mask_mono hkkA)
      exact foldl_setIdeal_perm hperm hndA _
    · rw [hsizeA, hsizeB]
      simp [hlen12]

/-- Witness for C5: the key sets `{0, 1}` (distinct ideal slots in the
capacity-4 table) inserted in both orders give the same layout. -/
theorem C5_order_independent_layout_witness :
    (runInserts W4 [(0, 10), (1, 11)]).map HashMap.buckets_ =
      (runInserts W4 [(1, 11), (0, 10)]).map HashMap.buckets_ ∧
    (runInserts W4 [(0, 10), (1, 11)]).isSome = true := by
  obtain ⟨m₁, m₂, h1, h2, hb, -, -⟩ := C5_order_independent_layout
    (show mkHashMap idHasher 2 = some W4 from rfl)
    (show List.Perm [((0 : Nat), (10 : Nat)), (1, 11)] [(1, 11), (0, 10)]
      by decide)
    (by decide) (by decide)
  constructor
  · rw [h1, h2]
    exact congrArg some hb
  · rw [h1]
    rfl

/-- Counterexample to C5 as stated: keys `0` and `4` share the ideal slot
`0` of the capacity-4 table; the two insertion orders of the same pair set
produce different physical layouts (the two keys swap slots 0 and 1). -/
theorem C5_counterexample :
    ∃ mA mB : HashMap Nat Nat,
      runInserts W4 [(0, 10), (4, 11)] = some mA ∧
      runInserts W4 [(4, 11), (0, 10)] = some mB ∧
      List.Perm [((0 : Nat), (10 : Nat)), (4, 11)] [(4, 11), (0, 10)] ∧
      mA.buckets_ ≠ mB.buckets_ := by
  refine ⟨_, _, rfl, rfl, by decide, by decide⟩

/-- Claim C6: `at` on any reachable state — including the empty table —
signals NotFound exactly when the key is absent, and returns the stored
value when it is present. -/
theorem C6_at_not_found {m : HashMap κ ν} (hR : Reachable m) (key : κ) :
    (¬HasKey m key → m.atVal key = some none) ∧
    (∀ v, MapsTo m key v → m.atVal key = some (some v)) := by
  have h := atVal_spec (reachable_Inv hR) key
  exact ⟨h.2, h.1⟩

/-- Witness for C6: `at 5` on the empty capacity-2 table signals NotFound
(`some none`), not a crash or a default value. -/
theorem C6_at_not_found_witness : W0.atVal 5 = some none :=
  (C6_at_not_found reachable_W0 5).1 (by decide)

/-- Claim C7: erasing an absent key is a silent no-op — the map (hence
`size()` and every stored mapping) is returned entirely unchanged. -/
theorem C7_erase_absent_noop {m : HashMap κ ν} (hR : Reachable m) {key : κ}
    (habs : ¬HasKey m key) : m.erase key = some m := by
  obtain ⟨m', heq, -, -, -, -, hid⟩ := erase_spec (reachable_Inv hR) key
  rw [heq, hid habs]

/-- Witness for C7: erasing the absent key `5` from `W1` returns `W1`
unchanged. -/
theorem C7_erase_absent_noop_witness : W1.erase 5 = some W1 :=
  C7_erase_absent_noop reachable_W1 (by decide)

/-- Claim C8: in every state reachable through the public interface the
capacity is exactly 0 or a power of two, and the stored mask equals
`capacity - 1` (with the capacity-0 state storing mask 0, the value the
constructor's guard and `clear` assign). -/
theorem C8_capacity_pow2_mask {m : HashMap κ ν} (hR : Reachable m) :
    (m.capacity_ = 0 ∨ ∃ k, m.capacity_ = 2 ^ k) ∧
    m.mask_ = m.capacity_ - 1 := by
  have hInv := reachable_Inv hR
  refine ⟨?_, hInv.mask_eq⟩
  rcases hInv.cap_pow with h | ⟨k, -, -, hk⟩
  · exact Or.inl h
  · exact Or.inr ⟨k, hk⟩

/-- Witness for C8: the capacity-2 state `W0` has `mask = capacity - 1`. -/
theorem C8_capacity_pow2_mask_witness : W0.mask_ = W0.capacity_ - 1 :=
  (C8_capacity_pow2_mask reachable_W0).2

/-- Claim C9: in every reachable state, a slot is empty exactly when its
distance field holds the sentinel `UNOCCUPIED`, and an occupied slot's
stored distance is strictly below the capacity — in particular it can never
equal the sentinel. -/
theorem C9_distance_below_sentinel {m : HashMap κ ν} (hR : Reachable m) :
    ∀ i, i < m.capacity_ →
      ((bkt m.buckets_ i).payload = none ↔
        (bkt m.buckets_ i).distance_ = UNOCCUPIED) ∧
      ∀ kv : κ × ν, (bkt m.buckets_ i).payload = some kv →
        (bkt m.buckets_ i).distance_ < m.capacity_ ∧
        (bkt m.buckets_ i).distance_ ≠ UNOCCUPIED := by
  have hInv := reachable_Inv hR
  intro i hi
  have hcpow : ∃ k, 1 ≤ k ∧ k ≤ 63 ∧ m.capacity_ = 2 ^ k := by
    rcases hInv.cap_pow with h0 | h
    · rw [h0] at hi
      omega
    · exact h
  obtain ⟨k, hk1, hk63, hc⟩ := hcpow
  have hc0 : 0 < m.capacity_ := by
    rw [hc]
    exact Nat.pos_pow_of_pos k (by norm_num)
  have hcle : m.capacity_ ≤ 2 ^ 63 := by
    rw [hc]
    exact Nat.pow_le_pow_right (by norm_num) hk63
  have hUN : 2 ^ 63 < UNOCCUPIED := by norm_num [UNOCCUPIED]
  have hs := hInv.slots i hi
  have hdisp : ∀ kv : κ × ν, (bkt m.buckets_ i).payload = some kv →
      (bkt m.buckets_ i).distance_ < m.capacity_ := by
    intro kv hp
    rw [(hs.1 kv hp).2]
    exact dispOf_lt hc0 _ _
  refine ⟨⟨hs.2, ?_⟩, fun kv hp => ⟨hdisp kv hp, ?_⟩⟩
  · intro hd
    cases hpo : (bkt m.buckets_ i).payload with
    | none => rfl
    | some kv =>
      have hlt := hdisp kv hpo
      rw [hd] at hlt
      exact absurd (lt_trans (lt_of_lt_of_le hlt hcle) hUN) (lt_irrefl _)
  · intro hd
    have hlt := hdisp kv hp
    rw [hd] at hlt
    exact absurd (lt_trans (lt_of_lt_of_le hlt hcle) hUN) (lt_irrefl _)

/-- Witness for C9: the occupied slot 0 of `W1` stores distance 0, which is
below the capacity 2 and differs from the sentinel. -/
theorem C9_distance_below_sentinel_witness :
    (bkt W1.buckets_ 0).distance_ < W1.capacity_ ∧
    (bkt W1.buckets_ 0).distance_ ≠ UNOCCUPIED :=
  (C9_distance_below_sentinel reachable_W1 0
    (show 0 < W1.capacity_ by decide)).2 (0, 1) rfl

/-- Claim C10: in every reachable state with nonzero capacity the occupied
count is at most `capacity - 1` (the grow threshold is clamped to the
mask), so some slot is empty, the probe of `find_bucket` terminates for
every key and hash, and `insert` terminates whenever the doubled capacity
still fits `size_t`. -/
theorem C10_headroom_and_termination {m : HashMap κ ν} (hR : Reachable m)
    (hcpos : 0 < m.capacity_) :
    m.size_ ≤ m.capacity_ - 1 ∧
    occCount m.capacity_ m.buckets_ < m.capacity_ ∧
    (∃ i, i < m.capacity_ ∧ (bkt m.buckets_ i).payload = none) ∧
    (∀ (key : κ) (hash : Nat), (find_bucket m key hash).isSome = true) ∧
    (∀ kv : κ × ν, m.size_ + 1 ≤ 2 ^ 62 → ∃ m', m.insert kv = some m') := by
  have hInv := reachable_Inv hR
  have hcpow : ∃ k, 1 ≤ k ∧ k ≤ 63 ∧ m.capacity_ = 2 ^ k := by
    rcases hInv.cap_pow with h0 | h
    · omega
    · exact h
  obtain ⟨k, hk1, hk63, hc⟩ := hcpow
  have hocc := hInv.occ_lt_cap hc
  have hsize : m.size_ ≤ m.capacity_ - 1 := by
    have h1 := hInv.size_le
    have h2 : m.max_size_ ≤ m.mask_ := by
      rw [hInv.max_eq]
      exact min_le_left _ _
    have h3 := hInv.mask_eq
    omega
  obtain ⟨e, hec, hemp⟩ := occCount_lt_exists_empty hocc
  refine ⟨hsize, hocc, ⟨e, hec, payload_of_not_occ hemp⟩, ?_,
    fun kv hb => insert_total hInv kv hb⟩
  intro key hash
  exact find_bucket_isSome hc hk1 hk63 hInv.mask_eq hInv.tblOK key hash

/-- Witness for C10: `W1` has size 1 ≤ capacity − 1 and a terminating probe
for key 5. -/
theorem C10_headroom_and_termination_witness :
    W1.size_ ≤ W1.capacity_ - 1 ∧ (find_bucket W1 5 5).isSome = true := by
  have h := C10_headroom_and_termination reachable_W1
    (show 0 < W1.capacity_ by decide)
  exact ⟨h.1, h.2.2.2.1 5 5⟩

end SuperHashMap
